/-
  Verification of the testdirs core (tree materializer, filesystem scanner,
  snapshot renderer) against its natural-language specification.

  The development shallowly embeds the TypeScript sources:
    - src/helpers.ts      : content constructors and classifier predicates
    - src/index.ts        : async materializer `createFileTree`, scanner entry
                            `fromFileSystem`
    - src/sync.ts         : sync materializer `createFileTreeSync`, scanner entry
                            `fromFileSystemSync`
    - src/utils.ts        : `isDirectory`, `processDirectory`,
                            `processDirectorySync`
    - src/helpers.ts      : `captureSnapshot` (snapshot renderer)

  JavaScript runtime values are modelled by the inductive `JSValue`; the
  `node:path` posix functions used by the sources are modelled at the
  path-segment level over `String.data` character lists; the filesystem is an
  association list from canonical absolute path strings to nodes, with
  symlink-following resolution.  Async and sync variants are embedded
  separately, mirroring their (small) source differences.
-/
import Mathlib

namespace Testdirs

/-! ## Path model: node:path (posix) collaborators

The sources use `path.normalize`, `path.resolve`, `path.join`, `path.relative`,
`path.dirname`, `path.basename` from `node:path`.  These are external
collaborators; we model their documented posix behaviour at the level of
`/`-separated segments (the byte-level details that differ — repeated or
trailing separators inside degenerate inputs — are preserved where the sources
can observe them: normalization keeps a trailing separator, resolution clamps
`..` at the root, and so on).  `resolve`-style functions take the process
current working directory explicitly, since `path.resolve` consults it. -/

/-- Split a string into its `/`-separated pieces (including empty pieces). -/
def splitSlash (s : String) : List String :=
  (s.data.splitOn '/').map String.mk

/-- The non-empty `/`-separated segments of a path string. -/
def segsOf (s : String) : List String :=
  (splitSlash s).filter (fun t => t ≠ "")

/-- Whether a path string is absolute (starts with `/`). -/
def isAbs (s : String) : Bool :=
  s.data.head? = some '/'

/-- Interleave `/` between character lists. -/
def joinChars : List (List Char) → List Char
  | [] => []
  | [d] => d
  | d :: rest => d ++ '/' :: joinChars rest

/-- Join segments with `/` (no leading separator). -/
def rawJoin (segs : List String) : String :=
  ⟨joinChars (segs.map String.data)⟩

/-- The canonical absolute path with the given segments (`mkAbs [] = "/"`). -/
def mkAbs (segs : List String) : String :=
  ⟨'/' :: joinChars (segs.map String.data)⟩

/-- One step of posix path normalization over a segment stack. -/
def normStep (allowAbove : Bool) (stack : List String) (seg : String) : List String :=
  if seg = "" ∨ seg = "." then stack
  else if seg = ".." then
    if stack ≠ [] ∧ stack.getLast? ≠ some ".." then stack.dropLast
    else if allowAbove then stack ++ [".."] else stack
  else stack ++ [seg]

/-- Normalize a segment list: drop empty and `.` segments, cancel `..` against
preceding segments; `allowAbove` keeps leading `..` segments (relative paths)
instead of clamping them at the root. -/
def normSegs (allowAbove : Bool) (segs : List String) : List String :=
  segs.foldl (normStep allowAbove) []

/-- Model of posix `path.normalize`. -/
def jsNormalize (p : String) : String :=
  if p = "" then "."
  else
    let abs := isAbs p
    let trail := p.data.getLast? = some '/'
    let res := normSegs (!abs) (segsOf p)
    if res = [] then (if abs then "/" else if trail then "./" else ".")
    else
      let base := rawJoin res
      let base := if trail then base ++ "/" else base
      if abs then "/" ++ base else base

/-- Segment form of posix `path.resolve`: fold the arguments left to right,
restarting at each absolute argument, then normalize without `..` overflow.
`cwd` is the process working directory (assumed absolute). -/
def resolveSegs (cwd : String) (args : List String) : List String :=
  normSegs false
    (args.foldl (fun acc a => if isAbs a then segsOf a else acc ++ segsOf a) (segsOf cwd))

/-- Model of posix `path.resolve` (always yields a canonical absolute path). -/
def jsResolve (cwd : String) (args : List String) : String :=
  mkAbs (resolveSegs cwd args)

/-- Model of posix `path.join`. -/
def jsJoin (args : List String) : String :=
  let parts := args.filter (fun a => a ≠ "")
  if parts = [] then "." else jsNormalize (rawJoin (parts.map id))

/-- Model of posix `path.dirname` (segment semantics). -/
def jsDirname (p : String) : String :=
  let segs := segsOf p
  if isAbs p then
    if segs.length ≤ 1 then "/" else mkAbs segs.dropLast
  else
    match segs with
    | [] => "."
    | [_] => "."
    | _ => rawJoin segs.dropLast

/-- Model of posix `path.basename`. -/
def jsBasename (p : String) : String :=
  match (segsOf p).getLast? with
  | some s => s
  | none => ""

/-- Length of the common prefix of two segment lists. -/
def commonPrefixLen : List String → List String → Nat
  | a :: as, b :: bs => if a = b then commonPrefixLen as bs + 1 else 0
  | _, _ => 0

/-- Model of posix `path.relative` (both ends resolved against `cwd` first). -/
def jsRelative (cwd f t : String) : String :=
  let fs := resolveSegs cwd [f]
  let ts := resolveSegs cwd [t]
  let c := commonPrefixLen fs ts
  rawJoin (List.replicate (fs.length - c) ".." ++ ts.drop c)

/-- A clean path segment: non-empty, not a dot segment, and separator-free.
Real directory-entry names are exactly the clean segments. -/
def cleanSeg (s : String) : Bool :=
  s ≠ "" && s ≠ "." && s ≠ ".." && !s.data.contains '/'

/-- All members of a segment list are clean. -/
def CleanSegs (l : List String) : Prop := ∀ s ∈ l, cleanSeg s = true

/-! ## JavaScript value model

`DirectoryJSON` values are arbitrary JavaScript values: primitives, arrays and
objects.  Objects carry string-keyed enumerable fields (in insertion order,
which is what `for (... in ...)` iterates) plus the library's four well-known
symbol-keyed slots (`FIXTURE_TYPE_SYMLINK_SYMBOL`, `FIXTURE_TYPE_LINK_SYMBOL`,
`FIXTURE_METADATA_SYMBOL`, `FIXTURE_ORIGINAL_PATH_SYMBOL` from
src/constants.ts), modelled by `Tags`.  A boolean tag records whether the slot
holds the symbol itself (the only value the library ever stores there); an
`Option` tag records the slot's value with `none` for absent/`null`. -/

/-- Filesystem metadata attached by the `metadata` helper (src/types.ts
`FSMetadata`): the permission bits, which the sources read as
`metadata?.mode`. -/
structure FSMeta where
  mode : Option Nat
deriving DecidableEq, Repr

/-- The symbol-keyed slots of an object. -/
structure Tags where
  symlinkTag : Bool
  linkTag : Bool
  metaTag : Option FSMeta
  origPath : Option String
deriving DecidableEq, Repr

/-- An object with none of the library's symbol keys. -/
def noTags : Tags := ⟨false, false, none, none⟩

/-- JavaScript runtime values, as far as the sources can observe them. -/
inductive JSValue where
  /-- a text string -/
  | vstr (s : String)
  /-- a number (the sources only stringify them, so integers suffice) -/
  | vnum (n : Int)
  | vbool (b : Bool)
  | vnull
  | vundefined
  | vbigint (n : Int)
  /-- a symbol with its description -/
  | vsymbol (descr : String)
  /-- a `Uint8Array` / `Buffer`, written and read verbatim -/
  | vbytes (bytes : List Nat)
  | varr (elems : List JSValue)
  /-- an object: enumerable string-keyed fields in insertion order, plus the
  library's symbol-keyed slots -/
  | vobj (fields : List (String × JSValue)) (tags : Tags)
deriving Repr

/-- JavaScript `typeof`. -/
def typeofJS : JSValue → String
  | .vstr _ => "string"
  | .vnum _ => "number"
  | .vbool _ => "boolean"
  | .vnull => "object"
  | .vundefined => "undefined"
  | .vbigint _ => "bigint"
  | .vsymbol _ => "symbol"
  | .vbytes _ => "object"
  | .varr _ => "object"
  | .vobj _ _ => "object"

/-- Whether a value is literally `null`. -/
def isNullJS : JSValue → Bool
  | .vnull => true
  | _ => false

/-- The symbol-keyed slots of a value (plain arrays, typed arrays and
primitives carry none of the library's symbols). -/
def tagsOf : JSValue → Tags
  | .vobj _ t => t
  | _ => noTags

/-- Property read `v[key]` for a string key (absent keys yield `undefined`;
property access on non-objects yields nothing the sources use). -/
def objGet (v : JSValue) (key : String) : JSValue :=
  match v with
  | .vobj fields _ =>
    match fields.lookup key with
    | some x => x
    | none => .vundefined
  | _ => .vundefined

/-- Property write `v[key] = x` (updates in place, appends if absent). -/
def setField (v : JSValue) (key : String) (x : JSValue) : JSValue :=
  match v with
  | .vobj fields tags =>
    if (fields.lookup key).isSome then
      .vobj (fields.map fun kv => if kv.1 = key then (kv.1, x) else kv) tags
    else
      .vobj (fields ++ [(key, x)]) tags
  | other => other

/-- The string stored at a field (the sources only read `data.path` on values
whose `path` field is a string). -/
def strField (v : JSValue) (key : String) : String :=
  match objGet v key with
  | .vstr s => s
  | _ => ""

/-! ### helpers.ts: constructors and classifiers -/

/-- `symlink` from src/helpers.ts: a symbolic-link marker whose `path` is the
normalized target. -/
def symlink (path : String) : JSValue :=
  .vobj [("path", .vstr (jsNormalize path))] { noTags with symlinkTag := true }

/-- `link` from src/helpers.ts: a hard-link marker whose `path` is the
normalized target. -/
def link (path : String) : JSValue :=
  .vobj [("path", .vstr (jsNormalize path))] { noTags with linkTag := true }

/-- `metadata` from src/helpers.ts: wraps content together with filesystem
metadata under the metadata symbol. -/
def metadata (content : JSValue) (m : FSMeta) : JSValue :=
  .vobj [("content", content)] { noTags with metaTag := some m }

/-- `isSymlink` from src/helpers.ts:
`typeof value === "object" && value !== null && value[SYMLINK_SYMBOL] === SYMLINK_SYMBOL`. -/
def isSymlink (v : JSValue) : Bool :=
  typeofJS v = "object" && !isNullJS v && (tagsOf v).symlinkTag

/-- `isLink` from src/helpers.ts. -/
def isLink (v : JSValue) : Bool :=
  typeofJS v = "object" && !isNullJS v && (tagsOf v).linkTag

/-- `hasMetadata` from src/helpers.ts:
`typeof value === "object" && value !== null && value[METADATA_SYMBOL] != null`. -/
def hasMetadata (v : JSValue) : Bool :=
  typeofJS v = "object" && !isNullJS v && ((tagsOf v).metaTag).isSome

/-- `isPrimitive` from src/helpers.ts: string, number, boolean, `null`,
`undefined`, bigint, symbol, or a `Uint8Array`. -/
def isPrimitive (v : JSValue) : Bool :=
  match v with
  | .vstr _ | .vnum _ | .vbool _ | .vnull | .vundefined
  | .vbigint _ | .vsymbol _ | .vbytes _ => true
  | _ => false

/-- JavaScript `String(value)` coercion for the primitive variants the
materializer stringifies before writing. -/
def jsToString : JSValue → String
  | .vstr s => s
  | .vnum n => toString n
  | .vbool b => if b then "true" else "false"
  | .vnull => "null"
  | .vundefined => "undefined"
  | .vbigint n => toString n
  | .vsymbol d => "Symbol(" ++ d ++ ")"
  | _ => ""

/-! ## Filesystem model

A filesystem is a finite map from canonical absolute path strings to nodes,
represented as an association list (earlier bindings shadow later ones, and
directory-listing order is the list order, standing in for the
OS-determined order).  Node's `fs` primitives used by the sources —
`stat`, `mkdir {recursive}`, `writeFile`, `symlink`, `link`, `readdir
{withFileTypes}`, `readFile`, `readlink` — are modelled below; `stat`,
`readFile` and `writeFile` follow symbolic links, `readdir` dirents and
`readlink` do not. -/

/-- An on-disk node. `symlinkN` records the raw target text and the link type
argument (`"file"` or `"junction"`) that was passed at creation. -/
inductive FSNode where
  | dirN (mode : Option Nat)
  | fileN (content : String) (mode : Option Nat)
  | symlinkN (target : String) (ty : String)
deriving DecidableEq, Repr

/-- A filesystem: canonical absolute paths to nodes. -/
abbrev FS := List (String × FSNode)

/-- Filesystem errors (Node errno classes the sources can encounter). -/
inductive FSErr where
  | enoent (p : String)
  | eexist (p : String)
  | enotdir (p : String)
  | eisdir (p : String)
  | eloop (p : String)
  /-- fuel exhaustion of a fuel-bounded embedding (never reached under the
  dominant fuel the wrappers supply) -/
  | nofuel (p : String)
deriving DecidableEq, Repr

def fsLookup (fs : FS) (p : String) : Option FSNode :=
  fs.lookup p

/-- Bind a path to a node, replacing any existing binding. -/
def fsSet (fs : FS) (p : String) (n : FSNode) : FS :=
  match fs with
  | [] => [(p, n)]
  | (q, m) :: rest => if q = p then (p, n) :: rest else (q, m) :: fsSet rest p n

/-- Follow symbolic links from a canonical absolute path to the node it
denotes (fuel-bounded, like the kernel's ELOOP limit). -/
def resolveNode (fs : FS) : Nat → String → Option (String × FSNode)
  | 0, _ => none
  | fuel + 1, p =>
    match fsLookup fs p with
    | some (.symlinkN t _) => resolveNode fs fuel (jsResolve "/" [jsDirname p, t])
    | some n => some (p, n)
    | none => none

/-- `isDirectory` / `isDirectorySync` from src/utils.ts: `stat(path)` and
`isDirectory()`, with every error mapped to `false`. -/
def isDirectoryFS (fs : FS) (cwd : String) (p : String) : Bool :=
  match resolveNode fs 40 (jsResolve cwd [p]) with
  | some (_, .dirN _) => true
  | _ => false

/-- The chain of absolute prefixes of a canonical absolute path, shortest
first and including the path itself (`/a/b` ↦ `[/a, /a/b]`; the root is never
created). -/
def prefixesOf (p : String) : List String :=
  ((segsOf p).foldl (fun acc seg => acc ++ [acc.getLastD [] ++ [seg]]) []).map mkAbs

/-- One `mkdir` step per prefix of the recursive creation: an existing
directory is left untouched, an existing non-directory is an error, a missing
path is created with the given mode. -/
def mkdirFold (mode : Option Nat) (fs : FS) : List String → Except FSErr FS
  | [] => .ok fs
  | q :: rest =>
    match fsLookup fs q with
    | some (.dirN _) => mkdirFold mode fs rest
    | some _ => .error (.enotdir q)
    | none => mkdirFold mode (fsSet fs q (.dirN mode)) rest

/-- `mkdir {recursive: true}`: create every missing prefix as a directory with
the given mode; an existing directory is left untouched, an existing
non-directory in the chain is an error. -/
def mkdirRec (fs : FS) (p : String) (mode : Option Nat) : Except FSErr FS :=
  mkdirFold mode fs (prefixesOf p)

/-- `writeFile(p, data, {mode})`: the parent must be (or resolve to) a
directory; an existing directory at `p` is an error; otherwise the file is
created or truncated with the given mode. -/
def writeFileFS (fs : FS) (p : String) (content : String) (mode : Option Nat) :
    Except FSErr FS :=
  match resolveNode fs 40 (jsDirname p) with
  | some (_, .dirN _) =>
    match fsLookup fs p with
    | some (.dirN _) => .error (.eisdir p)
    | some (.symlinkN _ _) => .error (.eloop p)
    | _ => .ok (fsSet fs p (.fileN content mode))
  | _ => .error (.enoent p)

/-- `symlink(target, p, ty)`: `p` must not exist and its parent must be a
directory; records the target text verbatim. -/
def symlinkFS (fs : FS) (target p ty : String) : Except FSErr FS :=
  if (fsLookup fs p).isSome then .error (.eexist p)
  else
    match resolveNode fs 40 (jsDirname p) with
    | some (_, .dirN _) => .ok (fsSet fs p (.symlinkN target ty))
    | _ => .error (.enoent p)

/-- `link(existing, p)`: the existing path must resolve to a file, `p` must
not exist and its parent must be a directory. -/
def linkFS (fs : FS) (existing p : String) : Except FSErr FS :=
  match resolveNode fs 40 existing with
  | some (_, .fileN c m) =>
    if (fsLookup fs p).isSome then .error (.eexist p)
    else
      match resolveNode fs 40 (jsDirname p) with
      | some (_, .dirN _) => .ok (fsSet fs p (.fileN c m))
      | _ => .error (.enoent p)
  | _ => .error (.enoent existing)

/-- `readFile(p, encoding)`: follows symlinks; a string for a text encoding,
a byte buffer for the `null` encoding sentinel. -/
def readFileFS (fs : FS) (p : String) (encoding : Option String) :
    Except FSErr JSValue :=
  match resolveNode fs 40 p with
  | some (_, .fileN c _) =>
    match encoding with
    | some _ => .ok (.vstr c)
    | none => .ok (.vbytes (c.data.map Char.toNat))
  | some (_, .dirN _) => .error (.eisdir p)
  | _ => .error (.enoent p)

/-- `readlink(p)`: the raw target text of a symbolic link. -/
def readlinkFS (fs : FS) (p : String) : Except FSErr String :=
  match fsLookup fs p with
  | some (.symlinkN t _) => .ok t
  | some _ => .error (.enotdir p)
  | none => .error (.enoent p)

/-- `readdir(dir, {withFileTypes: true})`: the immediate children of a
canonical absolute directory path, as (name, node) dirents in listing order
(dirent types are `lstat`-like: a symlink is reported as a symlink). -/
def readdirFS (fs : FS) (dirPath : String) : List (String × FSNode) :=
  fs.filterMap fun qn =>
    if qn.1 ≠ dirPath ∧ jsDirname qn.1 = dirPath then some (jsBasename qn.1, qn.2)
    else none

/-! ## Tree materializer

`createFileTree` from src/index.ts and `createFileTreeSync` from src/sync.ts.
Both walk the entries of the files object in insertion order (`for ... in`
skips the symbol-keyed slots), and both mutate the input tree: when a
provenance marker is present, a symbolic-link marker's `path` field is
overwritten with the re-based target before the link is written.  The
embeddings therefore return the (possibly mutated) tree next to the resulting
filesystem; on an error, the JavaScript original leaves the partially mutated
tree with the caller, which the `Except.error` result does not record.

The only behavioural difference between the async and sync sources is in the
symlink write: src/index.ts writes `path.normalize(data.path)` while
src/sync.ts writes `data.path` verbatim. -/

mutual

/-- Structural size of a value, counting fields and elements but not key
strings (termination measure for the materializer). -/
def jsSize : JSValue → Nat
  | .vobj fields _ => 1 + entsSize fields
  | .varr xs => 1 + listSize xs
  | _ => 1

/-- Size of an entry list. -/
def entsSize : List (String × JSValue) → Nat
  | [] => 0
  | (_, v) :: rest => 1 + jsSize v + entsSize rest

/-- Size of a value list. -/
def listSize : List JSValue → Nat
  | [] => 0
  | v :: rest => 1 + jsSize v + listSize rest

end

/-- `for ... in` over an array visits its indices in order. -/
def indexedEntries (start : Nat) : List JSValue → List (String × JSValue)
  | [] => []
  | v :: rest => (toString start, v) :: indexedEntries (start + 1) rest

/-- The string-keyed entries that `for ... in` visits on a value. -/
def entriesOfValue : JSValue → List (String × JSValue)
  | .vobj fields _ => fields
  | .varr xs => indexedEntries 0 xs
  | _ => []

/-- Rebuild a value from the (possibly mutated) entries the loop visited. -/
def rebuildValue (v : JSValue) (ents : List (String × JSValue)) : JSValue :=
  match v with
  | .vobj _ tags => .vobj ents tags
  | .varr _ => .varr (ents.map Prod.snd)
  | other => other

/-- The content a metadata wrapper is stripped to:
`data = hasMetadata(data) ? data.content : data`. -/
def innerData (data0 : JSValue) : JSValue :=
  if hasMetadata data0 then objGet data0 "content" else data0

/-- The mode actually passed to a recursive `mkdir`:
`...(metadata?.mode ? { mode: metadata.mode } : {})` — note that a `0` mode is
falsy, hence dropped. -/
def dirModeOf (meta : Option FSMeta) : Option Nat :=
  match meta with
  | some m =>
    match m.mode with
    | some mm => if mm = 0 then none else some mm
    | none => none
  | none => none

/-- The content bytes `writeFile` stores for the (possibly stringified) data. -/
def writtenContent : JSValue → String
  | .vbytes bs => ⟨bs.map Char.ofNat⟩
  | v => jsToString v

/-- `createFileTree` from src/index.ts (async variant): the `for ... in` body,
written with a structural fuel argument (the fuel strictly dominates the
number of loop steps and directory descents, so the wrapper below never
exhausts it).  `prov` is the iterated object's value at
`FIXTURE_ORIGINAL_PATH_SYMBOL`.  Returns the resulting filesystem together
with the (mutated) entry list. -/
def createEntries (cwd : String) :
    Nat → String → Option String → List (String × JSValue) → FS →
    Except FSErr (FS × List (String × JSValue))
  | 0, filePath, _, _, _ => .error (.nofuel filePath)
  | _ + 1, _, _, [], fs => .ok (fs, [])
  | fuel + 1, filePath, prov, (name, data0) :: rest, fs =>
    let meta : Option FSMeta := if hasMetadata data0 then (tagsOf data0).metaTag else none
    let data := innerData data0
    let filename := jsResolve cwd [filePath, name]
    if isLink data then
      match linkFS fs (jsResolve cwd [jsDirname filename, strField data "path"]) filename with
      | .error e => .error e
      | .ok fs1 =>
        match createEntries cwd fuel filePath prov rest fs1 with
        | .error e => .error e
        | .ok (fs2, rest') => .ok (fs2, (name, data0) :: rest')
    else if isSymlink data then
      let data' :=
        match prov with
        | some orig0 =>
          let original := jsResolve cwd [jsNormalize orig0]
          setField data "path"
            (.vstr (jsRelative cwd (jsDirname filename) (jsJoin [original, name])))
        | none => data
      let entry0 := if hasMetadata data0 then setField data0 "content" data' else data'
      let ty := if isDirectoryFS fs cwd filename then "junction" else "file"
      match symlinkFS fs (jsNormalize (strField data' "path")) filename ty with
      | .error e => .error e
      | .ok fs1 =>
        match createEntries cwd fuel filePath prov rest fs1 with
        | .error e => .error e
        | .ok (fs2, rest') => .ok (fs2, (name, entry0) :: rest')
    else if isPrimitive data then
      match mkdirRec fs (jsDirname filename) none with
      | .error e => .error e
      | .ok fs1 =>
        match writeFileFS fs1 filename (writtenContent data) (meta.bind (·.mode)) with
        | .error e => .error e
        | .ok fs2 =>
          match createEntries cwd fuel filePath prov rest fs2 with
          | .error e => .error e
          | .ok (fs3, rest') => .ok (fs3, (name, data0) :: rest')
    else
      match mkdirRec fs filename (dirModeOf meta) with
      | .error e => .error e
      | .ok fs1 =>
        match createEntries cwd fuel filename (tagsOf data).origPath (entriesOfValue data) fs1 with
        | .error e => .error e
        | .ok (fs2, ents') =>
          let data' := rebuildValue data ents'
          let entry0 := if hasMetadata data0 then setField data0 "content" data' else data'
          match createEntries cwd fuel filePath prov rest fs2 with
          | .error e => .error e
          | .ok (fs3, rest') => .ok (fs3, (name, entry0) :: rest')

/-- `createFileTree` from src/index.ts: materialize a files object at
`filePath`, returning the resulting filesystem and the (mutated) files
object. -/
def createFileTree (cwd filePath : String) (files : JSValue) (fs : FS) :
    Except FSErr (FS × JSValue) :=
  match createEntries cwd (entsSize (entriesOfValue files) + 1) filePath
      (tagsOf files).origPath (entriesOfValue files) fs with
  | .ok (fs', ents') => .ok (fs', rebuildValue files ents')
  | .error e => .error e

/-- `createFileTreeSync` from src/sync.ts (entry loop): identical to
`createEntries` except that the symlink write passes `data.path` verbatim
instead of `path.normalize(data.path)`. -/
def createEntriesSync (cwd : String) :
    Nat → String → Option String → List (String × JSValue) → FS →
    Except FSErr (FS × List (String × JSValue))
  | 0, filePath, _, _, _ => .error (.nofuel filePath)
  | _ + 1, _, _, [], fs => .ok (fs, [])
  | fuel + 1, filePath, prov, (name, data0) :: rest, fs =>
    let meta : Option FSMeta := if hasMetadata data0 then (tagsOf data0).metaTag else none
    let data := innerData data0
    let filename := jsResolve cwd [filePath, name]
    if isLink data then
      match linkFS fs (jsResolve cwd [jsDirname filename, strField data "path"]) filename with
      | .error e => .error e
      | .ok fs1 =>
        match createEntriesSync cwd fuel filePath prov rest fs1 with
        | .error e => .error e
        | .ok (fs2, rest') => .ok (fs2, (name, data0) :: rest')
    else if isSymlink data then
      let data' :=
        match prov with
        | some orig0 =>
          let original := jsResolve cwd [jsNormalize orig0]
          setField data "path"
            (.vstr (jsRelative cwd (jsDirname filename) (jsJoin [original, name])))
        | none => data
      let entry0 := if hasMetadata data0 then setField data0 "content" data' else data'
      let ty := if isDirectoryFS fs cwd filename then "junction" else "file"
      match symlinkFS fs (strField data' "path") filename ty with
      | .error e => .error e
      | .ok fs1 =>
        match createEntriesSync cwd fuel filePath prov rest fs1 with
        | .error e => .error e
        | .ok (fs2, rest') => .ok (fs2, (name, entry0) :: rest')
    else if isPrimitive data then
      match mkdirRec fs (jsDirname filename) none with
      | .error e => .error e
      | .ok fs1 =>
        match writeFileFS fs1 filename (writtenContent data) (meta.bind (·.mode)) with
        | .error e => .error e
        | .ok fs2 =>
          match createEntriesSync cwd fuel filePath prov rest fs2 with
          | .error e => .error e
          | .ok (fs3, rest') => .ok (fs3, (name, data0) :: rest')
    else
      match mkdirRec fs filename (dirModeOf meta) with
      | .error e => .error e
      | .ok fs1 =>
        match createEntriesSync cwd fuel filename (tagsOf data).origPath (entriesOfValue data) fs1 with
        | .error e => .error e
        | .ok (fs2, ents') =>
          let data' := rebuildValue data ents'
          let entry0 := if hasMetadata data0 then setField data0 "content" data' else data'
          match createEntriesSync cwd fuel filePath prov rest fs2 with
          | .error e => .error e
          | .ok (fs3, rest') => .ok (fs3, (name, entry0) :: rest')

/-- `createFileTreeSync` from src/sync.ts. -/
def createFileTreeSync (cwd filePath : String) (files : JSValue) (fs : FS) :
    Except FSErr (FS × JSValue) :=
  match createEntriesSync cwd (entsSize (entriesOfValue files) + 1) filePath
      (tagsOf files).origPath (entriesOfValue files) fs with
  | .ok (fs', ents') => .ok (fs', rebuildValue files ents')
  | .error e => .error e

/-! ## Filesystem scanner

`processDirectory` / `processDirectorySync` from src/utils.ts and
`fromFileSystem` / `fromFileSystemSync` from src/index.ts and src/sync.ts.
The two variants differ in exactly one expression: the provenance slot is
`resolve(path)` (async) versus `normalize(path)` (sync).  Recursion into
subdirectories is fuel-bounded in the embedding; callers pass at least the
number of filesystem entries plus one, which dominates any directory depth. -/

/-- Scan options (src/types.ts `FromFileSystemOptions` sans `extras`):
`getEncodingForFile` yields `none` for the `null` "raw bytes" sentinel. -/
structure ScanOptions where
  ignore : List String
  followLinks : Bool
  getEncodingForFile : String → Option String

/-- The directory listing `processDirectory` iterates: `readdir` at the
resolved path, filtered by `ignore`. -/
def listingOf (fs : FS) (cwd : String) (opts : ScanOptions) (p : String) :
    List (String × FSNode) :=
  (readdirFS fs (jsResolve cwd [p])).filter fun e => ¬ opts.ignore.contains e.1

/-- The entry loop of `processDirectory` from src/utils.ts (async variant),
fuel-structural.  A directory entry recurses on `fullPath :=`
`` `${path}/${file.name}` `` and wraps the sub-fields with that call's own
provenance slot `resolve(fullPath)`. -/
def scanEntries (fs : FS) (cwd : String) (opts : ScanOptions) :
    Nat → String → List (String × FSNode) →
    Except FSErr (List (String × JSValue))
  | 0, p, _ => .error (.nofuel p)
  | _ + 1, _, [] => .ok []
  | fuel + 1, p, (name, node) :: rest =>
    let fullPath := p ++ "/" ++ name
    match
      (match node with
       | .dirN _ =>
         match scanEntries fs cwd opts fuel fullPath (listingOf fs cwd opts fullPath) with
         | .ok fields =>
           .ok (JSValue.vobj fields { noTags with origPath := some (jsResolve cwd [fullPath]) })
         | .error e => .error e
       | .symlinkN _ _ =>
         if opts.followLinks then
           match readlinkFS fs (jsResolve cwd [fullPath]) with
           | .ok target => .ok (symlink target)
           | .error e => .error e
         else
           readFileFS fs (jsResolve cwd [fullPath]) (opts.getEncodingForFile fullPath)
       | .fileN _ _ =>
         readFileFS fs (jsResolve cwd [fullPath]) (opts.getEncodingForFile fullPath) :
        Except FSErr JSValue) with
    | .error e => .error e
    | .ok value =>
      match scanEntries fs cwd opts fuel p rest with
      | .error e => .error e
      | .ok fields => .ok ((name, value) :: fields)

/-- `processDirectory` from src/utils.ts. -/
def processDirectory (fs : FS) (cwd : String) (opts : ScanOptions) (fuel : Nat)
    (p : String) : Except FSErr JSValue :=
  match scanEntries fs cwd opts fuel p (listingOf fs cwd opts p) with
  | .ok fields => .ok (.vobj fields { noTags with origPath := some (jsResolve cwd [p]) })
  | .error e => .error e

/-- The entry loop of `processDirectorySync` from src/utils.ts: identical to
`scanEntries` except that every provenance slot records `normalize(path)`
instead of `resolve(path)`. -/
def scanEntriesSync (fs : FS) (cwd : String) (opts : ScanOptions) :
    Nat → String → List (String × FSNode) →
    Except FSErr (List (String × JSValue))
  | 0, p, _ => .error (.nofuel p)
  | _ + 1, _, [] => .ok []
  | fuel + 1, p, (name, node) :: rest =>
    let fullPath := p ++ "/" ++ name
    match
      (match node with
       | .dirN _ =>
         match scanEntriesSync fs cwd opts fuel fullPath (listingOf fs cwd opts fullPath) with
         | .ok fields =>
           .ok (JSValue.vobj fields { noTags with origPath := some (jsNormalize fullPath) })
         | .error e => .error e
       | .symlinkN _ _ =>
         if opts.followLinks then
           match readlinkFS fs (jsResolve cwd [fullPath]) with
           | .ok target => .ok (symlink target)
           | .error e => .error e
         else
           readFileFS fs (jsResolve cwd [fullPath]) (opts.getEncodingForFile fullPath)
       | .fileN _ _ =>
         readFileFS fs (jsResolve cwd [fullPath]) (opts.getEncodingForFile fullPath) :
        Except FSErr JSValue) with
    | .error e => .error e
    | .ok value =>
      match scanEntriesSync fs cwd opts fuel p rest with
      | .error e => .error e
      | .ok fields => .ok ((name, value) :: fields)

/-- `processDirectorySync` from src/utils.ts. -/
def processDirectorySync (fs : FS) (cwd : String) (opts : ScanOptions) (fuel : Nat)
    (p : String) : Except FSErr JSValue :=
  match scanEntriesSync fs cwd opts fuel p (listingOf fs cwd opts p) with
  | .ok fields => .ok (.vobj fields { noTags with origPath := some (jsNormalize p) })
  | .error e => .error e

/-- Object spread `{...a, ...b}`: `a`'s keys in order with `b`'s values
overriding, then `b`'s remaining keys in order; symbol slots of `b` override
when present. -/
def spreadFields (fst snd : List (String × JSValue)) : List (String × JSValue) :=
  (fst.map fun kv =>
    match snd.lookup kv.1 with
    | some w => (kv.1, w)
    | none => kv)
  ++ snd.filter fun kv => (fst.lookup kv.1).isNone

/-- Spread-merge of the two objects' symbol slots. -/
def spreadTags (a b : Tags) : Tags :=
  { symlinkTag := a.symlinkTag || b.symlinkTag
    linkTag := a.linkTag || b.linkTag
    metaTag := b.metaTag.orElse fun _ => a.metaTag
    origPath := b.origPath.orElse fun _ => a.origPath }

/-- `{...files, ...extras}` on two objects. -/
def spreadObjs (files extras : JSValue) : JSValue :=
  match files, extras with
  | .vobj f ft, .vobj e et => .vobj (spreadFields f e) (spreadTags ft et)
  | .vobj f ft, _ => .vobj f ft
  | v, _ => v

/-- Default scan-option resolution performed by `fromFileSystem` /
`fromFileSystemSync` (`ignore ?? []`, `followLinks ?? true`,
`getEncodingForFile ?? () => "utf-8"`). -/
def resolveOptions (ignore : Option (List String)) (followLinks : Option Bool)
    (enc : Option (String → Option String)) : ScanOptions :=
  { ignore := ignore.getD []
    followLinks := followLinks.getD true
    getEncodingForFile := enc.getD fun _ => some "utf-8" }

/-- `fromFileSystem` from src/index.ts: empty object for a missing or
non-directory path, otherwise the processed directory spread-merged with the
caller's `extras`. -/
def fromFileSystem (fs : FS) (cwd : String) (p : String) (opts : ScanOptions)
    (extras : Option JSValue) : Except FSErr JSValue :=
  if ¬ isDirectoryFS fs cwd p then .ok (.vobj [] noTags)
  else
    match processDirectory fs cwd opts (fs.length + 1) p with
    | .ok files =>
      .ok (match extras with
           | some e => spreadObjs files e
           | none => files)
    | .error e => .error e

/-- `fromFileSystemSync` from src/sync.ts. -/
def fromFileSystemSync (fs : FS) (cwd : String) (p : String) (opts : ScanOptions)
    (extras : Option JSValue) : Except FSErr JSValue :=
  if ¬ isDirectoryFS fs cwd p then .ok (.vobj [] noTags)
  else
    match processDirectorySync fs cwd opts (fs.length + 1) p with
    | .ok files =>
      .ok (match extras with
           | some e => spreadObjs files e
           | none => files)
    | .error e => .error e

/-! ## Snapshot renderer

`captureSnapshot` from src/helpers.ts.  The recursive `readdir` result is an
input here (a list of dirents with `parentPath`/`name`/`isDirectory()`), so
that theorems can quantify over the listing order the OS happens to produce.
`localeCompare` under the process's fixed collation is modelled by a fixed
total order on strings (codepoint-lexicographic).  String `.length`,
`.slice` and `.lastIndexOf` act on the character sequence (the sources only
meet ASCII path text, where JS UTF-16 units and characters coincide). -/

/-- One dirent of `readdir(path, {recursive: true, withFileTypes: true})`. -/
structure SnapEntry where
  parentPath : String
  name : String
  isDir : Bool
deriving DecidableEq, Repr

/-- One child record in the tree map. -/
structure SnapChild where
  name : String
  isDir : Bool
deriving DecidableEq, Repr

/-- Codepoint-lexicographic order on character lists (the fixed-collation
model of `localeCompare`). -/
def charListLe : List Char → List Char → Bool
  | [], _ => true
  | _ :: _, [] => false
  | a :: as, b :: bs =>
    if a.toNat < b.toNat then true
    else if b.toNat < a.toNat then false
    else charListLe as bs

def strLe (a b : String) : Bool :=
  charListLe a.data b.data

/-- The sort comparator of `captureSnapshot`: directories first, then by
name. -/
def childLeB (a b : SnapChild) : Bool :=
  if a.isDir ≠ b.isDir then a.isDir else strLe a.name b.name

/-- Insertion step of the sort. -/
def insertChild (c : SnapChild) : List SnapChild → List SnapChild
  | [] => [c]
  | d :: ds => if childLeB c d then c :: d :: ds else d :: insertChild c ds

/-- The sort applied to each children array (JavaScript `Array#sort` with a
consistent comparator: the unique `childLeB`-sorted arrangement). -/
def sortChildren : List SnapChild → List SnapChild
  | [] => []
  | c :: cs => insertChild c (sortChildren cs)

/-- Drop a single trailing separator: `path.replace(/[/\\]$/, "")`. -/
def stripTrailingSlash (s : String) : String :=
  if s.data.getLast? = some '/' then ⟨s.data.dropLast⟩ else s

/-- Index of the last occurrence of a character (`String#lastIndexOf`). -/
def lastIdxOf (c : Char) (l : List Char) : Option Nat :=
  match l with
  | [] => none
  | x :: xs =>
    match lastIdxOf c xs with
    | some i => some (i + 1)
    | none => if x = c then some 0 else none

/-- The `(relativePath, parentDir, child)` computed for one dirent. -/
def snapKeyChild (basePathLength : Nat) (e : SnapEntry) : String × SnapChild :=
  let fullPath := jsNormalize (jsJoin [e.parentPath, e.name])
  let relativePath : List Char := fullPath.data.drop (basePathLength + 1)
  let parentDir : String :=
    match lastIdxOf '/' relativePath with
    | none => ""
    | some i => ⟨relativePath.take i⟩
  (parentDir, ⟨e.name, e.isDir⟩)

/-- Append a child under its parent key (insertion-ordered map of arrays). -/
def treeAdd (tree : List (String × List SnapChild)) (key : String)
    (c : SnapChild) : List (String × List SnapChild) :=
  match tree with
  | [] => [(key, [c])]
  | (k, cs) :: rest =>
    if k = key then (k, cs ++ [c]) :: rest else (k, cs) :: treeAdd rest key c

/-- The tree map built from the dirent list. -/
def buildTree (basePathLength : Nat) (entries : List SnapEntry) :
    List (String × List SnapChild) :=
  entries.foldl (fun t e =>
    let kc := snapKeyChild basePathLength e
    treeAdd t kc.1 kc.2) []

/-- The already-sorted children of a directory key (`tree.get(dirPath)`),
`[]` when absent (the early return). -/
def sortedChildrenOf (tree : List (String × List SnapChild)) (key : String) :
    List SnapChild :=
  match tree.lookup key with
  | some cs => sortChildren cs
  | none => []

/-- The recursive `renderTree` of `captureSnapshot` (fuel-bounded; callers
pass more fuel than the tree is deep). -/
def renderTree (tree : List (String × List SnapChild)) :
    Nat → String → String → List String
  | 0, _, _ => []
  | fuel + 1, dirPath, pre =>
    let children := sortedChildrenOf tree dirPath
    (children.enum.map (fun ci =>
        let isLast := ci.1 = children.length - 1
        let connector := if isLast then "└── " else "├── "
        let childName := if ci.2.isDir then ci.2.name ++ "/" else ci.2.name
        let childPath := if dirPath = "" then ci.2.name else dirPath ++ "/" ++ ci.2.name
        let newPrefix := pre ++ (if isLast then "    " else "│   ")
        (pre ++ connector ++ childName) ::
          (if ci.2.isDir then renderTree tree fuel childPath newPrefix else []))).flatten

/-- `captureSnapshot` from src/helpers.ts, over an explicit recursive dirent
listing. -/
def captureSnapshot (path : String) (entries : List SnapEntry) : String :=
  let normalizedBasePath := jsNormalize (stripTrailingSlash path)
  let basePathLength := normalizedBasePath.data.length
  let tree := buildTree basePathLength entries
  let result := (jsBasename path ++ "/") :: renderTree tree (entries.length + 1) "" ""
  ⟨List.intercalate ['\n'] (result.map String.data)⟩

/-! ## Flat-path and nested entry forms

An entry name may contain separators (`"subdir/file.txt"`); the spec equates
materializing such a flat entry with materializing the equivalent nested
object.  `nestValue` builds the nested form; `coreRun` / `coreRunSync` is the
common computation both forms reduce to (create the implied directory chain,
then write the leaf or recurse into it). -/

/-- The equivalent Nested Directory form of a flat-path entry:
`nestValue ["a", "b"] "f" v` is `{a: {b: {f: v}}}`. -/
def nestValue : List String → String → JSValue → JSValue
  | [], k, v => .vobj [(k, v)] noTags
  | d :: ds, k, v => .vobj [(d, nestValue ds k v)] noTags

/-- The cumulative segment prefixes of `B` extending `X`
(`cumulFrom [] S` lists the non-root prefixes of a path with segments `S`,
shortest first). -/
def cumulFrom : List String → List String → List (List String)
  | _, [] => []
  | X, b :: bs => (X ++ [b]) :: cumulFrom (X ++ [b]) bs

/-- The filesystem an entry-loop run produced, when it succeeded. -/
def okFS {α : Type} : Except FSErr (FS × α) → Option FS
  | .ok (fs, _) => some fs
  | .error _ => none

/-- The common computation a single entry of content `v` under final segment
`k` and implied intermediate directories `D` below the canonical destination
segments `E` performs: create the directory chain, then either write the
primitive leaf or create the leaf directory and recurse into it. -/
def coreRun (cwd : String) (E D : List String) (k : String) (v : JSValue)
    (fsx : FS) : Option FS :=
  let meta : Option FSMeta := if hasMetadata v then (tagsOf v).metaTag else none
  let data := innerData v
  if isPrimitive data then
    match mkdirRec fsx (mkAbs (E ++ D)) none with
    | .error _ => none
    | .ok fs1 =>
      match writeFileFS fs1 (mkAbs (E ++ D ++ [k])) (writtenContent data)
          (meta.bind (·.mode)) with
      | .error _ => none
      | .ok fs2 => some fs2
  else
    match mkdirRec fsx (mkAbs (E ++ D ++ [k])) (dirModeOf meta) with
    | .error _ => none
    | .ok fs1 =>
      okFS (createEntries cwd (entsSize (entriesOfValue data) + 1)
        (mkAbs (E ++ D ++ [k])) (tagsOf data).origPath (entriesOfValue data) fs1)

/-- `coreRun` for the sync materializer. -/
def coreRunSync (cwd : String) (E D : List String) (k : String) (v : JSValue)
    (fsx : FS) : Option FS :=
  let meta : Option FSMeta := if hasMetadata v then (tagsOf v).metaTag else none
  let data := innerData v
  if isPrimitive data then
    match mkdirRec fsx (mkAbs (E ++ D)) none with
    | .error _ => none
    | .ok fs1 =>
      match writeFileFS fs1 (mkAbs (E ++ D ++ [k])) (writtenContent data)
          (meta.bind (·.mode)) with
      | .error _ => none
      | .ok fs2 => some fs2
  else
    match mkdirRec fsx (mkAbs (E ++ D ++ [k])) (dirModeOf meta) with
    | .error _ => none
    | .ok fs1 =>
      okFS (createEntriesSync cwd (entsSize (entriesOfValue data) + 1)
        (mkAbs (E ++ D ++ [k])) (tagsOf data).origPath (entriesOfValue data) fs1)

/-- A filesystem whose keys are canonical absolute paths (one leading `/`,
no empty, dot or trailing segments) — the shape every real directory tree
presents to `readdir`. -/
def CanonFS (fs : FS) : Prop := ∀ kn ∈ fs, kn.1 = mkAbs (segsOf kn.1)

mutual

/-- Trees on which the sync and the async materializer coincide: no
provenance slot anywhere in the tree, and every symbolic-link marker's
stored `path` is a fixed point of `path.normalize` (the `symlink`
constructor only ever stores normalized paths). -/
def syncFixedVal : JSValue → Bool
  | .vobj fields tags =>
    tags.origPath.isNone &&
    (!tags.symlinkTag ||
      decide (jsNormalize (strField (.vobj fields tags) "path") =
        strField (.vobj fields tags) "path")) &&
    syncFixedEnts fields
  | .varr xs => syncFixedList xs
  | _ => true

/-- `syncFixedVal` over an entry list. -/
def syncFixedEnts : List (String × JSValue) → Bool
  | [] => true
  | (_, v) :: rest => syncFixedVal v && syncFixedEnts rest

/-- `syncFixedVal` over an element list. -/
def syncFixedList : List JSValue → Bool
  | [] => true
  | v :: rest => syncFixedVal v && syncFixedList rest

end

/-- The pure shadow of the materializer's in-place tree mutation
(index.ts line 182 / sync.ts line 174): walk the entries exactly as
`createFileTree` does and, at levels whose iterated object carries a
provenance slot, overwrite each symbolic-link marker's `path` with the
re-based target; everything else is returned unchanged.  Identical for the
async and the sync variant (they differ only in what they write to disk). -/
def rebaseEntries (cwd : String) :
    Nat → String → Option String → List (String × JSValue) →
    List (String × JSValue)
  | 0, _, _, entries => entries
  | _ + 1, _, _, [] => []
  | fuel + 1, filePath, prov, (name, data0) :: rest =>
    let data := innerData data0
    let filename := jsResolve cwd [filePath, name]
    let entry :=
      if isLink data then data0
      else if isSymlink data then
        let data' :=
          match prov with
          | some orig0 =>
            let original := jsResolve cwd [jsNormalize orig0]
            setField data "path"
              (.vstr (jsRelative cwd (jsDirname filename) (jsJoin [original, name])))
          | none => data
        if hasMetadata data0 then setField data0 "content" data' else data'
      else if isPrimitive data then data0
      else
        let data' := rebuildValue data
          (rebaseEntries cwd fuel filename (tagsOf data).origPath
            (entriesOfValue data))
        if hasMetadata data0 then setField data0 "content" data' else data'
    (name, entry) :: rebaseEntries cwd fuel filePath prov rest

/-- The tree `createFileTree` / `createFileTreeSync` hands back (and leaves
the caller's tree mutated into) on success. -/
def rebaseValue (cwd filePath : String) (files : JSValue) : JSValue :=
  rebuildValue files
    (rebaseEntries cwd (entsSize (entriesOfValue files) + 1) filePath
      (tagsOf files).origPath (entriesOfValue files))

mutual

/-- Trees with no provenance slot at any level (and, so that the statement
is not distorted by shapes JavaScript objects cannot take, no duplicate
string keys): such trees are never modified by materialization. -/
def noProvVal : JSValue → Bool
  | .vobj fields tags =>
    tags.origPath.isNone && decide (fields.map Prod.fst).Nodup &&
    noProvEnts fields
  | .varr xs => noProvList xs
  | _ => true

/-- `noProvVal` over an entry list. -/
def noProvEnts : List (String × JSValue) → Bool
  | [] => true
  | (_, v) :: rest => noProvVal v && noProvEnts rest

/-- `noProvVal` over an element list. -/
def noProvList : List JSValue → Bool
  | [] => true
  | v :: rest => noProvVal v && noProvList rest

end

/-! ## Observation helpers (used only to state theorems) -/

/-- The filesystem a materializer run produced, when it succeeded. -/
def resultFS (r : Except FSErr (FS × JSValue)) : Option FS :=
  r.toOption.map Prod.fst

/-- The (mutated) tree a materializer run returned, when it succeeded. -/
def resultTree (r : Except FSErr (FS × JSValue)) : Option JSValue :=
  r.toOption.map Prod.snd

/-- Whether a run failed. -/
def isError {α : Type} : Except FSErr α → Bool
  | .error _ => true
  | .ok _ => false


/-! ## Supporting lemmas -/

theorem jsSize_pos (v : JSValue) : 1 ≤ jsSize v := by
  cases v <;> simp [jsSize]

theorem entsSize_indexedEntries (s : Nat) (xs : List JSValue) :
    entsSize (indexedEntries s xs) = listSize xs := by
  induction xs generalizing s with
  | nil => rfl
  | cons v rest ih => simp [indexedEntries, entsSize, listSize, ih]

theorem entsSize_entriesOfValue (v : JSValue) :
    entsSize (entriesOfValue v) < jsSize v := by
  cases v <;>
    simp [entriesOfValue, jsSize, entsSize, entsSize_indexedEntries]

theorem jsSize_lookup {fields : List (String × JSValue)} {k : String}
    {x : JSValue} (h : fields.lookup k = some x) : jsSize x ≤ entsSize fields := by
  induction fields with
  | nil => simp [List.lookup] at h
  | cons kv rest ih =>
    obtain ⟨k', v'⟩ := kv
    by_cases hk : k = k'
    · subst hk
      simp [List.lookup] at h
      subst h
      simp [entsSize]
      omega
    · have hb : (k == k') = false := beq_false_of_ne hk
      simp [List.lookup, hb] at h
      have := ih h
      simp [entsSize]
      omega

theorem jsSize_objGet (v : JSValue) (k : String) :
    jsSize (objGet v k) ≤ jsSize v := by
  cases v with
  | vobj fields tags =>
    simp only [objGet]
    cases h : fields.lookup k with
    | none => simp [jsSize]
    | some x =>
      have := jsSize_lookup h
      simp [jsSize]
      omega
  | _ => exact jsSize_pos _

theorem jsSize_innerData_lt (v : JSValue) (n : Nat) :
    jsSize (innerData v) < 1 + jsSize v + n := by
  have h : jsSize (innerData v) ≤ jsSize v := by
    unfold innerData
    split
    · exact jsSize_objGet v "content"
    · exact Nat.le_refl _
  omega

/-! ### Path algebra -/

theorem splitOn_slash_append (xs ys : List Char) :
    (xs ++ '/' :: ys).splitOn '/' = xs.splitOn '/' ++ ys.splitOn '/' := by
  simp only [List.splitOn]
  induction xs with
  | nil =>
    rw [List.nil_append, List.splitOnP_cons, List.splitOnP_nil]
    simp
  | cons x xs ih =>
    rw [List.cons_append, List.splitOnP_cons, List.splitOnP_cons]
    by_cases hx : (x == '/') = true
    · rw [if_pos hx, if_pos hx, ih]
      rfl
    · rw [if_neg hx, if_neg hx, ih]
      have hne := List.splitOnP_ne_nil (fun a => a == '/') xs
      cases h : xs.splitOnP (fun a => a == '/') with
      | nil => exact absurd h hne
      | cons a as => rfl

theorem splitOn_noSlash {d : List Char} (h : '/' ∉ d) :
    d.splitOn '/' = [d] := by
  simpa [List.splitOn] using
    List.splitOnP_eq_single (fun a => a == '/') d (by
      intro x hx
      simp only [beq_iff_eq]
      exact fun hc => h (hc ▸ hx))

theorem splitOn_joinChars {ds : List (List Char)} (h : ∀ d ∈ ds, '/' ∉ d)
    (hne : ds ≠ []) : (joinChars ds).splitOn '/' = ds := by
  induction ds with
  | nil => exact absurd rfl hne
  | cons d rest ih =>
    cases rest with
    | nil => simpa [joinChars] using splitOn_noSlash (h d (by simp))
    | cons d' rest' =>
      rw [show joinChars (d :: d' :: rest') = d ++ '/' :: joinChars (d' :: rest') from rfl]
      rw [splitOn_slash_append, splitOn_noSlash (h d (by simp)),
        ih (fun x hx => h x (by simp [hx])) (by simp)]
      rfl

/-- A segment fit for path building: non-empty and separator-free. -/
def segOK (s : String) : Bool :=
  s ≠ "" && !s.data.contains '/'

theorem segOK_of_cleanSeg {s : String} (h : cleanSeg s = true) : segOK s = true := by
  simp only [cleanSeg, Bool.and_eq_true, decide_eq_true_eq] at h
  simp only [segOK, Bool.and_eq_true, decide_eq_true_eq]
  exact ⟨h.1.1.1, h.2⟩

theorem data_ne_nil_of_ne_empty {s : String} (h : s ≠ "") : s.data ≠ [] := by
  intro hd
  exact h (by cases s with | mk l => cases hd; rfl)

theorem segsOf_rawJoin {segs : List String} (h : ∀ s ∈ segs, segOK s = true) :
    segsOf (rawJoin segs) = segs := by
  cases hs : segs with
  | nil => rfl
  | cons a rest =>
    subst hs
    have hmem : ∀ d ∈ (a :: rest).map String.data, '/' ∉ d := by
      intro d hd
      obtain ⟨s, hs1, hs2⟩ := List.mem_map.1 hd
      have := h s hs1
      simp only [segOK, Bool.and_eq_true, Bool.not_eq_true'] at this
      subst hs2
      simpa using this.2
    simp only [segsOf, splitSlash, rawJoin]
    rw [splitOn_joinChars hmem (by simp)]
    rw [List.map_map, show String.mk ∘ String.data = id from funext fun _ => rfl,
      List.map_id]
    refine List.filter_eq_self.2 ?_
    intro s hsm
    have := h s hsm
    simp only [segOK, Bool.and_eq_true] at this
    exact this.1

theorem segsOf_mkAbs {segs : List String} (h : ∀ s ∈ segs, segOK s = true) :
    segsOf (mkAbs segs) = segs := by
  have : (mkAbs segs).data = ([] : List Char) ++ '/' :: (rawJoin segs).data := rfl
  have hsplit : (mkAbs segs).data.splitOn '/' = [] :: (rawJoin segs).data.splitOn '/' := by
    rw [this, splitOn_slash_append]
    rfl
  simp only [segsOf, splitSlash]
  rw [hsplit]
  have := segsOf_rawJoin h
  simp only [segsOf, splitSlash] at this
  simpa using this

theorem isAbs_mkAbs (segs : List String) : isAbs (mkAbs segs) = true := rfl

theorem mkAbs_inj {a b : List String} (ha : ∀ s ∈ a, segOK s = true)
    (hb : ∀ s ∈ b, segOK s = true) (h : mkAbs a = mkAbs b) : a = b := by
  have := congrArg segsOf h
  rwa [segsOf_mkAbs ha, segsOf_mkAbs hb] at this

theorem segOK_of_CleanSegs {l : List String} (h : CleanSegs l) :
    ∀ s ∈ l, segOK s = true :=
  fun s hs => segOK_of_cleanSeg (h s hs)

theorem segsOf_single {k : String} (h : segOK k = true) : segsOf k = [k] := by
  simp only [segOK, Bool.and_eq_true, Bool.not_eq_true', decide_eq_true_eq] at h
  have hns : '/' ∉ k.data := by simpa using h.2
  simp only [segsOf, splitSlash, splitOn_noSlash hns]
  rw [List.map_cons, List.map_nil]
  show List.filter (fun t => decide (t ≠ "")) [k] = [k]
  rw [List.filter_cons]
  simp [h.1]

theorem mkAbs_ne_empty (segs : List String) : mkAbs segs ≠ "" := by
  intro h
  have : (mkAbs segs).data = [] := by rw [h]
  simp [mkAbs] at this

theorem isAbs_empty : isAbs "" = false := rfl

theorem cleanSeg_not_isAbs {k : String} (h : cleanSeg k = true) : isAbs k = false := by
  simp only [cleanSeg, Bool.and_eq_true, Bool.not_eq_true', decide_eq_true_eq] at h
  have hns : '/' ∉ k.data := by simpa using h.2
  cases hd : k.data with
  | nil => simp [isAbs, hd]
  | cons c cs =>
    simp only [isAbs, hd, List.head?_cons, Option.some.injEq, decide_eq_false_iff_not]
    intro hc
    exact hns (by rw [hd, hc]; exact List.mem_cons_self _ _)

theorem segOK_dotdot : segOK ".." = true := by decide

theorem data_rawJoin_cons_cons (a b : String) (rest : List String) :
    (rawJoin (a :: b :: rest)).data = a.data ++ '/' :: (rawJoin (b :: rest)).data := rfl

theorem rawJoin_ne_empty {segs : List String} (h : ∀ s ∈ segs, segOK s = true)
    (hne : segs ≠ []) : rawJoin segs ≠ "" := by
  cases segs with
  | nil => exact absurd rfl hne
  | cons a rest =>
    have ha := h a (by simp)
    simp only [segOK, Bool.and_eq_true, decide_eq_true_eq] at ha
    have : (rawJoin (a :: rest)).data ≠ [] := by
      cases rest with
      | nil => exact data_ne_nil_of_ne_empty ha.1
      | cons b r =>
        rw [data_rawJoin_cons_cons]
        intro hc
        exact data_ne_nil_of_ne_empty ha.1 (List.append_eq_nil.1 hc |>.1)
    intro hc
    exact this (by rw [hc])

theorem isAbs_rawJoin {segs : List String} (h : ∀ s ∈ segs, segOK s = true) :
    isAbs (rawJoin segs) = false := by
  cases segs with
  | nil => rfl
  | cons a rest =>
    have ha := h a (by simp)
    simp only [segOK, Bool.and_eq_true, Bool.not_eq_true', decide_eq_true_eq] at ha
    have hns : '/' ∉ a.data := by simpa using ha.2
    have hd : ∃ c cs, a.data = c :: cs := by
      cases hda : a.data with
      | nil => exact absurd hda (data_ne_nil_of_ne_empty ha.1)
      | cons c cs => exact ⟨c, cs, rfl⟩
    obtain ⟨c, cs, hdc⟩ := hd
    have hcm : c ≠ '/' := fun hc => hns (by rw [hdc, hc]; exact List.mem_cons_self _ _)
    have hdata : ∃ tail, (rawJoin (a :: rest)).data = c :: tail := by
      cases rest with
      | nil => exact ⟨cs, by simp only [rawJoin, joinChars, List.map]; rw [hdc]⟩
      | cons b r =>
        refine ⟨cs ++ '/' :: (rawJoin (b :: r)).data, ?_⟩
        rw [data_rawJoin_cons_cons, hdc]
        rfl
    obtain ⟨tail, hdt⟩ := hdata
    simp [isAbs, hdt, hcm]

theorem getLast?_data_rawJoin {segs : List String} (h : ∀ s ∈ segs, segOK s = true)
    (hne : segs ≠ []) :
    ∃ c, (rawJoin segs).data.getLast? = some c ∧ c ≠ '/' := by
  induction segs with
  | nil => exact absurd rfl hne
  | cons a rest ih =>
    have ha := h a (by simp)
    simp only [segOK, Bool.and_eq_true, Bool.not_eq_true', decide_eq_true_eq] at ha
    cases rest with
    | nil =>
      have hd : (rawJoin [a]).data = a.data := rfl
      rw [hd]
      have hne' := data_ne_nil_of_ne_empty ha.1
      cases hl : a.data.getLast? with
      | none => exact absurd (List.getLast?_eq_none_iff.1 hl) hne'
      | some c =>
        refine ⟨c, rfl, fun hc => ?_⟩
        have hmem := List.mem_of_mem_getLast? hl
        have hns : '/' ∉ a.data := by simpa using ha.2
        exact hns (hc ▸ hmem)
    | cons b r =>
      obtain ⟨c, hc1, hc2⟩ := ih (fun s hs => h s (by simp [hs])) (by simp)
      refine ⟨c, ?_, hc2⟩
      rw [data_rawJoin_cons_cons, List.getLast?_append]
      have : ('/' :: (rawJoin (b :: r)).data).getLast? = some c := by
        rw [show ('/' :: (rawJoin (b :: r)).data) = ['/'] ++ (rawJoin (b :: r)).data from rfl,
          List.getLast?_append, hc1]
        rfl
      rw [this]
      rfl

theorem slash_append_rawJoin (segs : List String) :
    "/" ++ rawJoin segs = mkAbs segs := by
  apply String.ext
  rw [String.data_append]
  rfl

theorem segsOf_append_slash (a b : String) :
    segsOf (a ++ "/" ++ b) = segsOf a ++ segsOf b := by
  have hd : (a ++ "/" ++ b).data = a.data ++ '/' :: b.data := by
    rw [String.data_append, String.data_append]
    simp
  simp only [segsOf, splitSlash, hd, splitOn_slash_append]
  simp [List.filter_append]

/-! ### Normalization algebra -/

theorem normStep_clean {seg : String} (h : cleanSeg seg = true) (aab : Bool)
    (stack : List String) : normStep aab stack seg = stack ++ [seg] := by
  simp only [cleanSeg, Bool.and_eq_true, decide_eq_true_eq] at h
  simp [normStep, h.1.1.1, h.1.1.2, h.1.2]

theorem foldl_normStep_clean_push {xs : List String} (h : CleanSegs xs) (aab : Bool) :
    ∀ stack, xs.foldl (normStep aab) stack = stack ++ xs := by
  induction xs with
  | nil => intro stack; simp
  | cons x xs ih =>
    intro stack
    rw [List.foldl_cons, normStep_clean (h x (by simp)) aab,
      ih (fun s hs => h s (by simp [hs]))]
    simp

theorem normSegs_clean {xs : List String} (h : CleanSegs xs) (aab : Bool) :
    normSegs aab xs = xs := by
  simpa using foldl_normStep_clean_push h aab []

theorem normStep_pop {stack : List String} {x : String} (hx : cleanSeg x = true) :
    normStep false (stack ++ [x]) ".." = stack := by
  have hxne : x ≠ ".." := by
    simp only [cleanSeg, Bool.and_eq_true, decide_eq_true_eq] at hx
    exact hx.1.2
  have hcond : (stack ++ [x]) ≠ [] ∧ (stack ++ [x]).getLast? ≠ some ".." := by
    refine ⟨by simp, ?_⟩
    rw [List.getLast?_concat]
    simp [hxne]
  simp only [normStep]
  rw [if_neg (by simp), if_pos hcond, List.dropLast_concat]
  simp

theorem foldl_normStep_pop {rest : List String} (h : CleanSegs rest)
    (common suffix : List String) :
    (List.replicate rest.length ".." ++ suffix).foldl (normStep false) (common ++ rest) =
      suffix.foldl (normStep false) common := by
  induction rest using List.reverseRecOn with
  | nil => simp
  | append_singleton rs x ih =>
    have hx : cleanSeg x = true := h x (by simp)
    rw [List.length_append, List.length_singleton, List.replicate_succ, List.cons_append,
      List.foldl_cons, ← List.append_assoc, normStep_pop hx]
    exact ih (fun s hs => h s (by simp [hs]))

theorem splitOnP_pieces {α : Type} {p : α → Bool} :
    ∀ {xs : List α} {piece : List α}, piece ∈ xs.splitOnP p → ∀ a ∈ piece, ¬ p a = true := by
  intro xs
  induction xs with
  | nil =>
    intro piece hp
    rw [List.splitOnP_nil] at hp
    simp at hp
    subst hp
    simp
  | cons x xs ih =>
    intro piece hp
    rw [List.splitOnP_cons] at hp
    by_cases hx : p x = true
    · rw [if_pos hx] at hp
      rcases List.mem_cons.1 hp with h1 | h2
      · subst h1; simp
      · exact ih h2
    · rw [if_neg hx] at hp
      have hne := List.splitOnP_ne_nil p xs
      cases hsp : xs.splitOnP p with
      | nil => exact absurd hsp hne
      | cons hd tl =>
        rw [hsp] at hp
        simp only [List.modifyHead] at hp
        rcases List.mem_cons.1 hp with h1 | h2
        · subst h1
          intro a ha
          rcases List.mem_cons.1 ha with h3 | h4
          · subst h3; exact hx
          · exact ih (hsp ▸ List.mem_cons_self hd tl) a h4
        · exact ih (hsp ▸ List.mem_cons_of_mem hd h2)

theorem segsOf_noSlash (s : String) : ∀ t ∈ segsOf s, '/' ∉ t.data := by
  intro t ht
  simp only [segsOf, splitSlash, List.mem_filter] at ht
  obtain ⟨piece, hp1, hp2⟩ := List.mem_map.1 ht.1
  intro hmem
  have := splitOnP_pieces (p := fun a => a == '/') (by simpa [List.splitOn] using hp1) '/'
  rw [← hp2] at hmem
  exact this hmem (by simp)

theorem segsOf_ne_empty (s : String) : ∀ t ∈ segsOf s, t ≠ "" := by
  intro t ht
  simp only [segsOf, List.mem_filter, decide_eq_true_eq] at ht
  exact ht.2

theorem foldl_normStep_noSlash {xs : List String} (h : ∀ s ∈ xs, '/' ∉ s.data) :
    ∀ {stack : List String}, CleanSegs stack →
      CleanSegs (xs.foldl (normStep false) stack) := by
  induction xs with
  | nil => intro stack hs; simpa using hs
  | cons x xs ih =>
    intro stack hs
    rw [List.foldl_cons]
    refine ih (fun s hm => h s (by simp [hm])) ?_
    by_cases h1 : x = "" ∨ x = "."
    · simpa [normStep, h1] using hs
    · by_cases h2 : x = ".."
      · subst h2
        simp only [normStep, if_neg (show ¬((".." : String) = "" ∨ (".." : String) = ".") by simp),
          if_pos rfl]
        by_cases hcond : stack ≠ [] ∧ stack.getLast? ≠ some ".."
        · rw [if_pos hcond]
          intro s hsm
          exact hs s (List.dropLast_subset stack hsm)
        · rw [if_neg hcond]
          simpa using hs
      · have hcx : cleanSeg x = true := by
          push_neg at h1
          simp [cleanSeg, h1.1, h1.2, h2, h x (by simp)]
        rw [normStep_clean hcx]
        intro s hsm
        rcases List.mem_append.1 hsm with h3 | h4
        · exact hs s h3
        · simp only [List.mem_singleton] at h4
          subst h4
          exact hcx

theorem cleanSegs_resolveSegs (cwd : String) (args : List String) :
    CleanSegs (resolveSegs cwd args) := by
  simp only [resolveSegs, normSegs]
  refine foldl_normStep_noSlash ?_ (fun s hs => absurd hs (List.not_mem_nil s))
  have : ∀ (acc : List String), (∀ s ∈ acc, '/' ∉ s.data) →
      ∀ s ∈ args.foldl
        (fun acc a => if isAbs a then segsOf a else acc ++ segsOf a) acc, '/' ∉ s.data := by
    intro acc hacc
    induction args generalizing acc with
    | nil => exact hacc
    | cons a rest ih =>
      intro s hs
      rw [List.foldl_cons] at hs
      refine ih _ ?_ s hs
      intro t ht
      by_cases hab : isAbs a = true
      · rw [if_pos hab] at ht
        exact segsOf_noSlash a t ht
      · rw [if_neg hab] at ht
        rcases List.mem_append.1 ht with h1 | h2
        · exact hacc t h1
        · exact segsOf_noSlash a t h2
  exact this _ (segsOf_noSlash cwd)

/-! ### Resolution on canonical forms -/

theorem segsOf_slash_prepend (s : String) : segsOf ("/" ++ s) = segsOf s := by
  have hd : ("/" ++ s).data = ([] : List Char) ++ '/' :: s.data := by
    rw [String.data_append]
    rfl
  simp only [segsOf, splitSlash, hd, splitOn_slash_append]
  simp [List.filter_append, List.splitOn_nil]

theorem segsOf_slash_append_right (s : String) : segsOf (s ++ "/") = segsOf s := by
  have hd : (s ++ "/").data = s.data ++ '/' :: [] := by
    rw [String.data_append]
  simp only [segsOf, splitSlash, hd, splitOn_slash_append]
  simp [List.splitOn_nil]

theorem resolveSegs_abs_single {p : String} (hp : isAbs p = true) (cwd : String) :
    resolveSegs cwd [p] = normSegs false (segsOf p) := by
  simp [resolveSegs, hp]

theorem resolveSegs_mkAbs {X : List String} (h : CleanSegs X) (cwd : String) :
    resolveSegs cwd [mkAbs X] = X := by
  rw [resolveSegs_abs_single (isAbs_mkAbs X) cwd, segsOf_mkAbs (segOK_of_CleanSegs h),
    normSegs_clean h]

theorem jsResolve_mkAbs {X : List String} (h : CleanSegs X) (cwd : String) :
    jsResolve cwd [mkAbs X] = mkAbs X := by
  rw [jsResolve, resolveSegs_mkAbs h]

theorem resolveSegs_push {cwd filePath k : String} (hk : cleanSeg k = true) :
    resolveSegs cwd [filePath, k] = resolveSegs cwd [filePath] ++ [k] := by
  have hkabs : isAbs k = false := cleanSeg_not_isAbs hk
  have hks : segsOf k = [k] := segsOf_single (segOK_of_cleanSeg hk)
  simp only [resolveSegs, List.foldl_cons, List.foldl_nil, hkabs, Bool.false_eq_true,
    if_false, hks, normSegs]
  rw [List.foldl_append]
  exact foldl_normStep_clean_push
    (by intro s hs; simp only [List.mem_singleton] at hs; exact hs ▸ hk) false _

theorem jsResolve_push {cwd filePath k : String} (hk : cleanSeg k = true) :
    jsResolve cwd [filePath, k] = mkAbs (resolveSegs cwd [filePath] ++ [k]) := by
  rw [jsResolve, resolveSegs_push hk]

theorem jsDirname_mkAbs_append {D : List String} {k : String}
    (hD : ∀ s ∈ D, segOK s = true) (hk : segOK k = true) :
    jsDirname (mkAbs (D ++ [k])) = mkAbs D := by
  have hseg : segsOf (mkAbs (D ++ [k])) = D ++ [k] := by
    refine segsOf_mkAbs ?_
    intro s hs
    rcases List.mem_append.1 hs with h1 | h2
    · exact hD s h1
    · simp only [List.mem_singleton] at h2
      exact h2 ▸ hk
  simp only [jsDirname, hseg, isAbs_mkAbs, if_true]
  cases hD0 : D with
  | nil =>
    rw [List.nil_append, if_pos (by simp : ([k] : List String).length ≤ 1)]
    apply String.ext
    rfl
  | cons d rest =>
    rw [if_neg (by simp)]
    rw [List.dropLast_concat]

theorem jsDirname_root : jsDirname "/" = "/" := rfl

/-- Resolving a canonical absolute path against a freshly normalized
provenance string yields the path back (`resolve(normalize(p))` on the
re-basing branch). -/
theorem jsResolve_jsNormalize_mkAbs {X : List String} (h : CleanSegs X) (cwd : String) :
    jsResolve cwd [jsNormalize (mkAbs X)] = mkAbs X := by
  have hnorm : jsNormalize (mkAbs X) = mkAbs X ∨
      jsNormalize (mkAbs X) = mkAbs X ++ "/" := by
    rw [jsNormalize, if_neg (mkAbs_ne_empty X)]
    simp only [isAbs_mkAbs, Bool.not_true, segsOf_mkAbs (segOK_of_CleanSegs h),
      normSegs_clean h]
    by_cases hX : X = []
    · subst hX
      simp only [if_pos rfl]
      left
      split <;> rfl
    · rw [if_neg hX]
      by_cases htrail : (mkAbs X).data.getLast? = some '/'
      · right
        rw [if_pos htrail]
        simp only [if_true]
        rw [← String.append_assoc, slash_append_rawJoin]
      · left
        rw [if_neg htrail]
        simp only [if_true]
        rw [slash_append_rawJoin]
  rcases hnorm with h1 | h1
  · rw [h1, jsResolve_mkAbs h]
  · rw [h1, jsResolve]
    have habs : isAbs (mkAbs X ++ "/") = true := by
      have hd : (mkAbs X ++ "/").data = '/' :: (joinChars (X.map String.data) ++ ['/']) := by
        rw [String.data_append]
        rfl
      simp [isAbs, hd]
    rw [resolveSegs_abs_single habs, segsOf_slash_append_right,
      segsOf_mkAbs (segOK_of_CleanSegs h), normSegs_clean h]

theorem jsJoin_mkAbs_clean {X : List String} {k : String} (hX : CleanSegs X)
    (hk : cleanSeg k = true) : jsJoin [mkAbs X, k] = mkAbs (X ++ [k]) := by
  have hkok := segOK_of_cleanSeg hk
  have hkne : k ≠ "" := by
    simp only [segOK, Bool.and_eq_true, decide_eq_true_eq] at hkok
    exact hkok.1
  have hXk : CleanSegs (X ++ [k]) := by
    intro s hs
    rcases List.mem_append.1 hs with h1 | h2
    · exact hX s h1
    · simp only [List.mem_singleton] at h2
      exact h2 ▸ hk
  have hparts : ([mkAbs X, k].filter fun a => a ≠ "") = [mkAbs X, k] := by
    rw [List.filter_eq_self]
    intro a ha
    rcases List.mem_cons.1 ha with h1 | h2
    · simp [h1, mkAbs_ne_empty X]
    · simp only [List.mem_singleton] at h2
      simp [h2, hkne]
  have hraw : rawJoin [mkAbs X, k] = mkAbs X ++ "/" ++ k := by
    apply String.ext
    rw [String.data_append, String.data_append]
    show (mkAbs X).data ++ '/' :: k.data = (mkAbs X).data ++ ['/'] ++ k.data
    rw [List.append_assoc]
    rfl
  simp only [jsJoin, hparts, List.map_id, if_neg (by simp : ¬ ([mkAbs X, k] = [])), hraw]
  have hsegs : segsOf (mkAbs X ++ "/" ++ k) = X ++ [k] := by
    rw [segsOf_append_slash, segsOf_mkAbs (segOK_of_CleanSegs hX), segsOf_single hkok]
  have habs : isAbs (mkAbs X ++ "/" ++ k) = true := by
    have hd : (mkAbs X ++ "/" ++ k).data =
        '/' :: ((joinChars (X.map String.data) ++ ['/']) ++ k.data) := by
      rw [String.data_append, String.data_append]
      rfl
    simp [isAbs, hd]
  have hne : mkAbs X ++ "/" ++ k ≠ "" := by
    intro hc
    rw [hc] at habs
    exact absurd habs (by decide)
  have htrail : (mkAbs X ++ "/" ++ k).data.getLast? ≠ some '/' := by
    rw [String.data_append, String.data_append, List.append_assoc, List.getLast?_append]
    have hkd := data_ne_nil_of_ne_empty hkne
    cases hl : k.data.getLast? with
    | none => exact absurd (List.getLast?_eq_none_iff.1 hl) hkd
    | some c =>
      have hcm := List.mem_of_mem_getLast? hl
      have hns : '/' ∉ k.data := by
        simp only [cleanSeg, Bool.and_eq_true, Bool.not_eq_true', decide_eq_true_eq] at hk
        simpa using hk.2
      have hcne : c ≠ '/' := fun hc => hns (hc ▸ hcm)
      have : (("/" : String).data ++ k.data).getLast? = some c := by
        rw [List.getLast?_append, hl]
        rfl
      rw [this]
      simp [hcne]
  rw [jsNormalize, if_neg hne]
  simp only [habs, Bool.not_true, hsegs, normSegs_clean hXk, if_neg htrail]
  rw [if_neg (by simp : ¬ (X ++ [k] = []))]
  simp only [if_true]
  rw [slash_append_rawJoin]

/-! ### Relative targets and their resolution -/

theorem commonPrefixLen_le_left : ∀ a b : List String, commonPrefixLen a b ≤ a.length
  | [], _ => by simp [commonPrefixLen]
  | _ :: _, [] => by simp [commonPrefixLen]
  | a :: as, b :: bs => by
    simp only [commonPrefixLen]
    split
    · have := commonPrefixLen_le_left as bs
      simp only [List.length_cons]
      omega
    · simp

theorem commonPrefixLen_le_right : ∀ a b : List String, commonPrefixLen a b ≤ b.length
  | [], _ => by simp [commonPrefixLen]
  | _ :: _, [] => by simp [commonPrefixLen]
  | a :: as, b :: bs => by
    simp only [commonPrefixLen]
    split
    · have := commonPrefixLen_le_right as bs
      simp only [List.length_cons]
      omega
    · simp

theorem take_commonPrefixLen : ∀ a b : List String,
    a.take (commonPrefixLen a b) = b.take (commonPrefixLen a b)
  | [], _ => by simp [commonPrefixLen]
  | _ :: _, [] => by simp [commonPrefixLen]
  | a :: as, b :: bs => by
    simp only [commonPrefixLen]
    split
    · next heq =>
      simp only [List.take_succ_cons, heq]
      rw [take_commonPrefixLen as bs]
    · simp

theorem jsRelative_mkAbs (cwd : String) {D T : List String} (hD : CleanSegs D)
    (hT : CleanSegs T) :
    jsRelative cwd (mkAbs D) (mkAbs T) =
      rawJoin (List.replicate (D.length - commonPrefixLen D T) ".." ++
        T.drop (commonPrefixLen D T)) := by
  simp [jsRelative, resolveSegs_mkAbs hD, resolveSegs_mkAbs hT]

theorem relSegs_segOK {k : Nat} {suffix : List String} (h : CleanSegs suffix) :
    ∀ s ∈ List.replicate k ".." ++ suffix, segOK s = true := by
  intro s hs
  rcases List.mem_append.1 hs with h1 | h2
  · rw [List.eq_of_mem_replicate h1]
    exact segOK_dotdot
  · exact segOK_of_cleanSeg (h s h2)

theorem resolveSegs_dir_rel {D T : List String} (hD : CleanSegs D) (hT : CleanSegs T)
    (cwd rel : String)
    (hrel : segsOf rel = List.replicate (D.length - commonPrefixLen D T) ".." ++
      T.drop (commonPrefixLen D T))
    (hrabs : isAbs rel = false) :
    resolveSegs cwd [mkAbs D, rel] = T := by
  set C := commonPrefixLen D T with hC
  simp only [resolveSegs, List.foldl_cons, List.foldl_nil, isAbs_mkAbs, if_true,
    hrabs, Bool.false_eq_true, if_false, segsOf_mkAbs (segOK_of_CleanSegs hD), hrel,
    normSegs]
  rw [List.foldl_append, foldl_normStep_clean_push hD false [], List.nil_append,
    List.foldl_append]
  have hlen : (D.drop C).length = D.length - C := by simp
  have hpop := @foldl_normStep_pop (D.drop C)
    (fun s hs => hD s (List.drop_subset _ _ hs)) (D.take C) []
  rw [List.take_append_drop, List.append_nil, hlen, List.foldl_nil] at hpop
  rw [hpop, foldl_normStep_clean_push (fun s hs => hT s (List.drop_subset _ _ hs)) false _,
    take_commonPrefixLen D T, List.take_append_drop]

theorem normStep_dotdot_push {stack : List String} (hgl : stack.getLast? = some "..") :
    normStep true stack ".." = stack ++ [".."] := by
  have hcond : ¬ (stack ≠ [] ∧ stack.getLast? ≠ some "..") := fun hc => hc.2 hgl
  simp [normStep, hcond]

theorem foldl_normStep_true_dotdot (k : Nat) :
    ∀ i : Nat, (List.replicate k "..").foldl (normStep true) (List.replicate i "..") =
      List.replicate (i + k) ".." := by
  induction k with
  | zero => intro i; simp
  | succ k ih =>
    intro i
    rw [List.replicate_succ, List.foldl_cons]
    have hstep : normStep true (List.replicate i "..") ".." = List.replicate (i + 1) ".." := by
      cases i with
      | zero => simp [normStep]
      | succ j =>
        have hgl : (List.replicate (j + 1) "..").getLast? = some ".." := by
          rw [List.getLast?_eq_getLast _ (by simp)]
          simp [List.getLast_replicate]
        rw [normStep_dotdot_push hgl, ← List.replicate_succ']
    rw [hstep, ih (i + 1)]
    congr 1
    omega

theorem normSegs_true_rel {k : Nat} {suffix : List String} (h : CleanSegs suffix) :
    normSegs true (List.replicate k ".." ++ suffix) =
      List.replicate k ".." ++ suffix := by
  simp only [normSegs]
  rw [List.foldl_append]
  have h0 : (List.replicate k "..").foldl (normStep true) [] = List.replicate k ".." := by
    have := foldl_normStep_true_dotdot k 0
    simpa using this
  rw [h0, foldl_normStep_clean_push h true]

theorem jsNormalize_rel_fixed {k : Nat} {suffix : List String} (h : CleanSegs suffix)
    (hne : List.replicate k ".." ++ suffix ≠ []) :
    jsNormalize (rawJoin (List.replicate k ".." ++ suffix)) =
      rawJoin (List.replicate k ".." ++ suffix) := by
  have hok := relSegs_segOK (k := k) h
  have hnem : rawJoin (List.replicate k ".." ++ suffix) ≠ "" :=
    rawJoin_ne_empty hok hne
  have habs : isAbs (rawJoin (List.replicate k ".." ++ suffix)) = false :=
    isAbs_rawJoin hok
  obtain ⟨c, hc1, hc2⟩ := getLast?_data_rawJoin hok hne
  rw [jsNormalize, if_neg hnem]
  simp only [habs, Bool.not_false, segsOf_rawJoin hok, normSegs_true_rel h,
    if_neg hne, hc1]
  rw [if_neg (by simp), if_neg (by simpa using hc2)]

/-- The re-based symlink target written by the sync materializer resolves from
the link's new containing directory back to the original absolute path. -/
theorem jsResolve_dir_relative {D T : List String} (hD : CleanSegs D)
    (hT : CleanSegs T) (cwd : String) :
    jsResolve cwd [mkAbs D, jsRelative cwd (mkAbs D) (mkAbs T)] = mkAbs T := by
  rw [jsRelative_mkAbs cwd hD hT]
  have hok := @relSegs_segOK (D.length - commonPrefixLen D T)
    (T.drop (commonPrefixLen D T))
    (fun s hs => hT s (List.drop_subset _ _ hs))
  rw [jsResolve, resolveSegs_dir_rel hD hT cwd _ (segsOf_rawJoin hok) (isAbs_rawJoin hok)]

theorem resolveSegs_dir_dot {D : List String} (hD : CleanSegs D) (cwd : String) :
    resolveSegs cwd [mkAbs D, "."] = D := by
  have hdot : segsOf "." = ["."] := rfl
  have habs : isAbs "." = false := rfl
  simp only [resolveSegs, List.foldl_cons, List.foldl_nil, isAbs_mkAbs, if_true,
    habs, Bool.false_eq_true, if_false, segsOf_mkAbs (segOK_of_CleanSegs hD), hdot,
    normSegs]
  rw [List.foldl_append, foldl_normStep_clean_push hD false [], List.nil_append]
  rfl

/-- The same, for the async materializer, which writes
`path.normalize(relative target)`. -/
theorem jsResolve_dir_normalize_relative {D T : List String} (hD : CleanSegs D)
    (hT : CleanSegs T) (cwd : String) :
    jsResolve cwd [mkAbs D, jsNormalize (jsRelative cwd (mkAbs D) (mkAbs T))] =
      mkAbs T := by
  rw [jsRelative_mkAbs cwd hD hT]
  by_cases hz : List.replicate (D.length - commonPrefixLen D T) ".." ++
      T.drop (commonPrefixLen D T) = []
  · have hc1 := commonPrefixLen_le_left D T
    have hc2 := commonPrefixLen_le_right D T
    obtain ⟨hz1, hz2⟩ := List.append_eq_nil.1 hz
    have hkz : D.length - commonPrefixLen D T = 0 := by
      simpa using congrArg List.length hz1
    have hcT : commonPrefixLen D T = T.length := by
      have := congrArg List.length hz2
      simp at this
      omega
    have hcD : commonPrefixLen D T = D.length := by omega
    have hDT : D = T := by
      have h1 := take_commonPrefixLen D T
      rw [hcD, List.take_length] at h1
      have hlen : D.length = T.length := by omega
      rw [hlen, List.take_length] at h1
      exact h1
    rw [hz]
    have hdot : jsNormalize (rawJoin []) = "." := rfl
    rw [hdot, jsResolve, resolveSegs_dir_dot hD, hDT]
  · have hsufClean : CleanSegs (T.drop (commonPrefixLen D T)) :=
      fun s hs => hT s (List.drop_subset _ _ hs)
    rw [jsNormalize_rel_fixed hsufClean hz]
    have hok := relSegs_segOK (k := D.length - commonPrefixLen D T) hsufClean
    rw [jsResolve,
      resolveSegs_dir_rel hD hT cwd _ (segsOf_rawJoin hok) (isAbs_rawJoin hok)]

/-! ### Normalization canonical forms and idempotence -/

theorem data_append_slash (s : String) : (s ++ "/").data = s.data ++ ['/'] := by
  rw [String.data_append]

theorem getLast?_data_append_slash (s : String) :
    (s ++ "/").data.getLast? = some '/' := by
  rw [data_append_slash, List.getLast?_concat]

theorem append_slash_ne_empty (s : String) : s ++ "/" ≠ "" := by
  intro he
  have h2 := congrArg String.data he
  rw [data_append_slash] at h2
  simp at h2

theorem isAbs_append_slash {s : String} (h : s ≠ "") :
    isAbs (s ++ "/") = isAbs s := by
  obtain ⟨c, cs, hd⟩ : ∃ c cs, s.data = c :: cs := by
    cases hda : s.data with
    | nil => exact absurd hda (data_ne_nil_of_ne_empty h)
    | cons c cs => exact ⟨c, cs, rfl⟩
  simp [isAbs, data_append_slash, hd]

theorem getLast?_data_mkAbs {R : List String} (h : ∀ s ∈ R, segOK s = true)
    (hne : R ≠ []) :
    ∃ c, (mkAbs R).data.getLast? = some c ∧ c ≠ '/' := by
  obtain ⟨c, hc1, hc2⟩ := getLast?_data_rawJoin h hne
  refine ⟨c, ?_, hc2⟩
  have hdd : (mkAbs R).data = ['/'] ++ (rawJoin R).data := rfl
  rw [hdd, List.getLast?_append, hc1]
  rfl

theorem jsNormalize_abs_root {p : String} (habs : isAbs p = true)
    (hres : normSegs false (segsOf p) = []) : jsNormalize p = "/" := by
  have hpne : p ≠ "" := by
    intro h
    rw [h] at habs
    exact absurd habs (by decide)
  rw [jsNormalize, if_neg hpne]
  simp only [habs, Bool.not_true]
  rw [if_pos hres, if_pos trivial]

theorem jsNormalize_abs_noslash {p : String} (habs : isAbs p = true)
    (htr : p.data.getLast? ≠ some '/') :
    jsNormalize p = mkAbs (normSegs false (segsOf p)) := by
  have hpne : p ≠ "" := by
    intro h
    rw [h] at habs
    exact absurd habs (by decide)
  rw [jsNormalize, if_neg hpne]
  simp only [habs, Bool.not_true]
  cases hres : normSegs false (segsOf p) with
  | nil =>
    rw [if_pos rfl, if_pos trivial]
    apply String.ext
    rfl
  | cons r rs =>
    rw [if_neg (by simp), if_pos trivial, if_neg htr]
    exact slash_append_rawJoin (r :: rs)

theorem jsNormalize_abs_slash {p : String} (habs : isAbs p = true)
    (htr : p.data.getLast? = some '/') (hres : normSegs false (segsOf p) ≠ []) :
    jsNormalize p = mkAbs (normSegs false (segsOf p)) ++ "/" := by
  have hpne : p ≠ "" := by
    intro h
    rw [h] at habs
    exact absurd habs (by decide)
  rw [jsNormalize, if_neg hpne]
  simp only [habs, Bool.not_true]
  rw [if_neg hres, if_pos trivial, if_pos htr]
  apply String.ext
  rw [← slash_append_rawJoin]
  rfl

theorem jsResolve_eq_jsNormalize {p : String} (cwd : String)
    (habs : isAbs p = true) (htr : p.data.getLast? ≠ some '/') :
    jsResolve cwd [p] = jsNormalize p := by
  rw [jsNormalize_abs_noslash habs htr, jsResolve, resolveSegs_abs_single habs]

theorem jsNormalize_rel_empty_noslash {p : String} (hp : p ≠ "")
    (habs : isAbs p = false) (htr : p.data.getLast? ≠ some '/')
    (hres : normSegs true (segsOf p) = []) : jsNormalize p = "." := by
  rw [jsNormalize, if_neg hp]
  simp only [habs, Bool.not_false]
  rw [if_pos hres, if_neg (by simp), if_neg htr]

theorem jsNormalize_rel_empty_slash {p : String} (hp : p ≠ "")
    (habs : isAbs p = false) (htr : p.data.getLast? = some '/')
    (hres : normSegs true (segsOf p) = []) : jsNormalize p = "./" := by
  rw [jsNormalize, if_neg hp]
  simp only [habs, Bool.not_false]
  rw [if_pos hres, if_neg (by simp), if_pos htr]

theorem jsNormalize_rel_noslash {p : String} (hp : p ≠ "")
    (habs : isAbs p = false) (htr : p.data.getLast? ≠ some '/')
    (hres : normSegs true (segsOf p) ≠ []) :
    jsNormalize p = rawJoin (normSegs true (segsOf p)) := by
  rw [jsNormalize, if_neg hp]
  simp only [habs, Bool.not_false]
  rw [if_neg hres, if_neg (by simp), if_neg htr]

theorem jsNormalize_rel_slash {p : String} (hp : p ≠ "")
    (habs : isAbs p = false) (htr : p.data.getLast? = some '/')
    (hres : normSegs true (segsOf p) ≠ []) :
    jsNormalize p = rawJoin (normSegs true (segsOf p)) ++ "/" := by
  rw [jsNormalize, if_neg hp]
  simp only [habs, Bool.not_false]
  rw [if_neg hres, if_neg (by simp), if_pos htr]

theorem cleanSegs_normSegs_false {xs : List String}
    (h : ∀ s ∈ xs, '/' ∉ s.data) : CleanSegs (normSegs false xs) := by
  simpa [normSegs] using
    foldl_normStep_noSlash h (fun s hs => absurd hs (List.not_mem_nil s))

theorem foldl_normStep_true_shape {xs : List String}
    (h : ∀ s ∈ xs, '/' ∉ s.data) :
    ∀ {j : Nat} {suffix : List String}, CleanSegs suffix →
      ∃ j2 suffix2, CleanSegs suffix2 ∧
        xs.foldl (normStep true) (List.replicate j ".." ++ suffix) =
          List.replicate j2 ".." ++ suffix2 := by
  induction xs with
  | nil =>
    intro j suffix hs
    exact ⟨j, suffix, hs, by rw [List.foldl_nil]⟩
  | cons x xs ih =>
    intro j suffix hs
    rw [List.foldl_cons]
    by_cases h1 : x = "" ∨ x = "."
    · have hstep : normStep true (List.replicate j ".." ++ suffix) x =
          List.replicate j ".." ++ suffix := by
        simp [normStep, h1]
      rw [hstep]
      exact ih (fun s hm => h s (by simp [hm])) hs
    · by_cases h2 : x = ".."
      · subst h2
        by_cases hsuf : suffix = []
        · subst hsuf
          have hstep : normStep true (List.replicate j ".." ++ ([] : List String))
              ".." = List.replicate (j + 1) ".." ++ ([] : List String) := by
            rw [List.append_nil, List.append_nil]
            cases j with
            | zero => simp [normStep]
            | succ i =>
              have hgl : (List.replicate (i + 1) (".." : String)).getLast? =
                  some ".." := by
                rw [List.getLast?_eq_getLast _ (by simp)]
                simp [List.getLast_replicate]
              rw [normStep_dotdot_push hgl, ← List.replicate_succ']
          rw [hstep]
          exact ih (fun s hm => h s (by simp [hm]))
            (fun s hm => absurd hm (List.not_mem_nil s))
        · have hglv : suffix.getLast? = some (suffix.getLast hsuf) :=
            List.getLast?_eq_getLast suffix hsuf
          have hne2 : suffix.getLast hsuf ≠ ".." := by
            have hc := hs _ (List.getLast_mem hsuf)
            simp only [cleanSeg, Bool.and_eq_true, decide_eq_true_eq] at hc
            exact hc.1.2
          have hstep : normStep true (List.replicate j ".." ++ suffix) ".." =
              List.replicate j ".." ++ suffix.dropLast := by
            have hcond : (List.replicate j ".." ++ suffix) ≠ [] ∧
                (List.replicate j ".." ++ suffix).getLast? ≠ some ".." := by
              refine ⟨by simp [hsuf], ?_⟩
              rw [List.getLast?_append, hglv]
              intro hcc
              injection hcc with hcc2
              exact hne2 hcc2
            simp only [normStep,
              if_neg (by simp : ¬((".." : String) = "" ∨ (".." : String) = ".")),
              if_pos rfl, if_pos hcond, if_true]
            rw [List.dropLast_append_of_ne_nil _ hsuf]
          rw [hstep]
          exact ih (fun s hm => h s (by simp [hm]))
            (fun s hm => hs s (List.dropLast_subset suffix hm))
      · have hcx : cleanSeg x = true := by
          push_neg at h1
          simp [cleanSeg, h1.1, h1.2, h2, h x (by simp)]
        rw [normStep_clean hcx, List.append_assoc]
        refine ih (fun s hm => h s (by simp [hm])) ?_
        intro s hm
        rcases List.mem_append.1 hm with h3 | h4
        · exact hs s h3
        · simp only [List.mem_singleton] at h4
          exact h4 ▸ hcx

theorem normSegs_true_shape {xs : List String} (h : ∀ s ∈ xs, '/' ∉ s.data) :
    ∃ j suffix, CleanSegs suffix ∧
      normSegs true xs = List.replicate j ".." ++ suffix := by
  have h2 := foldl_normStep_true_shape h (j := 0)
    (fun s hm => absurd hm (List.not_mem_nil s))
  simpa [normSegs] using h2

theorem jsNormalize_rel_fixed_slash {k : Nat} {suffix : List String}
    (h : CleanSegs suffix) (hne : List.replicate k ".." ++ suffix ≠ []) :
    jsNormalize (rawJoin (List.replicate k ".." ++ suffix) ++ "/") =
      rawJoin (List.replicate k ".." ++ suffix) ++ "/" := by
  have hok := relSegs_segOK (k := k) h
  have hnem : rawJoin (List.replicate k ".." ++ suffix) ≠ "" :=
    rawJoin_ne_empty hok hne
  have habs : isAbs (rawJoin (List.replicate k ".." ++ suffix) ++ "/") = false := by
    rw [isAbs_append_slash hnem]
    exact isAbs_rawJoin hok
  rw [jsNormalize_rel_slash (append_slash_ne_empty _) habs
    (getLast?_data_append_slash _)
    (by rw [segsOf_slash_append_right, segsOf_rawJoin hok, normSegs_true_rel h]
        exact hne)]
  rw [segsOf_slash_append_right, segsOf_rawJoin hok, normSegs_true_rel h]

theorem jsNormalize_mkAbs_fixed {R : List String} (h : CleanSegs R)
    (hne : R ≠ []) : jsNormalize (mkAbs R) = mkAbs R := by
  have hok := segOK_of_CleanSegs h
  obtain ⟨c, hc1, hc2⟩ := getLast?_data_mkAbs hok hne
  rw [jsNormalize_abs_noslash (isAbs_mkAbs R)
    (by rw [hc1]; simp [hc2])]
  rw [segsOf_mkAbs hok, normSegs_clean h]

theorem jsNormalize_mkAbs_slash_fixed {R : List String} (h : CleanSegs R)
    (hne : R ≠ []) : jsNormalize (mkAbs R ++ "/") = mkAbs R ++ "/" := by
  have hok := segOK_of_CleanSegs h
  have habs : isAbs (mkAbs R ++ "/") = true := by
    rw [isAbs_append_slash (mkAbs_ne_empty R)]
    exact isAbs_mkAbs R
  rw [jsNormalize_abs_slash habs (getLast?_data_append_slash _)
    (by rw [segsOf_slash_append_right, segsOf_mkAbs hok, normSegs_clean h]
        exact hne)]
  rw [segsOf_slash_append_right, segsOf_mkAbs hok, normSegs_clean h]

theorem jsNormalize_idem (p : String) :
    jsNormalize (jsNormalize p) = jsNormalize p := by
  by_cases hp : p = ""
  · subst hp
    decide
  · cases habs : isAbs p with
    | true =>
      by_cases hres : normSegs false (segsOf p) = []
      · rw [jsNormalize_abs_root habs hres]
        decide
      · have hC := cleanSegs_normSegs_false (segsOf_noSlash p)
        by_cases htr : p.data.getLast? = some '/'
        · rw [jsNormalize_abs_slash habs htr hres,
            jsNormalize_mkAbs_slash_fixed hC hres]
        · rw [jsNormalize_abs_noslash habs htr,
            jsNormalize_mkAbs_fixed hC hres]
    | false =>
      obtain ⟨j, suffix, hsuf, hshape⟩ := normSegs_true_shape (segsOf_noSlash p)
      by_cases hres : normSegs true (segsOf p) = []
      · by_cases htr : p.data.getLast? = some '/'
        · rw [jsNormalize_rel_empty_slash hp habs htr hres]
          decide
        · rw [jsNormalize_rel_empty_noslash hp habs htr hres]
          decide
      · by_cases htr : p.data.getLast? = some '/'
        · rw [jsNormalize_rel_slash hp habs htr hres, hshape,
            jsNormalize_rel_fixed_slash hsuf (hshape ▸ hres)]
        · rw [jsNormalize_rel_noslash hp habs htr hres, hshape,
            jsNormalize_rel_fixed hsuf (hshape ▸ hres)]

/-! ### Object spread -/

theorem lookup_append_or (A B : List (String × JSValue)) (k : String) :
    (A ++ B).lookup k = ((A.lookup k).or (B.lookup k)) := by
  induction A with
  | nil => simp
  | cons kv rest ih =>
    obtain ⟨k', v'⟩ := kv
    by_cases hk : k = k'
    · subst hk
      simp [List.lookup]
    · have hb : (k == k') = false := beq_false_of_ne hk
      simp [List.lookup, hb, ih]

theorem lookup_spread_mapped (f s : List (String × JSValue)) (k : String) :
    ((f.map fun kv =>
        match s.lookup kv.1 with
        | some w => (kv.1, w)
        | none => kv).lookup k) =
      (f.lookup k).map fun v =>
        match s.lookup k with
        | some w => w
        | none => v := by
  induction f with
  | nil => simp
  | cons kv rest ih =>
    obtain ⟨k', v'⟩ := kv
    by_cases hk : k = k'
    · subst hk
      cases hs : s.lookup k <;>
        simp [List.lookup, hs]
    · have hb : (k == k') = false := beq_false_of_ne hk
      cases hs : s.lookup k' <;>
        simp [List.lookup, hb, hs, ih]

theorem lookup_filter_isNone {f : List (String × JSValue)}
    (s : List (String × JSValue)) {k : String} (hf : f.lookup k = none) :
    ((s.filter fun kv => (f.lookup kv.1).isNone).lookup k) = s.lookup k := by
  induction s with
  | nil => simp
  | cons kv rest ih =>
    obtain ⟨k', w⟩ := kv
    by_cases hk : k = k'
    · subst hk
      rw [List.filter_cons, if_pos (by simp [hf])]
      simp [List.lookup]
    · have hb : (k == k') = false := beq_false_of_ne hk
      rw [List.filter_cons]
      split
      · simp [List.lookup, hb, ih]
      · simp [List.lookup, hb] at ih ⊢
        exact ih

/-- The single lookup law of JavaScript object spread `{...f, ...s}`. -/
theorem lookup_spreadFields (f s : List (String × JSValue)) (k : String) :
    (spreadFields f s).lookup k =
      match f.lookup k with
      | some v =>
        some (match s.lookup k with
              | some w => w
              | none => v)
      | none => s.lookup k := by
  rw [spreadFields, lookup_append_or, lookup_spread_mapped]
  cases hfk : f.lookup k with
  | some v => simp
  | none =>
    simp only [Option.map_none', Option.none_or]
    exact lookup_filter_isNone s hfk

/-! ### Scanner loop lemmas -/

theorem scanEntries_symlink_marker {fs : FS} {cwd : String} {opts : ScanOptions}
    (hfl : opts.followLinks = true) :
    ∀ {entries : List (String × FSNode)} {fuel : Nat} {p : String}
      {fields : List (String × JSValue)} {name target ty : String},
      scanEntries fs cwd opts fuel p entries = .ok fields →
      (entries.map Prod.fst).Nodup →
      (name, FSNode.symlinkN target ty) ∈ entries →
      fsLookup fs (jsResolve cwd [p ++ "/" ++ name]) = some (.symlinkN target ty) →
      fields.lookup name = some (symlink target) := by
  intro entries
  induction entries with
  | nil =>
    intro fuel p fields name target ty h hnd hmem
    exact absurd hmem (List.not_mem_nil _)
  | cons e rest ih =>
    intro fuel p fields name target ty h hnd hmem hfs
    obtain ⟨n0, node0⟩ := e
    cases fuel with
    | zero => exact absurd h (by simp [scanEntries])
    | succ fuel =>
      simp only [scanEntries] at h
      rcases List.mem_cons.1 hmem with hhead | htail
      · injection hhead with hn hnode
        subst hn
        subst hnode
        rw [hfl] at h
        simp only [readlinkFS, hfs, if_pos rfl] at h
        cases hrest : scanEntries fs cwd opts fuel p rest with
        | error e => rw [hrest] at h; exact absurd h (by simp)
        | ok fields' =>
          rw [hrest] at h
          simp only [if_true, Except.ok.injEq] at h
          subst h
          simp [List.lookup]
      · have hne : name ≠ n0 := by
          intro hc
          subst hc
          have hmm := List.mem_map_of_mem (f := Prod.fst)
            (a := (name, FSNode.symlinkN target ty)) htail
          exact (List.nodup_cons.1 hnd).1 hmm
        have hfields' : ∃ v0 fields',
            scanEntries fs cwd opts fuel p rest = .ok fields' ∧
            fields = (n0, v0) :: fields' := by
          split at h
          · exact absurd h (by simp)
          · next value heq =>
            cases hrest : scanEntries fs cwd opts fuel p rest with
            | error e => rw [hrest] at h; exact absurd h (by simp)
            | ok fields' =>
              rw [hrest] at h
              simp only [Except.ok.injEq] at h
              exact ⟨value, fields', rfl, h.symm⟩
        obtain ⟨v0, fields', hrest, hf⟩ := hfields'
        subst hf
        have hb : (name == n0) = false := beq_false_of_ne hne
        simp only [List.lookup, hb]
        exact ih hrest (List.nodup_cons.1 hnd).2 htail hfs

theorem scanEntries_symlink_inlined {fs : FS} {cwd : String} {opts : ScanOptions}
    (hfl : opts.followLinks = false) :
    ∀ {entries : List (String × FSNode)} {fuel : Nat} {p : String}
      {fields : List (String × JSValue)} {name target ty : String}
      {content : JSValue},
      scanEntries fs cwd opts fuel p entries = .ok fields →
      (entries.map Prod.fst).Nodup →
      (name, FSNode.symlinkN target ty) ∈ entries →
      readFileFS fs (jsResolve cwd [p ++ "/" ++ name])
        (opts.getEncodingForFile (p ++ "/" ++ name)) = .ok content →
      fields.lookup name = some content := by
  intro entries
  induction entries with
  | nil =>
    intro fuel p fields name target ty content h hnd hmem
    exact absurd hmem (List.not_mem_nil _)
  | cons e rest ih =>
    intro fuel p fields name target ty content h hnd hmem hread
    obtain ⟨n0, node0⟩ := e
    cases fuel with
    | zero => exact absurd h (by simp [scanEntries])
    | succ fuel =>
      simp only [scanEntries] at h
      rcases List.mem_cons.1 hmem with hhead | htail
      · injection hhead with hn hnode
        subst hn
        subst hnode
        rw [hfl] at h
        simp only [Bool.false_eq_true, if_false, hread] at h
        cases hrest : scanEntries fs cwd opts fuel p rest with
        | error e => rw [hrest] at h; exact absurd h (by simp)
        | ok fields' =>
          rw [hrest] at h
          simp only [Except.ok.injEq] at h
          subst h
          simp [List.lookup]
      · have hne : name ≠ n0 := by
          intro hc
          subst hc
          have hmm := List.mem_map_of_mem (f := Prod.fst)
            (a := (name, FSNode.symlinkN target ty)) htail
          exact (List.nodup_cons.1 hnd).1 hmm
        have hfields' : ∃ v0 fields',
            scanEntries fs cwd opts fuel p rest = .ok fields' ∧
            fields = (n0, v0) :: fields' := by
          split at h
          · exact absurd h (by simp)
          · next value heq =>
            cases hrest : scanEntries fs cwd opts fuel p rest with
            | error e => rw [hrest] at h; exact absurd h (by simp)
            | ok fields' =>
              rw [hrest] at h
              simp only [Except.ok.injEq] at h
              exact ⟨value, fields', rfl, h.symm⟩
        obtain ⟨v0, fields', hrest, hf⟩ := hfields'
        subst hf
        have hb : (name == n0) = false := beq_false_of_ne hne
        simp only [List.lookup, hb]
        exact ih hrest (List.nodup_cons.1 hnd).2 htail hread

theorem readFileFS_ok_not_marker {fs : FS} {p : String} {enc : Option String}
    {content : JSValue} (h : readFileFS fs p enc = .ok content) :
    isSymlink content = false := by
  rw [readFileFS] at h
  split at h
  · cases enc with
    | some e => simp only [Except.ok.injEq] at h; subst h; rfl
    | none => simp only [Except.ok.injEq] at h; subst h; rfl
  · exact absurd h (by simp)
  · exact absurd h (by simp)

/-! ### Materializer loop lemmas -/

theorem innerData_size_le (v : JSValue) : jsSize (innerData v) ≤ jsSize v := by
  unfold innerData
  split
  · exact jsSize_objGet v "content"
  · exact Nat.le_refl _

theorem createEntries_fuel_irrel (cwd : String) :
    ∀ {f1 f2 : Nat} {filePath : String} {prov : Option String}
      {entries : List (String × JSValue)} {fs : FS},
      entsSize entries < f1 → entsSize entries < f2 →
      createEntries cwd f1 filePath prov entries fs =
        createEntries cwd f2 filePath prov entries fs := by
  intro f1
  induction f1 with
  | zero =>
    intro f2 filePath prov entries fs h1 h2
    exact absurd h1 (Nat.not_lt_zero _)
  | succ n ih =>
    intro f2 filePath prov entries fs h1 h2
    cases f2 with
    | zero => exact absurd h2 (Nat.not_lt_zero _)
    | succ m =>
      cases entries with
      | nil => rfl
      | cons e rest =>
        obtain ⟨name, data0⟩ := e
        have hsz : entsSize ((name, data0) :: rest) = 1 + jsSize data0 + entsSize rest :=
          rfl
        have hd0 := jsSize_pos data0
        have hrest1 : entsSize rest < n := by omega
        have hrest2 : entsSize rest < m := by omega
        have hin := innerData_size_le data0
        have hent := entsSize_entriesOfValue (innerData data0)
        have hdir1 : entsSize (entriesOfValue (innerData data0)) < n := by omega
        have hdir2 : entsSize (entriesOfValue (innerData data0)) < m := by omega
        simp only [createEntries]
        split
        · cases hlf : linkFS fs
              (jsResolve cwd [jsDirname (jsResolve cwd [filePath, name]),
                strField (innerData data0) "path"])
              (jsResolve cwd [filePath, name]) with
          | error e => rfl
          | ok fs1 =>
            dsimp only
            rw [ih hrest1 hrest2]
        · split
          · cases hsf : symlinkFS fs _ (jsResolve cwd [filePath, name]) _ with
            | error e => rfl
            | ok fs1 =>
              dsimp only
              rw [ih hrest1 hrest2]
          · split
            · cases hmk : mkdirRec fs (jsDirname (jsResolve cwd [filePath, name])) none with
              | error e => rfl
              | ok fs1 =>
                dsimp only
                cases hwf : writeFileFS fs1 (jsResolve cwd [filePath, name])
                    (writtenContent (innerData data0))
                    ((if hasMetadata data0 = true then (tagsOf data0).metaTag
                      else none).bind fun x => x.mode) with
                | error e => rfl
                | ok fs2 =>
                  dsimp only
                  rw [ih hrest1 hrest2]
            · cases hmk : mkdirRec fs (jsResolve cwd [filePath, name]) _ with
              | error e => rfl
              | ok fs1 =>
                dsimp only
                rw [ih hdir1 hdir2]
                cases hrec : createEntries cwd m (jsResolve cwd [filePath, name])
                    (tagsOf (innerData data0)).origPath
                    (entriesOfValue (innerData data0)) fs1 with
                | error e => rfl
                | ok r =>
                  obtain ⟨fs2, ents'⟩ := r
                  dsimp only
                  rw [ih hrest1 hrest2]

/-! ### Directory-chain algebra -/

theorem fsLookup_fsSet_self (fs : FS) (p : String) (n : FSNode) :
    fsLookup (fsSet fs p n) p = some n := by
  induction fs with
  | nil => simp [fsSet, fsLookup, List.lookup]
  | cons hd rest ih =>
    obtain ⟨q, m⟩ := hd
    by_cases hq : q = p
    · subst hq
      simp [fsSet, fsLookup, List.lookup]
    · have hb : (p == q) = false := beq_false_of_ne (Ne.symm hq)
      simp only [fsSet, if_neg hq]
      simpa [fsLookup, List.lookup, hb] using ih

theorem fsLookup_fsSet_ne {q p : String} (h : q ≠ p) (fs : FS) (n : FSNode) :
    fsLookup (fsSet fs p n) q = fsLookup fs q := by
  have hb : (q == p) = false := beq_false_of_ne h
  induction fs with
  | nil => simp [fsSet, fsLookup, List.lookup, hb]
  | cons hd rest ih =>
    obtain ⟨r, m⟩ := hd
    by_cases hr : r = p
    · subst hr
      simp [fsSet, fsLookup, List.lookup, hb]
    · simp only [fsSet, if_neg hr]
      by_cases hqr : q = r
      · subst hqr
        simp [fsLookup, List.lookup]
      · have hb2 : (q == r) = false := beq_false_of_ne hqr
        simp only [fsLookup, List.lookup, hb2] at ih ⊢
        exact ih

theorem mkdirFold_preserve {mode : Option Nat} :
    ∀ {l : List String} {fs fs' : FS}, mkdirFold mode fs l = .ok fs' →
      ∀ {p : String} {n : FSNode}, fsLookup fs p = some n →
        fsLookup fs' p = some n := by
  intro l
  induction l with
  | nil =>
    intro fs fs' h p n hp
    simp only [mkdirFold] at h
    injection h with h2
    subst h2
    exact hp
  | cons q rest ih =>
    intro fs fs' h p n hp
    simp only [mkdirFold] at h
    cases hlk : fsLookup fs q with
    | some node =>
      rw [hlk] at h
      cases node with
      | dirN m => exact ih h hp
      | fileN c m => exact Except.noConfusion h
      | symlinkN t ty => exact Except.noConfusion h
    | none =>
      rw [hlk] at h
      have hpq : p ≠ q := by
        intro he
        rw [he, hlk] at hp
        exact Option.noConfusion hp
      exact ih h (by rw [fsLookup_fsSet_ne hpq]; exact hp)

theorem mkdirFold_mem_dir {mode : Option Nat} :
    ∀ {l : List String} {fs fs' : FS}, mkdirFold mode fs l = .ok fs' →
      ∀ q ∈ l, ∃ m, fsLookup fs' q = some (.dirN m) := by
  intro l
  induction l with
  | nil =>
    intro fs fs' h q hq
    exact absurd hq (List.not_mem_nil q)
  | cons a rest ih =>
    intro fs fs' h q hq
    simp only [mkdirFold] at h
    cases hlk : fsLookup fs a with
    | some node =>
      rw [hlk] at h
      cases node with
      | dirN m =>
        rcases List.mem_cons.1 hq with rfl | hq2
        · exact ⟨m, mkdirFold_preserve h hlk⟩
        · exact ih h q hq2
      | fileN c m => exact Except.noConfusion h
      | symlinkN t ty => exact Except.noConfusion h
    | none =>
      rw [hlk] at h
      rcases List.mem_cons.1 hq with rfl | hq2
      · exact ⟨mode, mkdirFold_preserve h (fsLookup_fsSet_self fs q (.dirN mode))⟩
      · exact ih h q hq2

theorem mkdirFold_id {mode : Option Nat} :
    ∀ {l : List String} {fs : FS},
      (∀ q ∈ l, ∃ m, fsLookup fs q = some (.dirN m)) →
      mkdirFold mode fs l = .ok fs := by
  intro l
  induction l with
  | nil => intro fs _; rfl
  | cons a rest ih =>
    intro fs h
    obtain ⟨m, hm⟩ := h a (by simp)
    simp only [mkdirFold]
    rw [hm]
    exact ih (fun q hq => h q (by simp [hq]))

theorem mkdirRec_preserve {fs fs' : FS} {p : String} {mode : Option Nat}
    (h : mkdirRec fs p mode = .ok fs') {q : String} {n : FSNode}
    (hq : fsLookup fs q = some n) : fsLookup fs' q = some n :=
  mkdirFold_preserve h hq

theorem foldl_prefSteps {B : List String} :
    ∀ {acc : List (List String)} {X : List String}, acc.getLastD [] = X →
      B.foldl (fun acc seg => acc ++ [acc.getLastD [] ++ [seg]]) acc =
        acc ++ cumulFrom X B := by
  induction B with
  | nil =>
    intro acc X _
    simp [cumulFrom]
  | cons b bs ih =>
    intro acc X h
    simp only [List.foldl_cons]
    rw [h, ih (by rw [List.getLastD_concat])]
    simp [cumulFrom]

theorem prefixesOf_mkAbs_cumul {S : List String} (hS : CleanSegs S) :
    prefixesOf (mkAbs S) = (cumulFrom [] S).map mkAbs := by
  unfold prefixesOf
  rw [segsOf_mkAbs (segOK_of_CleanSegs hS), foldl_prefSteps rfl]
  simp

theorem cumulFrom_append :
    ∀ (A X B : List String),
      cumulFrom X (A ++ B) = cumulFrom X A ++ cumulFrom (X ++ A) B := by
  intro A
  induction A with
  | nil => intro X B; simp [cumulFrom]
  | cons a as ih =>
    intro X B
    have h1 : (a :: as) ++ B = a :: (as ++ B) := rfl
    rw [h1]
    show (X ++ [a]) :: cumulFrom (X ++ [a]) (as ++ B) =
      ((X ++ [a]) :: cumulFrom (X ++ [a]) as) ++ cumulFrom (X ++ a :: as) B
    rw [ih (X ++ [a]) B, List.append_cons X a as]
    simp

theorem prefixesOf_append {A B : List String} (hA : CleanSegs A)
    (hB : CleanSegs B) :
    prefixesOf (mkAbs (A ++ B)) =
      prefixesOf (mkAbs A) ++ (cumulFrom A B).map mkAbs := by
  have hAB : CleanSegs (A ++ B) := by
    intro s hs
    rcases List.mem_append.1 hs with h1 | h2
    · exact hA s h1
    · exact hB s h2
  rw [prefixesOf_mkAbs_cumul hAB, prefixesOf_mkAbs_cumul hA, cumulFrom_append A [] B]
  simp

theorem mkdirFold_append {mode : Option Nat} :
    ∀ (l1 l2 : List String) (g : FS),
      mkdirFold mode g (l1 ++ l2) =
        match mkdirFold mode g l1 with
        | .error e => .error e
        | .ok g1 => mkdirFold mode g1 l2 := by
  intro l1
  induction l1 with
  | nil => intro l2 g; rfl
  | cons a l1 ih =>
    intro l2 g
    simp only [List.cons_append, mkdirFold]
    cases hlk : fsLookup g a with
    | some node =>
      cases node with
      | dirN m => exact ih l2 g
      | fileN c m => rfl
      | symlinkN t ty => rfl
    | none => exact ih l2 _

theorem mkdirRec_chain {A B : List String} (hA : CleanSegs A) (hB : CleanSegs B)
    (fs : FS) (mode : Option Nat) :
    mkdirRec fs (mkAbs (A ++ B)) mode =
      match mkdirRec fs (mkAbs A) mode with
      | .error e => .error e
      | .ok fs1 => mkdirRec fs1 (mkAbs (A ++ B)) mode := by
  simp only [mkdirRec]
  rw [prefixesOf_append hA hB, mkdirFold_append]
  cases h1 : mkdirFold mode fs (prefixesOf (mkAbs A)) with
  | error e => rfl
  | ok fs1 =>
    dsimp only
    rw [mkdirFold_append, mkdirFold_id (fun q hq => mkdirFold_mem_dir h1 q hq)]

/-! ### Flat and nested forms of one entry -/

theorem CleanSegs_append {a b : List String} (ha : CleanSegs a) (hb : CleanSegs b) :
    CleanSegs (a ++ b) := by
  intro s hs
  rcases List.mem_append.1 hs with h1 | h2
  · exact ha s h1
  · exact hb s h2

theorem CleanSegs_single {k : String} (hk : cleanSeg k = true) : CleanSegs [k] := by
  intro s hs
  simp only [List.mem_singleton] at hs
  exact hs ▸ hk

theorem isPrimitive_no_marker {v : JSValue} (h : isPrimitive v = true) :
    isLink v = false ∧ isSymlink v = false := by
  cases v <;> first
    | exact ⟨rfl, rfl⟩
    | exact absurd h (by simp [isPrimitive])

theorem innerData_no_meta {v : JSValue} (h : hasMetadata v = false) :
    innerData v = v := by
  unfold innerData
  rw [h]
  simp

theorem nestValue_tags (L : List String) (k : String) (v : JSValue) :
    tagsOf (nestValue L k v) = noTags := by
  cases L <;> rfl

theorem nestValue_hasMetadata (L : List String) (k : String) (v : JSValue) :
    hasMetadata (nestValue L k v) = false := by
  cases L <;> rfl

theorem nestValue_isLink (L : List String) (k : String) (v : JSValue) :
    isLink (nestValue L k v) = false := by
  cases L <;> rfl

theorem nestValue_isSymlink (L : List String) (k : String) (v : JSValue) :
    isSymlink (nestValue L k v) = false := by
  cases L <;> rfl

theorem nestValue_isPrimitive (L : List String) (k : String) (v : JSValue) :
    isPrimitive (nestValue L k v) = false := by
  cases L <;> rfl

theorem jsSize_nestValue (k : String) (v : JSValue) :
    ∀ L : List String, jsSize (nestValue L k v) = 2 * L.length + 2 + jsSize v := by
  intro L
  induction L with
  | nil =>
    simp only [nestValue, jsSize, entsSize, List.length_nil]
    omega
  | cons d ds ih =>
    simp only [nestValue, jsSize, entsSize, List.length_cons, ih]
    omega

theorem entsSize_nestValue (k : String) (v : JSValue) (L : List String) :
    entsSize (entriesOfValue (nestValue L k v)) = 2 * L.length + 1 + jsSize v := by
  cases L with
  | nil =>
    simp only [nestValue, entriesOfValue, entsSize, List.length_nil]
    omega
  | cons d ds =>
    simp only [nestValue, entriesOfValue, entsSize, List.length_cons,
      jsSize_nestValue]
    omega

theorem resolveSegs_push_many {S : List String} (hS : CleanSegs S)
    (cwd filePath : String) :
    resolveSegs cwd [filePath, rawJoin S] = resolveSegs cwd [filePath] ++ S := by
  have hOK : ∀ s ∈ S, segOK s = true := segOK_of_CleanSegs hS
  have habs : isAbs (rawJoin S) = false := isAbs_rawJoin hOK
  have hsegs : segsOf (rawJoin S) = S := segsOf_rawJoin hOK
  simp only [resolveSegs, List.foldl_cons, List.foldl_nil, habs,
    Bool.false_eq_true, if_false, hsegs, normSegs]
  rw [List.foldl_append]
  exact foldl_normStep_clean_push hS false _

theorem rawJoin_single (k : String) : rawJoin [k] = k := rfl

theorem resultFS_createFileTree (cwd p : String) (files : JSValue) (fs : FS) :
    resultFS (createFileTree cwd p files fs) =
      okFS (createEntries cwd (entsSize (entriesOfValue files) + 1) p
        (tagsOf files).origPath (entriesOfValue files) fs) := by
  unfold createFileTree
  cases h : createEntries cwd (entsSize (entriesOfValue files) + 1) p
      (tagsOf files).origPath (entriesOfValue files) fs with
  | error e => rfl
  | ok r =>
    obtain ⟨fs1, ents'⟩ := r
    rfl

theorem resultFS_createFileTreeSync (cwd p : String) (files : JSValue) (fs : FS) :
    resultFS (createFileTreeSync cwd p files fs) =
      okFS (createEntriesSync cwd (entsSize (entriesOfValue files) + 1) p
        (tagsOf files).origPath (entriesOfValue files) fs) := by
  unfold createFileTreeSync
  cases h : createEntriesSync cwd (entsSize (entriesOfValue files) + 1) p
      (tagsOf files).origPath (entriesOfValue files) fs with
  | error e => rfl
  | ok r =>
    obtain ⟨fs1, ents'⟩ := r
    rfl

theorem createEntriesSync_fuel_irrel (cwd : String) :
    ∀ {f1 f2 : Nat} {filePath : String} {prov : Option String}
      {entries : List (String × JSValue)} {fs : FS},
      entsSize entries < f1 → entsSize entries < f2 →
      createEntriesSync cwd f1 filePath prov entries fs =
        createEntriesSync cwd f2 filePath prov entries fs := by
  intro f1
  induction f1 with
  | zero =>
    intro f2 filePath prov entries fs h1 h2
    exact absurd h1 (Nat.not_lt_zero _)
  | succ n ih =>
    intro f2 filePath prov entries fs h1 h2
    cases f2 with
    | zero => exact absurd h2 (Nat.not_lt_zero _)
    | succ m =>
      cases entries with
      | nil => rfl
      | cons e rest =>
        obtain ⟨name, data0⟩ := e
        have hsz : entsSize ((name, data0) :: rest) = 1 + jsSize data0 + entsSize rest :=
          rfl
        have hd0 := jsSize_pos data0
        have hrest1 : entsSize rest < n := by omega
        have hrest2 : entsSize rest < m := by omega
        have hin := innerData_size_le data0
        have hent := entsSize_entriesOfValue (innerData data0)
        have hdir1 : entsSize (entriesOfValue (innerData data0)) < n := by omega
        have hdir2 : entsSize (entriesOfValue (innerData data0)) < m := by omega
        simp only [createEntriesSync]
        split
        · cases hlf : linkFS fs
              (jsResolve cwd [jsDirname (jsResolve cwd [filePath, name]),
                strField (innerData data0) "path"])
              (jsResolve cwd [filePath, name]) with
          | error e => rfl
          | ok fs1 =>
            dsimp only
            rw [ih hrest1 hrest2]
        · split
          · cases hsf : symlinkFS fs _ (jsResolve cwd [filePath, name]) _ with
            | error e => rfl
            | ok fs1 =>
              dsimp only
              rw [ih hrest1 hrest2]
          · split
            · cases hmk : mkdirRec fs (jsDirname (jsResolve cwd [filePath, name])) none with
              | error e => rfl
              | ok fs1 =>
                dsimp only
                cases hwf : writeFileFS fs1 (jsResolve cwd [filePath, name])
                    (writtenContent (innerData data0))
                    ((if hasMetadata data0 = true then (tagsOf data0).metaTag
                      else none).bind fun x => x.mode) with
                | error e => rfl
                | ok fs2 =>
                  dsimp only
                  rw [ih hrest1 hrest2]
            · cases hmk : mkdirRec fs (jsResolve cwd [filePath, name]) _ with
              | error e => rfl
              | ok fs1 =>
                dsimp only
                rw [ih hdir1 hdir2]
                cases hrec : createEntriesSync cwd m (jsResolve cwd [filePath, name])
                    (tagsOf (innerData data0)).origPath
                    (entriesOfValue (innerData data0)) fs1 with
                | error e => rfl
                | ok r =>
                  obtain ⟨fs2, ents'⟩ := r
                  dsimp only
                  rw [ih hrest1 hrest2]

theorem coreRun_step_err {cwd : String} {E : List String} {d : String}
    {ds : List String} {k : String} {v : JSValue} {e : FSErr}
    (hE : CleanSegs E) (hd : cleanSeg d = true) (hds : CleanSegs ds)
    (hk : cleanSeg k = true)
    (hv : isPrimitive (innerData v) = true ∨ hasMetadata v = false)
    {fsx : FS} (hmk : mkdirRec fsx (mkAbs (E ++ [d])) none = .error e) :
    coreRun cwd E (d :: ds) k v fsx = none := by
  have hEd : CleanSegs (E ++ [d]) := CleanSegs_append hE (CleanSegs_single hd)
  have hdm : dirModeOf none = none := rfl
  simp only [coreRun]
  rw [List.append_cons E d ds]
  split
  · next hp =>
    rw [mkdirRec_chain hEd hds fsx none, hmk]
  · next hp =>
    have hmeta : hasMetadata v = false := hv.resolve_left hp
    have hmodeEq : (if hasMetadata v = true then (tagsOf v).metaTag else none) =
        none := by
      rw [hmeta]; simp
    rw [hmodeEq, hdm, List.append_assoc (E ++ [d]) ds [k],
      mkdirRec_chain hEd (CleanSegs_append hds (CleanSegs_single hk)) fsx none,
      hmk]

theorem coreRun_step {cwd : String} {E : List String} {d : String}
    {ds : List String} {k : String} {v : JSValue}
    (hE : CleanSegs E) (hd : cleanSeg d = true) (hds : CleanSegs ds)
    (hk : cleanSeg k = true)
    (hv : isPrimitive (innerData v) = true ∨ hasMetadata v = false)
    {fsx fs1 : FS} (hmk : mkdirRec fsx (mkAbs (E ++ [d])) none = .ok fs1) :
    coreRun cwd E (d :: ds) k v fsx = coreRun cwd (E ++ [d]) ds k v fs1 := by
  have hEd : CleanSegs (E ++ [d]) := CleanSegs_append hE (CleanSegs_single hd)
  have hdm : dirModeOf none = none := rfl
  simp only [coreRun]
  rw [List.append_cons E d ds]
  split
  · next hp =>
    rw [mkdirRec_chain hEd hds fsx none, hmk]
  · next hp =>
    have hmeta : hasMetadata v = false := hv.resolve_left hp
    have hmodeEq : (if hasMetadata v = true then (tagsOf v).metaTag else none) =
        none := by
      rw [hmeta]; simp
    rw [hmodeEq, hdm, List.append_assoc (E ++ [d]) ds [k],
      mkdirRec_chain hEd (CleanSegs_append hds (CleanSegs_single hk)) fsx none,
      hmk]

set_option maxHeartbeats 1000000 in
theorem flat_run_core {cwd dest : String} {D : List String} {k : String}
    {v : JSValue} (hD : CleanSegs D) (hk : cleanSeg k = true)
    (hv : isPrimitive (innerData v) = true ∨
      (hasMetadata v = false ∧ isLink v = false ∧ isSymlink v = false ∧
        isPrimitive v = false))
    {f : Nat} (hf : jsSize v + 2 ≤ f) (fsx : FS) :
    okFS (createEntries cwd f dest none [(rawJoin (D ++ [k]), v)] fsx) =
      coreRun cwd (resolveSegs cwd [dest]) D k v fsx := by
  cases f with
  | zero => exact absurd hf (by omega)
  | succ f' =>
    cases f' with
    | zero => exact absurd hf (by have := jsSize_pos v; omega)
    | succ f'' =>
      have hDk : CleanSegs (D ++ [k]) := CleanSegs_append hD (CleanSegs_single hk)
      have hE : CleanSegs (resolveSegs cwd [dest]) := cleanSegs_resolveSegs cwd [dest]
      have hfn : jsResolve cwd [dest, rawJoin (D ++ [k])] =
          mkAbs (resolveSegs cwd [dest] ++ D ++ [k]) := by
        rw [jsResolve, resolveSegs_push_many hDk, List.append_assoc]
      have hdn : jsDirname (mkAbs (resolveSegs cwd [dest] ++ D ++ [k])) =
          mkAbs (resolveSegs cwd [dest] ++ D) :=
        jsDirname_mkAbs_append (segOK_of_CleanSegs (CleanSegs_append hE hD))
          (segOK_of_cleanSeg hk)
      rw [createEntries]
      rw [hfn, hdn]
      rcases hv with hp | ⟨hmeta, hlink, hsym, hprim⟩
      · obtain ⟨hl, hs⟩ := isPrimitive_no_marker hp
        rw [if_neg (by simp [hl]), if_neg (by simp [hs]), if_pos hp]
        simp only [coreRun]
        rw [if_pos hp]
        cases hmk : mkdirRec fsx (mkAbs (resolveSegs cwd [dest] ++ D)) none with
        | error e => rfl
        | ok fs1 =>
          dsimp only
          cases hwf : writeFileFS fs1 (mkAbs (resolveSegs cwd [dest] ++ D ++ [k]))
              (writtenContent (innerData v))
              ((if hasMetadata v = true then (tagsOf v).metaTag
                else none).bind fun x => x.mode) with
          | error e => rfl
          | ok fs2 => rfl
      · have hid : innerData v = v := innerData_no_meta hmeta
        rw [hid]
        rw [if_neg (by simp [hlink]), if_neg (by simp [hsym]),
          if_neg (by simp [hprim])]
        simp only [coreRun, hid, hprim, hmeta, Bool.false_eq_true, if_false]
        cases hmk : mkdirRec fsx (mkAbs (resolveSegs cwd [dest] ++ D ++ [k]))
            (dirModeOf none) with
        | error e => rfl
        | ok fs1 =>
          dsimp only
          have hent := entsSize_entriesOfValue v
          rw [createEntries_fuel_irrel cwd
            (show entsSize (entriesOfValue v) < f'' + 1 by omega)
            (show entsSize (entriesOfValue v) < entsSize (entriesOfValue v) + 1 by
              omega)]
          cases hrec : createEntries cwd (entsSize (entriesOfValue v) + 1)
              (mkAbs (resolveSegs cwd [dest] ++ D ++ [k])) (tagsOf v).origPath
              (entriesOfValue v) fs1 with
          | error e => rfl
          | ok r =>
            obtain ⟨fs2, ents'⟩ := r
            rfl

set_option maxHeartbeats 1000000 in
theorem nested_run_core {cwd : String} {k : String} {v : JSValue}
    (hk : cleanSeg k = true)
    (hv : isPrimitive (innerData v) = true ∨
      (hasMetadata v = false ∧ isLink v = false ∧ isSymlink v = false ∧
        isPrimitive v = false)) :
    ∀ (D : List String), CleanSegs D →
      ∀ (dest : String) (f : Nat), 2 * D.length + jsSize v + 2 ≤ f →
      ∀ (fsx : FS),
      okFS (createEntries cwd f dest none (entriesOfValue (nestValue D k v)) fsx) =
        coreRun cwd (resolveSegs cwd [dest]) D k v fsx := by
  have hv' : isPrimitive (innerData v) = true ∨ hasMetadata v = false :=
    hv.imp (fun h => h) (fun h => h.1)
  intro D
  induction D with
  | nil =>
    intro _ dest f hf fsx
    have h1 : entriesOfValue (nestValue [] k v) = [(rawJoin ([] ++ [k]), v)] := rfl
    rw [h1]
    exact flat_run_core (fun s hs => absurd hs (List.not_mem_nil s)) hk hv
      (by simp only [List.length_nil] at hf; omega) fsx
  | cons d ds ih =>
    intro hD dest f hf fsx
    have hd : cleanSeg d = true := hD d (by simp)
    have hds : CleanSegs ds := fun s hs => hD s (by simp [hs])
    have hE : CleanSegs (resolveSegs cwd [dest]) := cleanSegs_resolveSegs cwd [dest]
    have hEd : CleanSegs (resolveSegs cwd [dest] ++ [d]) :=
      CleanSegs_append hE (CleanSegs_single hd)
    simp only [List.length_cons] at hf
    cases f with
    | zero => exact absurd hf (by omega)
    | succ f' =>
      cases f' with
      | zero => exact absurd hf (by have := jsSize_pos v; omega)
      | succ f'' =>
        have h1 : entriesOfValue (nestValue (d :: ds) k v) =
            [(d, nestValue ds k v)] := rfl
        rw [h1]
        simp only [createEntries]
        have hw_meta := nestValue_hasMetadata ds k v
        have hw_id : innerData (nestValue ds k v) = nestValue ds k v :=
          innerData_no_meta hw_meta
        rw [hw_id]
        rw [if_neg (by simp [nestValue_isLink]),
          if_neg (by simp [nestValue_isSymlink]),
          if_neg (by simp [nestValue_isPrimitive])]
        have hmodeEq : (if hasMetadata (nestValue ds k v) = true then
            (tagsOf (nestValue ds k v)).metaTag else none) = none := by
          rw [hw_meta]; simp
        have hnt : (tagsOf (nestValue ds k v)).origPath = none := by
          rw [nestValue_tags]
          rfl
        have hdm : dirModeOf none = none := rfl
        have hfd : jsResolve cwd [dest, d] =
            mkAbs (resolveSegs cwd [dest] ++ [d]) := jsResolve_push hd
        rw [hmodeEq, hdm, hnt, hfd]
        cases hmk : mkdirRec fsx (mkAbs (resolveSegs cwd [dest] ++ [d])) none with
        | error e =>
          rw [coreRun_step_err hE hd hds hk hv' hmk]
          rfl
        | ok fs1 =>
          dsimp only
          have hih := ih hds (mkAbs (resolveSegs cwd [dest] ++ [d])) (f'' + 1)
            (by omega) fs1
          rw [resolveSegs_mkAbs hEd cwd] at hih
          rw [coreRun_step hE hd hds hk hv' hmk]
          cases hrec : createEntries cwd (f'' + 1)
              (mkAbs (resolveSegs cwd [dest] ++ [d])) none
              (entriesOfValue (nestValue ds k v)) fs1 with
          | error e =>
            rw [hrec] at hih
            rw [← hih]
          | ok r =>
            obtain ⟨fs2, ents'⟩ := r
            rw [hrec] at hih
            rw [← hih]
            rfl

theorem coreRunSync_step_err {cwd : String} {E : List String} {d : String}
    {ds : List String} {k : String} {v : JSValue} {e : FSErr}
    (hE : CleanSegs E) (hd : cleanSeg d = true) (hds : CleanSegs ds)
    (hk : cleanSeg k = true)
    (hv : isPrimitive (innerData v) = true ∨ hasMetadata v = false)
    {fsx : FS} (hmk : mkdirRec fsx (mkAbs (E ++ [d])) none = .error e) :
    coreRunSync cwd E (d :: ds) k v fsx = none := by
  have hEd : CleanSegs (E ++ [d]) := CleanSegs_append hE (CleanSegs_single hd)
  have hdm : dirModeOf none = none := rfl
  simp only [coreRunSync]
  rw [List.append_cons E d ds]
  split
  · next hp =>
    rw [mkdirRec_chain hEd hds fsx none, hmk]
  · next hp =>
    have hmeta : hasMetadata v = false := hv.resolve_left hp
    have hmodeEq : (if hasMetadata v = true then (tagsOf v).metaTag else none) =
        none := by
      rw [hmeta]; simp
    rw [hmodeEq, hdm, List.append_assoc (E ++ [d]) ds [k],
      mkdirRec_chain hEd (CleanSegs_append hds (CleanSegs_single hk)) fsx none,
      hmk]

theorem coreRunSync_step {cwd : String} {E : List String} {d : String}
    {ds : List String} {k : String} {v : JSValue}
    (hE : CleanSegs E) (hd : cleanSeg d = true) (hds : CleanSegs ds)
    (hk : cleanSeg k = true)
    (hv : isPrimitive (innerData v) = true ∨ hasMetadata v = false)
    {fsx fs1 : FS} (hmk : mkdirRec fsx (mkAbs (E ++ [d])) none = .ok fs1) :
    coreRunSync cwd E (d :: ds) k v fsx = coreRunSync cwd (E ++ [d]) ds k v fs1 := by
  have hEd : CleanSegs (E ++ [d]) := CleanSegs_append hE (CleanSegs_single hd)
  have hdm : dirModeOf none = none := rfl
  simp only [coreRunSync]
  rw [List.append_cons E d ds]
  split
  · next hp =>
    rw [mkdirRec_chain hEd hds fsx none, hmk]
  · next hp =>
    have hmeta : hasMetadata v = false := hv.resolve_left hp
    have hmodeEq : (if hasMetadata v = true then (tagsOf v).metaTag else none) =
        none := by
      rw [hmeta]; simp
    rw [hmodeEq, hdm, List.append_assoc (E ++ [d]) ds [k],
      mkdirRec_chain hEd (CleanSegs_append hds (CleanSegs_single hk)) fsx none,
      hmk]

set_option maxHeartbeats 1000000 in
theorem flat_run_core_sync {cwd dest : String} {D : List String} {k : String}
    {v : JSValue} (hD : CleanSegs D) (hk : cleanSeg k = true)
    (hv : isPrimitive (innerData v) = true ∨
      (hasMetadata v = false ∧ isLink v = false ∧ isSymlink v = false ∧
        isPrimitive v = false))
    {f : Nat} (hf : jsSize v + 2 ≤ f) (fsx : FS) :
    okFS (createEntriesSync cwd f dest none [(rawJoin (D ++ [k]), v)] fsx) =
      coreRunSync cwd (resolveSegs cwd [dest]) D k v fsx := by
  cases f with
  | zero => exact absurd hf (by omega)
  | succ f' =>
    cases f' with
    | zero => exact absurd hf (by have := jsSize_pos v; omega)
    | succ f'' =>
      have hDk : CleanSegs (D ++ [k]) := CleanSegs_append hD (CleanSegs_single hk)
      have hE : CleanSegs (resolveSegs cwd [dest]) := cleanSegs_resolveSegs cwd [dest]
      have hfn : jsResolve cwd [dest, rawJoin (D ++ [k])] =
          mkAbs (resolveSegs cwd [dest] ++ D ++ [k]) := by
        rw [jsResolve, resolveSegs_push_many hDk, List.append_assoc]
      have hdn : jsDirname (mkAbs (resolveSegs cwd [dest] ++ D ++ [k])) =
          mkAbs (resolveSegs cwd [dest] ++ D) :=
        jsDirname_mkAbs_append (segOK_of_CleanSegs (CleanSegs_append hE hD))
          (segOK_of_cleanSeg hk)
      rw [createEntriesSync]
      rw [hfn, hdn]
      rcases hv with hp | ⟨hmeta, hlink, hsym, hprim⟩
      · obtain ⟨hl, hs⟩ := isPrimitive_no_marker hp
        rw [if_neg (by simp [hl]), if_neg (by simp [hs]), if_pos hp]
        simp only [coreRunSync]
        rw [if_pos hp]
        cases hmk : mkdirRec fsx (mkAbs (resolveSegs cwd [dest] ++ D)) none with
        | error e => rfl
        | ok fs1 =>
          dsimp only
          cases hwf : writeFileFS fs1 (mkAbs (resolveSegs cwd [dest] ++ D ++ [k]))
              (writtenContent (innerData v))
              ((if hasMetadata v = true then (tagsOf v).metaTag
                else none).bind fun x => x.mode) with
          | error e => rfl
          | ok fs2 => rfl
      · have hid : innerData v = v := innerData_no_meta hmeta
        rw [hid]
        rw [if_neg (by simp [hlink]), if_neg (by simp [hsym]),
          if_neg (by simp [hprim])]
        simp only [coreRunSync, hid, hprim, hmeta, Bool.false_eq_true, if_false]
        cases hmk : mkdirRec fsx (mkAbs (resolveSegs cwd [dest] ++ D ++ [k]))
            (dirModeOf none) with
        | error e => rfl
        | ok fs1 =>
          dsimp only
          have hent := entsSize_entriesOfValue v
          rw [createEntriesSync_fuel_irrel cwd
            (show entsSize (entriesOfValue v) < f'' + 1 by omega)
            (show entsSize (entriesOfValue v) < entsSize (entriesOfValue v) + 1 by
              omega)]
          cases hrec : createEntriesSync cwd (entsSize (entriesOfValue v) + 1)
              (mkAbs (resolveSegs cwd [dest] ++ D ++ [k])) (tagsOf v).origPath
              (entriesOfValue v) fs1 with
          | error e => rfl
          | ok r =>
            obtain ⟨fs2, ents'⟩ := r
            rfl

set_option maxHeartbeats 1000000 in
theorem nested_run_core_sync {cwd : String} {k : String} {v : JSValue}
    (hk : cleanSeg k = true)
    (hv : isPrimitive (innerData v) = true ∨
      (hasMetadata v = false ∧ isLink v = false ∧ isSymlink v = false ∧
        isPrimitive v = false)) :
    ∀ (D : List String), CleanSegs D →
      ∀ (dest : String) (f : Nat), 2 * D.length + jsSize v + 2 ≤ f →
      ∀ (fsx : FS),
      okFS (createEntriesSync cwd f dest none (entriesOfValue (nestValue D k v)) fsx) =
        coreRunSync cwd (resolveSegs cwd [dest]) D k v fsx := by
  have hv' : isPrimitive (innerData v) = true ∨ hasMetadata v = false :=
    hv.imp (fun h => h) (fun h => h.1)
  intro D
  induction D with
  | nil =>
    intro _ dest f hf fsx
    have h1 : entriesOfValue (nestValue [] k v) = [(rawJoin ([] ++ [k]), v)] := rfl
    rw [h1]
    exact flat_run_core_sync (fun s hs => absurd hs (List.not_mem_nil s)) hk hv
      (by simp only [List.length_nil] at hf; omega) fsx
  | cons d ds ih =>
    intro hD dest f hf fsx
    have hd : cleanSeg d = true := hD d (by simp)
    have hds : CleanSegs ds := fun s hs => hD s (by simp [hs])
    have hE : CleanSegs (resolveSegs cwd [dest]) := cleanSegs_resolveSegs cwd [dest]
    have hEd : CleanSegs (resolveSegs cwd [dest] ++ [d]) :=
      CleanSegs_append hE (CleanSegs_single hd)
    simp only [List.length_cons] at hf
    cases f with
    | zero => exact absurd hf (by omega)
    | succ f' =>
      cases f' with
      | zero => exact absurd hf (by have := jsSize_pos v; omega)
      | succ f'' =>
        have h1 : entriesOfValue (nestValue (d :: ds) k v) =
            [(d, nestValue ds k v)] := rfl
        rw [h1]
        simp only [createEntriesSync]
        have hw_meta := nestValue_hasMetadata ds k v
        have hw_id : innerData (nestValue ds k v) = nestValue ds k v :=
          innerData_no_meta hw_meta
        rw [hw_id]
        rw [if_neg (by simp [nestValue_isLink]),
          if_neg (by simp [nestValue_isSymlink]),
          if_neg (by simp [nestValue_isPrimitive])]
        have hmodeEq : (if hasMetadata (nestValue ds k v) = true then
            (tagsOf (nestValue ds k v)).metaTag else none) = none := by
          rw [hw_meta]; simp
        have hnt : (tagsOf (nestValue ds k v)).origPath = none := by
          rw [nestValue_tags]
          rfl
        have hdm : dirModeOf none = none := rfl
        have hfd : jsResolve cwd [dest, d] =
            mkAbs (resolveSegs cwd [dest] ++ [d]) := jsResolve_push hd
        rw [hmodeEq, hdm, hnt, hfd]
        cases hmk : mkdirRec fsx (mkAbs (resolveSegs cwd [dest] ++ [d])) none with
        | error e =>
          rw [coreRunSync_step_err hE hd hds hk hv' hmk]
          rfl
        | ok fs1 =>
          dsimp only
          have hih := ih hds (mkAbs (resolveSegs cwd [dest] ++ [d])) (f'' + 1)
            (by omega) fs1
          rw [resolveSegs_mkAbs hEd cwd] at hih
          rw [coreRunSync_step hE hd hds hk hv' hmk]
          cases hrec : createEntriesSync cwd (f'' + 1)
              (mkAbs (resolveSegs cwd [dest] ++ [d])) none
              (entriesOfValue (nestValue ds k v)) fs1 with
          | error e =>
            rw [hrec] at hih
            rw [← hih]
          | ok r =>
            obtain ⟨fs2, ents'⟩ := r
            rw [hrec] at hih
            rw [← hih]
            rfl

/-! ### Preservation of directory and symlink bindings

A successful `mkdir`/`writeFile`/`symlink`/`link` call never removes or
overwrites an existing binding that is not a regular file (`writeFile`
refuses directories and symlink loops, `symlink` and `link` refuse existing
paths, recursive `mkdir` leaves existing directories untouched), so such
bindings survive a whole materializer run. -/

theorem writeFileFS_preserve {fs fs1 : FS} {p c : String} {mo : Option Nat}
    (h : writeFileFS fs p c mo = .ok fs1) {q : String} {n : FSNode}
    (hn : ∀ c' m', n ≠ .fileN c' m') (hq : fsLookup fs q = some n) :
    fsLookup fs1 q = some n := by
  unfold writeFileFS at h
  cases hres : resolveNode fs 40 (jsDirname p) with
  | none => rw [hres] at h; exact Except.noConfusion h
  | some r =>
    rw [hres] at h
    obtain ⟨rp, rn⟩ := r
    cases rn with
    | fileN fc fm => exact Except.noConfusion h
    | symlinkN t ty => exact Except.noConfusion h
    | dirN dm =>
      cases hlk : fsLookup fs p with
      | none =>
        rw [hlk] at h
        injection h with h2
        subst h2
        have hpq : q ≠ p := by
          intro he
          rw [he, hlk] at hq
          exact Option.noConfusion hq
        rw [fsLookup_fsSet_ne hpq]
        exact hq
      | some node =>
        rw [hlk] at h
        cases node with
        | dirN m2 => exact Except.noConfusion h
        | symlinkN t ty => exact Except.noConfusion h
        | fileN c2 m2 =>
          injection h with h2
          subst h2
          have hpq : q ≠ p := by
            intro he
            rw [he, hlk] at hq
            injection hq with h3
            exact hn c2 m2 h3.symm
          rw [fsLookup_fsSet_ne hpq]
          exact hq

theorem symlinkFS_preserve {fs fs1 : FS} {t p ty : String}
    (h : symlinkFS fs t p ty = .ok fs1) {q : String} {n : FSNode}
    (hq : fsLookup fs q = some n) : fsLookup fs1 q = some n := by
  unfold symlinkFS at h
  cases hlk : fsLookup fs p with
  | some node => rw [hlk] at h; exact Except.noConfusion h
  | none =>
    rw [hlk] at h
    cases hres : resolveNode fs 40 (jsDirname p) with
    | none => rw [hres] at h; exact Except.noConfusion h
    | some r =>
      rw [hres] at h
      obtain ⟨rp, rn⟩ := r
      cases rn with
      | fileN fc fm => exact Except.noConfusion h
      | symlinkN t2 ty2 => exact Except.noConfusion h
      | dirN dm =>
        injection h with h2
        subst h2
        have hpq : q ≠ p := by
          intro he
          rw [he, hlk] at hq
          exact Option.noConfusion hq
        rw [fsLookup_fsSet_ne hpq]
        exact hq

theorem linkFS_preserve {fs fs1 : FS} {ex p : String}
    (h : linkFS fs ex p = .ok fs1) {q : String} {n : FSNode}
    (hq : fsLookup fs q = some n) : fsLookup fs1 q = some n := by
  unfold linkFS at h
  cases hres : resolveNode fs 40 ex with
  | none => rw [hres] at h; exact Except.noConfusion h
  | some r =>
    rw [hres] at h
    obtain ⟨rp, rn⟩ := r
    cases rn with
    | dirN dm => exact Except.noConfusion h
    | symlinkN t2 ty2 => exact Except.noConfusion h
    | fileN fc fm =>
      cases hlk : fsLookup fs p with
      | some node => rw [hlk] at h; exact Except.noConfusion h
      | none =>
        rw [hlk] at h
        cases hres2 : resolveNode fs 40 (jsDirname p) with
        | none => rw [hres2] at h; exact Except.noConfusion h
        | some r2 =>
          rw [hres2] at h
          obtain ⟨rp2, rn2⟩ := r2
          cases rn2 with
          | fileN c2 m2 => exact Except.noConfusion h
          | symlinkN t3 ty3 => exact Except.noConfusion h
          | dirN dm2 =>
            injection h with h2
            subst h2
            have hpq : q ≠ p := by
              intro he
              rw [he, hlk] at hq
              exact Option.noConfusion hq
            rw [fsLookup_fsSet_ne hpq]
            exact hq

set_option maxHeartbeats 1600000 in
theorem createEntries_preserve (cwd : String) :
    ∀ {f : Nat} {filePath : String} {prov : Option String}
      {entries : List (String × JSValue)} {fs fs' : FS}
      {ents' : List (String × JSValue)},
      createEntries cwd f filePath prov entries fs = .ok (fs', ents') →
      ∀ {q : String} {n : FSNode}, (∀ c m, n ≠ .fileN c m) →
        fsLookup fs q = some n → fsLookup fs' q = some n := by
  intro f
  induction f with
  | zero =>
    intro filePath prov entries fs fs' ents' h q n hn hq
    exact Except.noConfusion h
  | succ m ih =>
    intro filePath prov entries fs fs' ents' h q n hn hq
    cases entries with
    | nil =>
      injection h with h2
      injection h2 with ha hb
      subst ha
      exact hq
    | cons e rest =>
      obtain ⟨name, data0⟩ := e
      simp only [createEntries] at h
      split at h
      · revert h
        cases hlf : linkFS fs
            (jsResolve cwd [jsDirname (jsResolve cwd [filePath, name]),
              strField (innerData data0) "path"])
            (jsResolve cwd [filePath, name]) with
        | error e2 => intro h; exact Except.noConfusion h
        | ok fs1 =>
          dsimp only
          cases hrec : createEntries cwd m filePath prov rest fs1 with
          | error e2 => intro h; exact Except.noConfusion h
          | ok r =>
            obtain ⟨fs2, rest'⟩ := r
            intro h
            injection h with h2
            injection h2 with ha hb
            subst ha
            exact ih hrec hn (linkFS_preserve hlf hq)
      · split at h
        · revert h
          cases hsf : symlinkFS fs _ (jsResolve cwd [filePath, name]) _ with
          | error e2 => intro h; exact Except.noConfusion h
          | ok fs1 =>
            dsimp only
            cases hrec : createEntries cwd m filePath prov rest fs1 with
            | error e2 => intro h; exact Except.noConfusion h
            | ok r =>
              obtain ⟨fs2, rest'⟩ := r
              intro h
              injection h with h2
              injection h2 with ha hb
              subst ha
              exact ih hrec hn (symlinkFS_preserve hsf hq)
        · split at h
          · revert h
            cases hmk : mkdirRec fs (jsDirname (jsResolve cwd [filePath, name]))
                none with
            | error e2 => intro h; exact Except.noConfusion h
            | ok fs1 =>
              dsimp only
              cases hwf : writeFileFS fs1 (jsResolve cwd [filePath, name])
                  (writtenContent (innerData data0))
                  ((if hasMetadata data0 = true then (tagsOf data0).metaTag
                    else none).bind fun x => x.mode) with
              | error e2 => intro h; exact Except.noConfusion h
              | ok fs2 =>
                dsimp only
                cases hrec : createEntries cwd m filePath prov rest fs2 with
                | error e2 => intro h; exact Except.noConfusion h
                | ok r =>
                  obtain ⟨fs3, rest'⟩ := r
                  intro h
                  injection h with h2
                  injection h2 with ha hb
                  subst ha
                  exact ih hrec hn
                    (writeFileFS_preserve hwf hn (mkdirRec_preserve hmk hq))
          · revert h
            cases hmk : mkdirRec fs (jsResolve cwd [filePath, name]) _ with
            | error e2 => intro h; exact Except.noConfusion h
            | ok fs1 =>
              dsimp only
              cases hrec : createEntries cwd m (jsResolve cwd [filePath, name])
                  (tagsOf (innerData data0)).origPath
                  (entriesOfValue (innerData data0)) fs1 with
              | error e2 => intro h; exact Except.noConfusion h
              | ok r =>
                obtain ⟨fs2, ents2⟩ := r
                dsimp only
                cases hrec2 : createEntries cwd m filePath prov rest fs2 with
                | error e2 => intro h; exact Except.noConfusion h
                | ok r2 =>
                  obtain ⟨fs3, rest'⟩ := r2
                  intro h
                  injection h with h2
                  injection h2 with ha hb
                  subst ha
                  exact ih hrec2 hn
                    (ih hrec hn (mkdirRec_preserve hmk hq))

/-! ### Sync/async agreement -/

theorem syncFixedVal_origPath {v : JSValue} (h : syncFixedVal v = true) :
    (tagsOf v).origPath = none := by
  cases v
  case vobj fields tags =>
    simp only [syncFixedVal, Bool.and_eq_true] at h
    exact Option.isNone_iff_eq_none.1 h.1.1
  all_goals rfl

theorem syncFixedVal_symlink_path {v : JSValue} (h : syncFixedVal v = true)
    (hs : isSymlink v = true) :
    jsNormalize (strField v "path") = strField v "path" := by
  cases v
  case vobj fields tags =>
    simp only [syncFixedVal, Bool.and_eq_true] at h
    have h2 := h.1.2
    have htag : tags.symlinkTag = true := by
      simp only [isSymlink, Bool.and_eq_true] at hs
      exact hs.2
    rw [htag] at h2
    simp only [Bool.not_true, Bool.false_or] at h2
    exact of_decide_eq_true h2
  all_goals exact absurd hs (by simp [isSymlink, typeofJS, isNullJS, tagsOf, noTags])

theorem syncFixedEnts_lookup :
    ∀ {fields : List (String × JSValue)} {k : String} {x : JSValue},
      syncFixedEnts fields = true → fields.lookup k = some x →
      syncFixedVal x = true := by
  intro fields
  induction fields with
  | nil =>
    intro k x _ hlk
    simp [List.lookup] at hlk
  | cons kv rest ih =>
    intro k x h hlk
    obtain ⟨k1, v1⟩ := kv
    simp only [syncFixedEnts, Bool.and_eq_true] at h
    by_cases hk : k = k1
    · subst hk
      simp [List.lookup] at hlk
      exact hlk ▸ h.1
    · have hb : (k == k1) = false := beq_false_of_ne hk
      simp only [List.lookup, hb] at hlk
      exact ih h.2 hlk

theorem syncFixedVal_innerData {v : JSValue} (h : syncFixedVal v = true) :
    syncFixedVal (innerData v) = true := by
  cases v
  case vobj fields tags =>
    unfold innerData
    split
    · simp only [syncFixedVal, Bool.and_eq_true] at h
      simp only [objGet]
      cases hlk : fields.lookup "content" with
      | none => rfl
      | some x => exact syncFixedEnts_lookup h.2 hlk
    · exact h
  all_goals exact h

theorem syncFixedEnts_indexed {xs : List JSValue} (h : syncFixedList xs = true) :
    ∀ s, syncFixedEnts (indexedEntries s xs) = true := by
  induction xs with
  | nil => intro s; rfl
  | cons x rest ih =>
    intro s
    simp only [syncFixedList, Bool.and_eq_true] at h
    simp only [indexedEntries, syncFixedEnts, Bool.and_eq_true]
    exact ⟨h.1, ih h.2 (s + 1)⟩

theorem syncFixedVal_entries {v : JSValue} (h : syncFixedVal v = true) :
    syncFixedEnts (entriesOfValue v) = true := by
  cases v
  case vobj fields tags =>
    simp only [syncFixedVal, Bool.and_eq_true] at h
    exact h.2
  case varr xs =>
    simp only [syncFixedVal] at h
    exact syncFixedEnts_indexed h 0
  all_goals rfl

theorem createEntries_sync_eq (cwd : String) :
    ∀ {f : Nat} {filePath : String} {entries : List (String × JSValue)} {fs : FS},
      syncFixedEnts entries = true →
      createEntries cwd f filePath none entries fs =
        createEntriesSync cwd f filePath none entries fs := by
  intro f
  induction f with
  | zero => intro filePath entries fs _; rfl
  | succ n ih =>
    intro filePath entries fs h
    cases entries with
    | nil => rfl
    | cons e rest =>
      obtain ⟨name, data0⟩ := e
      simp only [syncFixedEnts, Bool.and_eq_true] at h
      obtain ⟨hhead, hrest⟩ := h
      simp only [createEntries, createEntriesSync]
      split
      · cases hlf : linkFS fs
            (jsResolve cwd [jsDirname (jsResolve cwd [filePath, name]),
              strField (innerData data0) "path"])
            (jsResolve cwd [filePath, name]) with
        | error e => rfl
        | ok fs1 =>
          dsimp only
          rw [ih hrest]
      · split
        · next hsym =>
          have hfix : jsNormalize (strField (innerData data0) "path") =
              strField (innerData data0) "path" :=
            syncFixedVal_symlink_path (syncFixedVal_innerData hhead) hsym
          rw [hfix]
          cases hsf : symlinkFS fs _ (jsResolve cwd [filePath, name]) _ with
          | error e => rfl
          | ok fs1 =>
            dsimp only
            rw [ih hrest]
        · split
          · cases hmk : mkdirRec fs (jsDirname (jsResolve cwd [filePath, name]))
                none with
            | error e => rfl
            | ok fs1 =>
              dsimp only
              cases hwf : writeFileFS fs1 (jsResolve cwd [filePath, name])
                  (writtenContent (innerData data0))
                  ((if hasMetadata data0 = true then (tagsOf data0).metaTag
                    else none).bind fun x => x.mode) with
              | error e => rfl
              | ok fs2 =>
                dsimp only
                rw [ih hrest]
          · cases hmk : mkdirRec fs (jsResolve cwd [filePath, name]) _ with
            | error e => rfl
            | ok fs1 =>
              dsimp only
              rw [syncFixedVal_origPath (syncFixedVal_innerData hhead),
                ih (syncFixedVal_entries (syncFixedVal_innerData hhead))]
              cases hrec : createEntriesSync cwd n (jsResolve cwd [filePath, name])
                  none (entriesOfValue (innerData data0)) fs1 with
              | error e => rfl
              | ok r =>
                obtain ⟨fs2, ents'⟩ := r
                dsimp only
                rw [ih hrest]

theorem createFileTree_sync_eq (cwd p : String) {files : JSValue} (fs : FS)
    (h : syncFixedVal files = true) :
    createFileTree cwd p files fs = createFileTreeSync cwd p files fs := by
  unfold createFileTree createFileTreeSync
  rw [syncFixedVal_origPath h, createEntries_sync_eq cwd (syncFixedVal_entries h)]

theorem isAbs_append_left {p : String} (h : isAbs p = true) (s : String) :
    isAbs (p ++ s) = true := by
  simp only [isAbs] at h ⊢
  have h2 : p.data.head? = some '/' := of_decide_eq_true h
  apply decide_eq_true
  rw [String.data_append]
  cases hd : p.data with
  | nil =>
    rw [hd] at h2
    exact Option.noConfusion h2
  | cons c cs =>
    rw [hd] at h2
    injection h2 with h3
    subst h3
    rfl

theorem listing_names {fs : FS} {cwd : String} {opts : ScanOptions} {p : String}
    (hfs : CanonFS fs) :
    ∀ e ∈ listingOf fs cwd opts p, e.1 ≠ "" ∧ '/' ∉ e.1.data := by
  intro e he
  simp only [listingOf, List.mem_filter] at he
  obtain ⟨hm, _⟩ := he
  simp only [readdirFS, List.mem_filterMap] at hm
  obtain ⟨kn, hkn, hcond⟩ := hm
  by_cases hc : kn.1 ≠ jsResolve cwd [p] ∧ jsDirname kn.1 = jsResolve cwd [p]
  · rw [if_pos hc] at hcond
    injection hcond with h2
    subst h2
    have hkey := hfs kn hkn
    have hsegne : segsOf kn.1 ≠ [] := by
      intro hz
      rw [hz] at hkey
      rcases hc with ⟨hne, hdir⟩
      rw [hkey] at hdir hne
      exact hne hdir
    simp only [jsBasename]
    cases hgl : (segsOf kn.1).getLast? with
    | none => exact absurd (List.getLast?_eq_none_iff.1 hgl) hsegne
    | some s =>
      have hmem := List.mem_of_mem_getLast? hgl
      exact ⟨segsOf_ne_empty kn.1 s hmem, segsOf_noSlash kn.1 s hmem⟩
  · rw [if_neg hc] at hcond
    exact Option.noConfusion hcond

theorem scanEntries_sync_eq {fs : FS} {cwd : String} {opts : ScanOptions}
    (hfs : CanonFS fs) :
    ∀ {fuel : Nat} {p : String} {l : List (String × FSNode)},
      isAbs p = true → p.data.getLast? ≠ some '/' →
      (∀ e ∈ l, e.1 ≠ "" ∧ '/' ∉ e.1.data) →
      scanEntries fs cwd opts fuel p l = scanEntriesSync fs cwd opts fuel p l := by
  intro fuel
  induction fuel with
  | zero => intro p l _ _ _; rfl
  | succ n ih =>
    intro p l habs htr hl
    cases l with
    | nil => rfl
    | cons e rest =>
      obtain ⟨name, node⟩ := e
      obtain ⟨hname, hslash⟩ := hl (name, node) (List.mem_cons_self _ _)
      have hrest : ∀ e2 ∈ rest, e2.1 ≠ "" ∧ '/' ∉ e2.1.data :=
        fun e2 he2 => hl e2 (List.mem_cons_of_mem _ he2)
      have habs' : isAbs (p ++ "/" ++ name) = true :=
        isAbs_append_left (isAbs_append_left habs "/") name
      have htr' : (p ++ "/" ++ name).data.getLast? ≠ some '/' := by
        rw [String.data_append, List.getLast?_append]
        cases hgl : name.data.getLast? with
        | none =>
          exact absurd (List.getLast?_eq_none_iff.1 hgl)
            (data_ne_nil_of_ne_empty hname)
        | some c =>
          intro hcc
          injection hcc with h3
          exact hslash (h3 ▸ List.mem_of_mem_getLast? hgl)
      simp only [scanEntries, scanEntriesSync]
      cases node with
      | dirN dm =>
        rw [ih habs' htr' (listing_names hfs),
          jsResolve_eq_jsNormalize cwd habs' htr', ih habs htr hrest]
      | symlinkN t ty =>
        rw [ih habs htr hrest]
      | fileN c fm =>
        rw [ih habs htr hrest]

theorem processDirectory_sync_eq {fs : FS} {cwd : String} {opts : ScanOptions}
    {fuel : Nat} {p : String} (hfs : CanonFS fs) (habs : isAbs p = true)
    (htr : p.data.getLast? ≠ some '/') :
    processDirectory fs cwd opts fuel p = processDirectorySync fs cwd opts fuel p := by
  unfold processDirectory processDirectorySync
  rw [scanEntries_sync_eq hfs habs htr (listing_names hfs),
    jsResolve_eq_jsNormalize cwd habs htr]

theorem syncFixedVal_symlink_ctor (t : String) :
    syncFixedVal (symlink t) = true := by
  have hd : decide (jsNormalize (strField (symlink t) "path") =
      strField (symlink t) "path") = true :=
    decide_eq_true (jsNormalize_idem t)
  simp only [symlink, syncFixedVal, syncFixedEnts, strField, objGet] at hd ⊢
  rw [hd]
  decide

theorem syncFixedVal_link_ctor (t : String) :
    syncFixedVal (link t) = true := rfl

theorem syncFixedVal_metadata_ctor (c : JSValue) (m : FSMeta)
    (h : syncFixedVal c = true) :
    syncFixedVal (metadata c m) = true := by
  simp [metadata, syncFixedVal, syncFixedEnts, noTags, h]

/-! ### Field-update algebra -/

theorem tagsOf_setField (v : JSValue) (k : String) (x : JSValue) :
    tagsOf (setField v k x) = tagsOf v := by
  cases v
  case vobj fields tags =>
    simp only [setField]
    split <;> rfl
  all_goals rfl

theorem hasMetadata_setField (v : JSValue) (k : String) (x : JSValue) :
    hasMetadata (setField v k x) = hasMetadata v := by
  cases v
  case vobj fields tags =>
    simp only [setField]
    split <;> rfl
  all_goals rfl

theorem isSymlink_setField (v : JSValue) (k : String) (x : JSValue) :
    isSymlink (setField v k x) = isSymlink v := by
  cases v
  case vobj fields tags =>
    simp only [setField]
    split <;> rfl
  all_goals rfl

theorem isLink_setField (v : JSValue) (k : String) (x : JSValue) :
    isLink (setField v k x) = isLink v := by
  cases v
  case vobj fields tags =>
    simp only [setField]
    split <;> rfl
  all_goals rfl

theorem isPrimitive_setField (v : JSValue) (k : String) (x : JSValue) :
    isPrimitive (setField v k x) = isPrimitive v := by
  cases v
  case vobj fields tags =>
    simp only [setField]
    split <;> rfl
  all_goals rfl

theorem lookup_map_replace {k : String} {x : JSValue} :
    ∀ {fields : List (String × JSValue)}, (fields.lookup k).isSome = true →
      (fields.map fun kv => if kv.1 = k then (kv.1, x) else kv).lookup k =
        some x := by
  intro fields
  induction fields with
  | nil => intro h; simp [List.lookup] at h
  | cons kv rest ih =>
    intro h
    obtain ⟨k1, v1⟩ := kv
    by_cases hk : k1 = k
    · subst hk
      simp only [List.map_cons, if_true]
      simp [List.lookup]
    · have hb : (k == k1) = false := beq_false_of_ne (Ne.symm hk)
      simp only [List.lookup, hb] at h
      simp only [List.map_cons]
      rw [if_neg hk]
      simp only [List.lookup, hb]
      exact ih h

theorem lookup_append_single {k : String} {x : JSValue} :
    ∀ {fields : List (String × JSValue)}, fields.lookup k = none →
      (fields ++ [(k, x)]).lookup k = some x := by
  intro fields
  induction fields with
  | nil => intro _; simp [List.lookup]
  | cons kv rest ih =>
    intro h
    obtain ⟨k1, v1⟩ := kv
    by_cases hk : k = k1
    · subst hk
      simp [List.lookup] at h
    · have hb : (k == k1) = false := beq_false_of_ne hk
      simp only [List.lookup, hb] at h
      simp only [List.cons_append, List.lookup, hb]
      exact ih h

theorem map_replace_of_lookup_none {k : String} {x : JSValue} :
    ∀ {fields : List (String × JSValue)}, fields.lookup k = none →
      (fields.map fun kv => if kv.1 = k then (kv.1, x) else kv) = fields := by
  intro fields
  induction fields with
  | nil => intro _; rfl
  | cons kv rest ih =>
    intro h
    obtain ⟨k1, v1⟩ := kv
    by_cases hk : k = k1
    · subst hk
      simp [List.lookup] at h
    · have hb : (k == k1) = false := beq_false_of_ne hk
      simp only [List.lookup, hb] at h
      simp only [List.map_cons, if_neg (Ne.symm hk), ih h]

theorem objGet_setField_same {fields : List (String × JSValue)} {tags : Tags}
    (k : String) (x : JSValue) :
    objGet (setField (.vobj fields tags) k x) k = x := by
  simp only [setField]
  split
  · next hsome =>
    simp only [objGet, lookup_map_replace hsome]
  · next hnone =>
    have hn : fields.lookup k = none := by
      cases hlk : fields.lookup k with
      | none => rfl
      | some y => rw [hlk] at hnone; simp at hnone
    simp only [objGet, lookup_append_single hn]

theorem setField_vobj (fields : List (String × JSValue)) (tags : Tags)
    (k : String) (x : JSValue) :
    setField (.vobj fields tags) k x =
      if (fields.lookup k).isSome = true then
        .vobj (fields.map fun kv => if kv.1 = k then (kv.1, x) else kv) tags
      else .vobj (fields ++ [(k, x)]) tags := rfl

theorem setField_setField_same (fields : List (String × JSValue)) (tags : Tags)
    (k : String) (a b : JSValue) :
    setField (setField (.vobj fields tags) k a) k b =
      setField (.vobj fields tags) k b := by
  by_cases hs : (fields.lookup k).isSome = true
  · have hs2 : ((fields.map fun kv => if kv.1 = k then (kv.1, a) else kv).lookup
        k).isSome = true := by
      rw [lookup_map_replace hs]
      rfl
    rw [setField_vobj, if_pos hs, setField_vobj, if_pos hs2, setField_vobj,
      if_pos hs]
    congr 1
    rw [List.map_map]
    refine List.map_congr_left fun kv _ => ?_
    by_cases hkv : kv.1 = k <;> simp [Function.comp, hkv]
  · have hn : fields.lookup k = none := by
      cases hlk : fields.lookup k with
      | none => rfl
      | some y => rw [hlk] at hs; simp at hs
    have hs2 : ((fields ++ [(k, a)]).lookup k).isSome = true := by
      rw [lookup_append_single hn]
      rfl
    rw [setField_vobj, if_neg hs, setField_vobj, if_pos hs2, setField_vobj,
      if_neg hs]
    congr 1
    rw [List.map_append, map_replace_of_lookup_none hn]
    simp

theorem mem_keys_of_lookup {k : String} {y : JSValue} :
    ∀ {l : List (String × JSValue)}, l.lookup k = some y →
      k ∈ l.map Prod.fst := by
  intro l
  induction l with
  | nil => intro h; simp [List.lookup] at h
  | cons kv rest ih =>
    intro h
    obtain ⟨k1, v1⟩ := kv
    by_cases hk : k = k1
    · subst hk
      simp
    · have hb : (k == k1) = false := beq_false_of_ne hk
      simp only [List.lookup, hb] at h
      simp only [List.map_cons]
      exact List.mem_cons_of_mem _ (ih h)

theorem map_replace_self {k : String} {c : JSValue} :
    ∀ {fields : List (String × JSValue)}, fields.lookup k = some c →
      (fields.map Prod.fst).Nodup →
      (fields.map fun kv => if kv.1 = k then (kv.1, c) else kv) = fields := by
  intro fields
  induction fields with
  | nil => intro _ _; rfl
  | cons kv rest ih =>
    intro hc hnd
    obtain ⟨k1, v1⟩ := kv
    simp only [List.map_cons, List.nodup_cons] at hnd
    by_cases hk : k = k1
    · subst hk
      simp only [List.lookup, beq_self_eq_true] at hc
      injection hc with hc2
      subst hc2
      simp only [List.map_cons, if_true]
      have hnone : rest.lookup k = none := by
        cases hlk : rest.lookup k with
        | none => rfl
        | some y => exact absurd (mem_keys_of_lookup hlk) hnd.1
      rw [map_replace_of_lookup_none hnone]
    · have hb : (k == k1) = false := beq_false_of_ne hk
      simp only [List.lookup, hb] at hc
      simp only [List.map_cons, if_neg (Ne.symm hk)]
      rw [ih hc hnd.2]

theorem setField_objGet_self {fields : List (String × JSValue)} {tags : Tags}
    {k : String} (hs : (fields.lookup k).isSome = true)
    (hnd : (fields.map Prod.fst).Nodup) :
    setField (.vobj fields tags) k (objGet (.vobj fields tags) k) =
      .vobj fields tags := by
  obtain ⟨c, hc⟩ := Option.isSome_iff_exists.1 hs
  rw [setField_vobj, if_pos hs]
  simp only [objGet, hc]
  congr 1
  exact map_replace_self hc hnd

theorem tagsOf_rebuildValue (v : JSValue) (ents : List (String × JSValue)) :
    tagsOf (rebuildValue v ents) = tagsOf v := by
  cases v <;> rfl

theorem map_snd_indexedEntries (xs : List JSValue) :
    ∀ s, (indexedEntries s xs).map Prod.snd = xs := by
  induction xs with
  | nil => intro s; rfl
  | cons x rest ih =>
    intro s
    simp only [indexedEntries, List.map_cons, ih (s + 1)]

theorem rebuildValue_self (v : JSValue) :
    rebuildValue v (entriesOfValue v) = v := by
  cases v with
  | varr xs =>
    simp only [rebuildValue, entriesOfValue, map_snd_indexedEntries xs 0]
  | vobj fields tags => rfl
  | vstr s => rfl
  | vnum n => rfl
  | vbool b => rfl
  | vnull => rfl
  | vundefined => rfl
  | vbigint n => rfl
  | vsymbol d => rfl
  | vbytes bs => rfl

/-! ### The materializer's tree mutation -/

theorem innerData_meta {v : JSValue} (h : hasMetadata v = true) :
    innerData v = objGet v "content" := by
  unfold innerData
  rw [if_pos h]

theorem hasMetadata_vobj {v : JSValue} (h : hasMetadata v = true) :
    ∃ fields tags, v = JSValue.vobj fields tags := by
  cases v
  case vobj fields tags => exact ⟨fields, tags, rfl⟩
  all_goals exact Bool.noConfusion h

theorem noProvVal_origPath {v : JSValue} (h : noProvVal v = true) :
    (tagsOf v).origPath = none := by
  cases v
  case vobj fields tags =>
    simp only [noProvVal, Bool.and_eq_true] at h
    exact Option.isNone_iff_eq_none.1 h.1.1
  all_goals rfl

theorem noProvVal_nodup {fields : List (String × JSValue)} {tags : Tags}
    (h : noProvVal (.vobj fields tags) = true) :
    (fields.map Prod.fst).Nodup := by
  simp only [noProvVal, Bool.and_eq_true] at h
  exact of_decide_eq_true h.1.2

theorem noProvEnts_lookup :
    ∀ {fields : List (String × JSValue)} {k : String} {x : JSValue},
      noProvEnts fields = true → fields.lookup k = some x →
      noProvVal x = true := by
  intro fields
  induction fields with
  | nil =>
    intro k x _ hlk
    simp [List.lookup] at hlk
  | cons kv rest ih =>
    intro k x h hlk
    obtain ⟨k1, v1⟩ := kv
    simp only [noProvEnts, Bool.and_eq_true] at h
    by_cases hk : k = k1
    · subst hk
      simp [List.lookup] at hlk
      exact hlk ▸ h.1
    · have hb : (k == k1) = false := beq_false_of_ne hk
      simp only [List.lookup, hb] at hlk
      exact ih h.2 hlk

theorem noProvVal_innerData {v : JSValue} (h : noProvVal v = true) :
    noProvVal (innerData v) = true := by
  cases v
  case vobj fields tags =>
    unfold innerData
    split
    · simp only [noProvVal, Bool.and_eq_true] at h
      simp only [objGet]
      cases hlk : fields.lookup "content" with
      | none => rfl
      | some x => exact noProvEnts_lookup h.2 hlk
    · exact h
  all_goals exact h

theorem noProvEnts_indexed {xs : List JSValue} (h : noProvList xs = true) :
    ∀ s, noProvEnts (indexedEntries s xs) = true := by
  induction xs with
  | nil => intro s; rfl
  | cons x rest ih =>
    intro s
    simp only [noProvList, Bool.and_eq_true] at h
    simp only [indexedEntries, noProvEnts, Bool.and_eq_true]
    exact ⟨h.1, ih h.2 (s + 1)⟩

theorem noProvVal_entries {v : JSValue} (h : noProvVal v = true) :
    noProvEnts (entriesOfValue v) = true := by
  cases v
  case vobj fields tags =>
    simp only [noProvVal, Bool.and_eq_true] at h
    exact h.2
  case varr xs =>
    simp only [noProvVal] at h
    exact noProvEnts_indexed h 0
  all_goals rfl

theorem rebaseEntries_id (cwd : String) :
    ∀ {f : Nat} {filePath : String} {entries : List (String × JSValue)},
      entsSize entries < f → noProvEnts entries = true →
      rebaseEntries cwd f filePath none entries = entries := by
  intro f
  induction f with
  | zero =>
    intro _ _ hsz _
    exact absurd hsz (Nat.not_lt_zero _)
  | succ n ih =>
    intro filePath entries hsz h
    cases entries with
    | nil => rfl
    | cons e rest =>
      obtain ⟨name, data0⟩ := e
      simp only [noProvEnts, Bool.and_eq_true] at h
      obtain ⟨hhead, hrest⟩ := h
      have hsz0 : entsSize ((name, data0) :: rest) = 1 + jsSize data0 + entsSize rest :=
        rfl
      have hd0 := jsSize_pos data0
      have hszrest : entsSize rest < n := by omega
      have hin := innerData_size_le data0
      have hent := entsSize_entriesOfValue (innerData data0)
      have hszdir : entsSize (entriesOfValue (innerData data0)) < n := by omega
      simp only [rebaseEntries]
      rw [ih hszrest hrest]
      simp only [List.cons.injEq, Prod.mk.injEq, true_and, and_true]
      by_cases hlink : isLink (innerData data0) = true
      · rw [if_pos hlink]
      · rw [if_neg hlink]
        by_cases hsym : isSymlink (innerData data0) = true
        · rw [if_pos hsym]
          by_cases hm : hasMetadata data0 = true
          · rw [if_pos hm]
            obtain ⟨fields, tags, hv⟩ := hasMetadata_vobj hm
            subst hv
            rw [innerData_meta hm] at hsym ⊢
            cases hlk : fields.lookup "content" with
            | none =>
              rw [show objGet (JSValue.vobj fields tags) "content" =
                  JSValue.vundefined by simp [objGet, hlk]] at hsym
              exact absurd hsym (by decide)
            | some c =>
              exact setField_objGet_self (by rw [hlk]; rfl) (noProvVal_nodup hhead)
          · rw [if_neg hm]
            exact innerData_no_meta (by simpa using hm)
        · rw [if_neg hsym]
          by_cases hprim : isPrimitive (innerData data0) = true
          · rw [if_pos hprim]
          · rw [if_neg hprim]
            rw [noProvVal_origPath (noProvVal_innerData hhead),
              ih hszdir (noProvVal_entries (noProvVal_innerData hhead)),
              rebuildValue_self]
            by_cases hm : hasMetadata data0 = true
            · rw [if_pos hm]
              obtain ⟨fields, tags, hv⟩ := hasMetadata_vobj hm
              subst hv
              rw [innerData_meta hm] at hprim ⊢
              cases hlk : fields.lookup "content" with
              | none =>
                rw [show objGet (JSValue.vobj fields tags) "content" =
                    JSValue.vundefined by simp [objGet, hlk]] at hprim
                exact absurd rfl hprim
              | some c =>
                exact setField_objGet_self (by rw [hlk]; rfl) (noProvVal_nodup hhead)
            · rw [if_neg hm]
              exact innerData_no_meta (by simpa using hm)

theorem rebaseValue_id {cwd p : String} {files : JSValue}
    (h : noProvVal files = true) : rebaseValue cwd p files = files := by
  unfold rebaseValue
  rw [noProvVal_origPath h,
    rebaseEntries_id cwd (by omega) (noProvVal_entries h), rebuildValue_self]

set_option maxHeartbeats 1600000 in
theorem createEntries_returns_rebase (cwd : String) :
    ∀ {f : Nat} {filePath : String} {prov : Option String}
      {entries : List (String × JSValue)} {fs fs' : FS}
      {ents' : List (String × JSValue)},
      createEntries cwd f filePath prov entries fs = .ok (fs', ents') →
      ents' = rebaseEntries cwd f filePath prov entries := by
  intro f
  induction f with
  | zero =>
    intro filePath prov entries fs fs' ents' h
    exact Except.noConfusion h
  | succ m ih =>
    intro filePath prov entries fs fs' ents' h
    cases entries with
    | nil =>
      injection h with h2
      injection h2 with ha hb
      subst hb
      rfl
    | cons e rest =>
      obtain ⟨name, data0⟩ := e
      simp only [createEntries] at h
      simp only [rebaseEntries]
      split at h
      · next hl =>
        rw [if_pos hl]
        revert h
        cases hlf : linkFS fs
            (jsResolve cwd [jsDirname (jsResolve cwd [filePath, name]),
              strField (innerData data0) "path"])
            (jsResolve cwd [filePath, name]) with
        | error e2 => intro h; exact Except.noConfusion h
        | ok fs1 =>
          dsimp only
          cases hrec : createEntries cwd m filePath prov rest fs1 with
          | error e2 => intro h; exact Except.noConfusion h
          | ok r =>
            obtain ⟨fs2, rest'⟩ := r
            intro h
            injection h with h2
            injection h2 with ha hb
            subst hb
            rw [ih hrec]
      · next hnl =>
        split at h
        · next hsym =>
          rw [if_neg hnl, if_pos hsym]
          revert h
          cases hsf : symlinkFS fs _ (jsResolve cwd [filePath, name]) _ with
          | error e2 => intro h; exact Except.noConfusion h
          | ok fs1 =>
            dsimp only
            cases hrec : createEntries cwd m filePath prov rest fs1 with
            | error e2 => intro h; exact Except.noConfusion h
            | ok r =>
              obtain ⟨fs2, rest'⟩ := r
              intro h
              injection h with h2
              injection h2 with ha hb
              subst hb
              rw [ih hrec]
        · next hns =>
          split at h
          · next hp =>
            rw [if_neg hnl, if_neg hns, if_pos hp]
            revert h
            cases hmk : mkdirRec fs (jsDirname (jsResolve cwd [filePath, name]))
                none with
            | error e2 => intro h; exact Except.noConfusion h
            | ok fs1 =>
              dsimp only
              cases hwf : writeFileFS fs1 (jsResolve cwd [filePath, name])
                  (writtenContent (innerData data0))
                  ((if hasMetadata data0 = true then (tagsOf data0).metaTag
                    else none).bind fun x => x.mode) with
              | error e2 => intro h; exact Except.noConfusion h
              | ok fs2 =>
                dsimp only
                cases hrec : createEntries cwd m filePath prov rest fs2 with
                | error e2 => intro h; exact Except.noConfusion h
                | ok r =>
                  obtain ⟨fs3, rest'⟩ := r
                  intro h
                  injection h with h2
                  injection h2 with ha hb
                  subst hb
                  rw [ih hrec]
          · next hnp =>
            rw [if_neg hnl, if_neg hns, if_neg hnp]
            revert h
            cases hmk : mkdirRec fs (jsResolve cwd [filePath, name]) _ with
            | error e2 => intro h; exact Except.noConfusion h
            | ok fs1 =>
              dsimp only
              cases hrecIn : createEntries cwd m (jsResolve cwd [filePath, name])
                  (tagsOf (innerData data0)).origPath
                  (entriesOfValue (innerData data0)) fs1 with
              | error e2 => intro h; exact Except.noConfusion h
              | ok rIn =>
                obtain ⟨fs2, ents2⟩ := rIn
                dsimp only
                cases hrecOut : createEntries cwd m filePath prov rest fs2 with
                | error e2 => intro h; exact Except.noConfusion h
                | ok rOut =>
                  obtain ⟨fs3, rest'⟩ := rOut
                  intro h
                  injection h with h2
                  injection h2 with ha hb
                  subst hb
                  rw [ih hrecIn, ih hrecOut]

theorem createFileTree_returns_rebase {cwd p : String} {files : JSValue}
    {fs fs' : FS} {files' : JSValue}
    (h : createFileTree cwd p files fs = .ok (fs', files')) :
    files' = rebaseValue cwd p files := by
  revert h
  unfold createFileTree
  cases hrun : createEntries cwd (entsSize (entriesOfValue files) + 1) p
      (tagsOf files).origPath (entriesOfValue files) fs with
  | error e => intro h; exact Except.noConfusion h
  | ok r =>
    obtain ⟨fs1, ents'⟩ := r
    intro h
    injection h with h2
    injection h2 with ha hb
    subst hb
    unfold rebaseValue
    rw [createEntries_returns_rebase cwd hrun]

set_option maxHeartbeats 1600000 in
theorem createEntriesSync_returns_rebase (cwd : String) :
    ∀ {f : Nat} {filePath : String} {prov : Option String}
      {entries : List (String × JSValue)} {fs fs' : FS}
      {ents' : List (String × JSValue)},
      createEntriesSync cwd f filePath prov entries fs = .ok (fs', ents') →
      ents' = rebaseEntries cwd f filePath prov entries := by
  intro f
  induction f with
  | zero =>
    intro filePath prov entries fs fs' ents' h
    exact Except.noConfusion h
  | succ m ih =>
    intro filePath prov entries fs fs' ents' h
    cases entries with
    | nil =>
      injection h with h2
      injection h2 with ha hb
      subst hb
      rfl
    | cons e rest =>
      obtain ⟨name, data0⟩ := e
      simp only [createEntriesSync] at h
      simp only [rebaseEntries]
      split at h
      · next hl =>
        rw [if_pos hl]
        revert h
        cases hlf : linkFS fs
            (jsResolve cwd [jsDirname (jsResolve cwd [filePath, name]),
              strField (innerData data0) "path"])
            (jsResolve cwd [filePath, name]) with
        | error e2 => intro h; exact Except.noConfusion h
        | ok fs1 =>
          dsimp only
          cases hrec : createEntriesSync cwd m filePath prov rest fs1 with
          | error e2 => intro h; exact Except.noConfusion h
          | ok r =>
            obtain ⟨fs2, rest'⟩ := r
            intro h
            injection h with h2
            injection h2 with ha hb
            subst hb
            rw [ih hrec]
      · next hnl =>
        split at h
        · next hsym =>
          rw [if_neg hnl, if_pos hsym]
          revert h
          cases hsf : symlinkFS fs _ (jsResolve cwd [filePath, name]) _ with
          | error e2 => intro h; exact Except.noConfusion h
          | ok fs1 =>
            dsimp only
            cases hrec : createEntriesSync cwd m filePath prov rest fs1 with
            | error e2 => intro h; exact Except.noConfusion h
            | ok r =>
              obtain ⟨fs2, rest'⟩ := r
              intro h
              injection h with h2
              injection h2 with ha hb
              subst hb
              rw [ih hrec]
        · next hns =>
          split at h
          · next hp =>
            rw [if_neg hnl, if_neg hns, if_pos hp]
            revert h
            cases hmk : mkdirRec fs (jsDirname (jsResolve cwd [filePath, name]))
                none with
            | error e2 => intro h; exact Except.noConfusion h
            | ok fs1 =>
              dsimp only
              cases hwf : writeFileFS fs1 (jsResolve cwd [filePath, name])
                  (writtenContent (innerData data0))
                  ((if hasMetadata data0 = true then (tagsOf data0).metaTag
                    else none).bind fun x => x.mode) with
              | error e2 => intro h; exact Except.noConfusion h
              | ok fs2 =>
                dsimp only
                cases hrec : createEntriesSync cwd m filePath prov rest fs2 with
                | error e2 => intro h; exact Except.noConfusion h
                | ok r =>
                  obtain ⟨fs3, rest'⟩ := r
                  intro h
                  injection h with h2
                  injection h2 with ha hb
                  subst hb
                  rw [ih hrec]
          · next hnp =>
            rw [if_neg hnl, if_neg hns, if_neg hnp]
            revert h
            cases hmk : mkdirRec fs (jsResolve cwd [filePath, name]) _ with
            | error e2 => intro h; exact Except.noConfusion h
            | ok fs1 =>
              dsimp only
              cases hrecIn : createEntriesSync cwd m (jsResolve cwd [filePath, name])
                  (tagsOf (innerData data0)).origPath
                  (entriesOfValue (innerData data0)) fs1 with
              | error e2 => intro h; exact Except.noConfusion h
              | ok rIn =>
                obtain ⟨fs2, ents2⟩ := rIn
                dsimp only
                cases hrecOut : createEntriesSync cwd m filePath prov rest fs2 with
                | error e2 => intro h; exact Except.noConfusion h
                | ok rOut =>
                  obtain ⟨fs3, rest'⟩ := rOut
                  intro h
                  injection h with h2
                  injection h2 with ha hb
                  subst hb
                  rw [ih hrecIn, ih hrecOut]

theorem createFileTreeSync_returns_rebase {cwd p : String} {files : JSValue}
    {fs fs' : FS} {files' : JSValue}
    (h : createFileTreeSync cwd p files fs = .ok (fs', files')) :
    files' = rebaseValue cwd p files := by
  revert h
  unfold createFileTreeSync
  cases hrun : createEntriesSync cwd (entsSize (entriesOfValue files) + 1) p
      (tagsOf files).origPath (entriesOfValue files) fs with
  | error e => intro h; exact Except.noConfusion h
  | ok r =>
    obtain ⟨fs1, ents'⟩ := r
    intro h
    injection h with h2
    injection h2 with ha hb
    subst hb
    unfold rebaseValue
    rw [createEntriesSync_returns_rebase cwd hrun]

/-! ## Claims -/

/-- C7: the classifiers `isSymlink`, `isLink` and `hasMetadata` return `false`
on `{}`, `null`, `undefined`, arrays, bare primitives (including
`Uint8Array`s) and on ordinary data objects such as `{"content": "x"}` or any
object without the library's symbol slots — and return `true` exactly on
values produced by the matching constructor (`symlink`, `link`, `metadata`),
each constructor satisfying only its own predicate. -/
theorem C7_classifiers_exact :
    (∀ p, isSymlink (symlink p) = true ∧ isLink (symlink p) = false ∧
      hasMetadata (symlink p) = false) ∧
    (∀ p, isLink (link p) = true ∧ isSymlink (link p) = false ∧
      hasMetadata (link p) = false) ∧
    (∀ c m, hasMetadata (metadata c m) = true ∧ isSymlink (metadata c m) = false ∧
      isLink (metadata c m) = false) ∧
    (∀ v, tagsOf v = noTags →
      isSymlink v = false ∧ isLink v = false ∧ hasMetadata v = false) ∧
    (isSymlink (.vobj [] noTags) = false ∧ isLink (.vobj [] noTags) = false ∧
      hasMetadata (.vobj [] noTags) = false) ∧
    (isSymlink .vnull = false ∧ isLink .vnull = false ∧ hasMetadata .vnull = false) ∧
    (isSymlink .vundefined = false ∧ isLink .vundefined = false ∧
      hasMetadata .vundefined = false) ∧
    (∀ xs, isSymlink (.varr xs) = false ∧ isLink (.varr xs) = false ∧
      hasMetadata (.varr xs) = false) ∧
    (∀ v, isPrimitive v = true → isSymlink v = false ∧ isLink v = false ∧
      hasMetadata v = false) ∧
    (∀ s, isSymlink (.vobj [("content", .vstr s)] noTags) = false ∧
      isLink (.vobj [("content", .vstr s)] noTags) = false ∧
      hasMetadata (.vobj [("content", .vstr s)] noTags) = false) := by
  refine ⟨fun p => ⟨rfl, rfl, rfl⟩, fun p => ⟨rfl, rfl, rfl⟩,
    fun c m => ⟨rfl, rfl, rfl⟩, ?_, by decide, by decide, by decide,
    fun xs => ⟨rfl, rfl, rfl⟩, ?_, fun s => ⟨rfl, rfl, rfl⟩⟩
  · intro v hv
    cases v <;>
      simp_all [isSymlink, isLink, hasMetadata, tagsOf, typeofJS, isNullJS, noTags]
  · intro v hv
    cases v <;> simp_all [isPrimitive] <;>
      simp [isSymlink, isLink, hasMetadata, tagsOf, typeofJS, isNullJS, noTags]

/-- Witness for C7 at concrete inputs. -/
theorem C7_classifiers_exact_witness :
    (isSymlink (.vobj [("x", .vnum 1)] noTags) = false ∧
      isLink (.vobj [("x", .vnum 1)] noTags) = false ∧
      hasMetadata (.vobj [("x", .vnum 1)] noTags) = false) ∧
    (isSymlink (.vnum 3) = false ∧ isLink (.vnum 3) = false ∧
      hasMetadata (.vnum 3) = false) :=
  ⟨C7_classifiers_exact.2.2.2.1 (.vobj [("x", .vnum 1)] noTags) rfl,
    C7_classifiers_exact.2.2.2.2.2.2.2.2.1 (.vnum 3) rfl⟩

/-- C5: scanning a source path that does not exist or is not a directory
returns the empty tree description, with no error, in both the async and the
sync variant. -/
theorem C5_missing_source_empty (fs : FS) (cwd p : String) (opts : ScanOptions)
    (extras : Option JSValue) (h : isDirectoryFS fs cwd p = false) :
    fromFileSystem fs cwd p opts extras = .ok (.vobj [] noTags) ∧
    fromFileSystemSync fs cwd p opts extras = .ok (.vobj [] noTags) := by
  constructor <;> simp [fromFileSystem, fromFileSystemSync, h]

/-- Witness for C5: a concrete filesystem without the source path. -/
theorem C5_missing_source_empty_witness :
    fromFileSystem [("/other", .dirN none)] "/" "missing"
      (resolveOptions none none none) none = .ok (.vobj [] noTags) :=
  (C5_missing_source_empty [("/other", .dirN none)] "/" "missing"
    (resolveOptions none none none) none rfl).1

/-- C2 amended: for a directory entry that is a symbolic link, scanning with
`followLinks` set to **true** (the default) records the entry as a Symbolic
Link Marker carrying the link target as stored on disk (normalized by the
marker constructor), not dereferenced and not inlined; with `followLinks` set
to **false** the link is dereferenced and its target's content is inlined as
an ordinary file entry, with no marker. -/
theorem C2_amended_followLinks (fs : FS) (cwd : String) (opts : ScanOptions)
    (fuel : Nat) (p : String) (v : JSValue) (name target ty : String)
    (h : processDirectory fs cwd opts fuel p = .ok v)
    (hnd : ((listingOf fs cwd opts p).map Prod.fst).Nodup)
    (hmem : (name, FSNode.symlinkN target ty) ∈ listingOf fs cwd opts p)
    (hfs : fsLookup fs (jsResolve cwd [p ++ "/" ++ name]) =
      some (.symlinkN target ty)) :
    (opts.followLinks = true →
      objGet v name = symlink target ∧ isSymlink (symlink target) = true) ∧
    (opts.followLinks = false →
      ∀ content, readFileFS fs (jsResolve cwd [p ++ "/" ++ name])
          (opts.getEncodingForFile (p ++ "/" ++ name)) = .ok content →
        objGet v name = content ∧ isSymlink content = false) := by
  obtain ⟨fields, hse, hv⟩ :
      ∃ fields, scanEntries fs cwd opts fuel p (listingOf fs cwd opts p) = .ok fields ∧
        v = JSValue.vobj fields { noTags with origPath := some (jsResolve cwd [p]) } := by
    rw [processDirectory] at h
    cases hse : scanEntries fs cwd opts fuel p (listingOf fs cwd opts p) with
    | ok fields =>
      rw [hse] at h
      exact ⟨fields, rfl, (Except.ok.injEq _ _ ▸ h).symm⟩
    | error e =>
      rw [hse] at h
      exact absurd h (by simp)
  subst hv
  constructor
  · intro hfl
    have hlk := scanEntries_symlink_marker hfl hse hnd hmem hfs
    refine ⟨?_, rfl⟩
    simp [objGet, hlk]
  · intro hfl content hread
    have hlk := scanEntries_symlink_inlined hfl hse hnd hmem hread
    refine ⟨?_, readFileFS_ok_not_marker hread⟩
    simp [objGet, hlk]

/-- Witness for C2 amended: scanning a concrete directory with the default
`followLinks: true` yields the marker for `ln.txt`. -/
theorem C2_amended_followLinks_witness :
    objGet (.vobj
        [("file1.txt", .vstr "content1"), ("ln.txt", symlink "file1.txt")]
        { noTags with origPath := some "/src" }) "ln.txt" = symlink "file1.txt" :=
  ((C2_amended_followLinks
    [("/src", .dirN none), ("/src/file1.txt", .fileN "content1" none),
      ("/src/ln.txt", .symlinkN "file1.txt" "file")]
    "/" (resolveOptions none none none) 4 "/src"
    (.vobj [("file1.txt", .vstr "content1"), ("ln.txt", symlink "file1.txt")]
      { noTags with origPath := some "/src" })
    "ln.txt" "file1.txt" "file" rfl (by decide) (by decide) rfl).1 rfl).1

/-- C2 counterexample: on a directory containing a symbolic link, scanning
with `followLinks: false` does *not* record a Symbolic Link Marker — the link
is dereferenced and its target's bytes are inlined as file content.  (The
code records markers when `followLinks` is `true`, the default.) -/
theorem C2_counterexample :
    ((fromFileSystem
        [("/src", .dirN none), ("/src/file1.txt", .fileN "content1" none),
          ("/src/ln.txt", .symlinkN "file1.txt" "file")]
        "/" "/src" (resolveOptions none (some false) none) none).toOption.map
      (fun v => (isSymlink (objGet v "ln.txt"), typeofJS (objGet v "ln.txt"),
        jsToString (objGet v "ln.txt"))))
      = some (false, "string", "content1") := by
  decide

/-- C3 counterexample: scanning the same relative source path, the async
variant records the fully resolved absolute path in the provenance slot while
the sync variant records only the normalized (still relative) path, so the
two scanned tree descriptions differ. -/
theorem C3_counterexample :
    ((fromFileSystem [("/cwd", .dirN none), ("/cwd/a", .dirN none)] "/cwd" "a"
        (resolveOptions none none none) none).toOption.map
      (fun v => (tagsOf v).origPath)) = some (some "/cwd/a") ∧
    ((fromFileSystemSync [("/cwd", .dirN none), ("/cwd/a", .dirN none)] "/cwd" "a"
        (resolveOptions none none none) none).toOption.map
      (fun v => (tagsOf v).origPath)) = some (some "a") ∧
    ("/cwd/a" : String) ≠ "a" := by
  refine ⟨by decide, by decide, by decide⟩

/-- C3 (amended): the blocking and non-blocking variants agree wherever the
provenance slot cannot tell them apart.  Scanning an absolute source path
with no trailing separator over a canonically-keyed filesystem is identical
in the two variants (every provenance slot included); materializing a tree
with no provenance slot anywhere, whose symlink-marker paths are
`normalize`-fixed, is identical in the two variants; and the `symlink`,
`link` and `metadata` constructors only build such trees. -/
theorem C3_amended_sync_async_agree :
    (∀ (fs : FS) (cwd : String) (opts : ScanOptions) (fuel : Nat) (p : String),
      CanonFS fs → isAbs p = true → p.data.getLast? ≠ some '/' →
      processDirectory fs cwd opts fuel p =
        processDirectorySync fs cwd opts fuel p) ∧
    (∀ (cwd p : String) (files : JSValue) (fs : FS),
      syncFixedVal files = true →
      createFileTree cwd p files fs = createFileTreeSync cwd p files fs) ∧
    (∀ t, syncFixedVal (symlink t) = true ∧ syncFixedVal (link t) = true) ∧
    (∀ (c : JSValue) (m : FSMeta), syncFixedVal c = true →
      syncFixedVal (metadata c m) = true) :=
  ⟨fun _ _ _ _ _ hfs habs htr => processDirectory_sync_eq hfs habs htr,
    fun cwd p _ fs h => createFileTree_sync_eq cwd p fs h,
    fun t => ⟨syncFixedVal_symlink_ctor t, syncFixedVal_link_ctor t⟩,
    fun c m h => syncFixedVal_metadata_ctor c m h⟩

/-- Witness for C3 (amended): a concrete scan of `/src` and a concrete
materialization of `{f.txt: "hi", ln: symlink("f.txt")}` agree between the
variants. -/
theorem C3_amended_sync_async_agree_witness :
    CanonFS [("/src", FSNode.dirN none), ("/src/a.txt", FSNode.fileN "hi" none),
      ("/src/d", FSNode.dirN none)] ∧
    isAbs "/src" = true ∧ ("/src" : String).data.getLast? ≠ some '/' ∧
    processDirectory
        [("/src", FSNode.dirN none), ("/src/a.txt", FSNode.fileN "hi" none),
          ("/src/d", FSNode.dirN none)] "/"
        ⟨[], true, fun _ => some "utf-8"⟩ 4 "/src" =
      processDirectorySync
        [("/src", FSNode.dirN none), ("/src/a.txt", FSNode.fileN "hi" none),
          ("/src/d", FSNode.dirN none)] "/"
        ⟨[], true, fun _ => some "utf-8"⟩ 4 "/src" ∧
    syncFixedVal (JSValue.vobj
      [("f.txt", JSValue.vstr "hi"), ("ln", symlink "f.txt")] noTags) = true ∧
    createFileTree "/" "/dest"
        (JSValue.vobj [("f.txt", JSValue.vstr "hi"), ("ln", symlink "f.txt")]
          noTags) [("/dest", FSNode.dirN none)] =
      createFileTreeSync "/" "/dest"
        (JSValue.vobj [("f.txt", JSValue.vstr "hi"), ("ln", symlink "f.txt")]
          noTags) [("/dest", FSNode.dirN none)] :=
  ⟨by unfold CanonFS; decide, by decide, by decide,
    C3_amended_sync_async_agree.1 _ "/" ⟨[], true, fun _ => some "utf-8"⟩ 4 "/src"
      (by unfold CanonFS; decide) (by decide) (by decide),
    by decide,
    C3_amended_sync_async_agree.2.1 "/" "/dest" _ _ (by decide)⟩

/-- C4 counterexample: materializing a provenance-carrying tree overwrites the
symlink marker's stored `path` ("t") with the re-based target ("../src/ln"),
so the input tree is mutated. -/
theorem C4_counterexample :
    (resultTree (createFileTree "/" "/dest"
        (.vobj [("ln", symlink "t")] { noTags with origPath := some "/src" })
        [("/dest", .dirN none), ("/src", .dirN none)])).map
      (fun t => strField (objGet t "ln") "path") = some "../src/ln" ∧
    strField (objGet (.vobj [("ln", symlink "t")]
      { noTags with origPath := some "/src" }) "ln") "path" = "t" ∧
    ("../src/ln" : String) ≠ "t" := by
  refine ⟨by decide, by decide, by decide⟩

/-- C4 (amended): on success, both materializers hand back — and, since the
JavaScript original mutates in place, leave the caller's tree turned into —
exactly `rebaseValue` of the input: the tree unchanged except that at levels
whose iterated object carries a provenance slot every symbolic-link marker's
stored `path` is overwritten with the re-based target.  A tree with no
provenance slot at any level is returned completely unchanged. -/
theorem C4_amended_mutation :
    (∀ (cwd p : String) (files : JSValue) (fs fs' : FS) (files' : JSValue),
      createFileTree cwd p files fs = .ok (fs', files') →
      files' = rebaseValue cwd p files) ∧
    (∀ (cwd p : String) (files : JSValue) (fs fs' : FS) (files' : JSValue),
      createFileTreeSync cwd p files fs = .ok (fs', files') →
      files' = rebaseValue cwd p files) ∧
    (∀ (cwd p : String) (files : JSValue), noProvVal files = true →
      rebaseValue cwd p files = files) :=
  ⟨fun _ _ _ _ _ _ h => createFileTree_returns_rebase h,
    fun _ _ _ _ _ _ h => createFileTreeSync_returns_rebase h,
    fun _ _ _ h => rebaseValue_id h⟩

/-- Witness for C4 (amended): a concrete provenance-carrying run returns the
re-based tree, and a concrete provenance-free tree re-bases to itself. -/
theorem C4_amended_mutation_witness :
    createFileTree "/" "/dest"
        (JSValue.vobj [("ln", symlink "a")] { noTags with origPath := some "/src" })
        [("/dest", FSNode.dirN none)] =
      .ok ([("/dest", FSNode.dirN none),
          ("/dest/ln", FSNode.symlinkN "../src/ln" "file")],
        JSValue.vobj [("ln", JSValue.vobj [("path", JSValue.vstr "../src/ln")]
            { noTags with symlinkTag := true })]
          { noTags with origPath := some "/src" }) ∧
    JSValue.vobj [("ln", JSValue.vobj [("path", JSValue.vstr "../src/ln")]
        { noTags with symlinkTag := true })]
      { noTags with origPath := some "/src" } =
      rebaseValue "/" "/dest"
        (JSValue.vobj [("ln", symlink "a")]
          { noTags with origPath := some "/src" }) ∧
    noProvVal (JSValue.vobj [("f.txt", JSValue.vstr "hi")] noTags) = true ∧
    rebaseValue "/" "/dest" (JSValue.vobj [("f.txt", JSValue.vstr "hi")] noTags) =
      JSValue.vobj [("f.txt", JSValue.vstr "hi")] noTags :=
  ⟨rfl,
    (C4_amended_mutation.1 "/" "/dest"
        (JSValue.vobj [("ln", symlink "a")] { noTags with origPath := some "/src" })
        [("/dest", FSNode.dirN none)]
        [("/dest", FSNode.dirN none),
          ("/dest/ln", FSNode.symlinkN "../src/ln" "file")]
        (JSValue.vobj [("ln", JSValue.vobj [("path", JSValue.vstr "../src/ln")]
            { noTags with symlinkTag := true })]
          { noTags with origPath := some "/src" })
        rfl).symm.symm,
    by decide,
    C4_amended_mutation.2.2 "/" "/dest"
      (JSValue.vobj [("f.txt", JSValue.vstr "hi")] noTags) (by decide)⟩

/-- C6 (code bug): materializing `{"d": {}, "ln": symlink("d")}` at `/dest`,
the marker's target `d`, resolved relative to the link's own containing
directory, is a directory at link-creation time — the spec therefore requires
the `junction` type — yet the code passes the link's own not-yet-existing
path to the probe and creates the symlink with type `file`. -/
theorem C6_type_probe_bug :
    (resultFS (createFileTree "/" "/dest"
        (.vobj [("d", .vobj [] noTags), ("ln", symlink "d")] noTags)
        [("/dest", .dirN none)])).map
      (fun fs => (fsLookup fs "/dest/ln",
        isDirectoryFS fs "/" (jsResolve "/" [jsDirname "/dest/ln", "d"])))
      = some (some (.symlinkN "d" "file"), true) := by
  decide

/-- C10: when scanning succeeds with an extras option, the extras entries are
spread-merged into the top-level result after the scan; an entry name present
in both takes the extras value, and a name present only in the scan keeps the
scanned value. -/
theorem C10_extras_override (fs : FS) (cwd p : String) (opts : ScanOptions)
    (efields : List (String × JSValue)) (etags : Tags) (scanned : JSValue)
    (hdir : isDirectoryFS fs cwd p = true)
    (hscan : processDirectory fs cwd opts (fs.length + 1) p = .ok scanned) :
    fromFileSystem fs cwd p opts (some (.vobj efields etags)) =
      .ok (spreadObjs scanned (.vobj efields etags)) ∧
    (∀ k v, efields.lookup k = some v →
      objGet (spreadObjs scanned (.vobj efields etags)) k = v) ∧
    (∀ k, efields.lookup k = none →
      objGet (spreadObjs scanned (.vobj efields etags)) k = objGet scanned k) := by
  obtain ⟨sfields, stags, hshape⟩ :
      ∃ sfields stags, scanned = JSValue.vobj sfields stags := by
    rw [processDirectory] at hscan
    cases hse : scanEntries fs cwd opts (fs.length + 1) p
        (listingOf fs cwd opts p) with
    | ok fields =>
      rw [hse] at hscan
      exact ⟨fields, _, (Except.ok.injEq _ _ ▸ hscan).symm⟩
    | error e =>
      rw [hse] at hscan
      exact absurd hscan (by simp)
  refine ⟨by simp [fromFileSystem, hdir, hscan], ?_, ?_⟩
  · intro k v hk
    subst hshape
    simp only [spreadObjs, objGet, lookup_spreadFields]
    cases hs : sfields.lookup k <;> simp [hk]
  · intro k hk
    subst hshape
    simp only [spreadObjs, objGet, lookup_spreadFields]
    cases hs : sfields.lookup k <;> simp [hk]

/-- Witness for C10 on a concrete filesystem: the extras value wins for
`x.txt`, which exists both on disk and in extras. -/
theorem C10_extras_override_witness :
    objGet (spreadObjs
      (.vobj [("x.txt", .vstr "disk")] { noTags with origPath := some "/d" })
      (.vobj [("x.txt", .vstr "extra"), ("y.txt", .vstr "new")] noTags)) "x.txt"
      = .vstr "extra" :=
  (C10_extras_override
    [("/d", .dirN none), ("/d/x.txt", .fileN "disk" none)] "/" "/d"
    (resolveOptions none none none)
    [("x.txt", .vstr "extra"), ("y.txt", .vstr "new")] noTags
    (.vobj [("x.txt", .vstr "disk")] { noTags with origPath := some "/d" })
    rfl rfl).2.1 "x.txt" (.vstr "extra") rfl

/-- C8 counterexample: a flat-path symlink entry fails (its branch creates no
intermediate directories) while the equivalent nested entry succeeds; and a
flat-path metadata-wrapped directory applies the wrapped mode to the implied
intermediate directory while the nested form does not. -/
theorem C8_counterexample :
    isError (createFileTree "/" "/dest"
      (.vobj [("sub/ln.txt", symlink "x")] noTags) [("/dest", .dirN none)]) = true ∧
    (resultFS (createFileTree "/" "/dest"
        (.vobj [("sub", .vobj [("ln.txt", symlink "x")] noTags)] noTags)
        [("/dest", .dirN none)])).map (fun fs => fsLookup fs "/dest/sub/ln.txt")
      = some (some (.symlinkN "x" "file")) ∧
    (resultFS (createFileTree "/" "/dest"
        (.vobj [("a/b", metadata (.vobj [] noTags) ⟨some 292⟩)] noTags)
        [("/dest", .dirN none)])).map (fun fs => fsLookup fs "/dest/a")
      = some (some (.dirN (some 292))) ∧
    (resultFS (createFileTree "/" "/dest"
        (.vobj [("a", .vobj [("b", metadata (.vobj [] noTags) ⟨some 292⟩)] noTags)]
          noTags)
        [("/dest", .dirN none)])).map (fun fs => fsLookup fs "/dest/a")
      = some (some (.dirN none)) := by
  refine ⟨by decide, by decide, by decide, by decide⟩

/-- C8 (amended): for primitive content — optionally metadata-wrapped — and
for plain (untagged, unwrapped) directory content, a flat-path entry
`"D₁/…/Dₙ/k"` materializes exactly like the equivalent nested object
`{D₁: {… {Dₙ: {k: content}} …}}`, in the async and in the sync materializer,
and on success every implied intermediate directory exists in the resulting
filesystem.  (Hard-link, symlink-marker and metadata-wrapped-directory
content is excluded: see the counterexample.) -/
theorem C8_amended_flat_nested (cwd dest : String) (fs : FS) (D : List String)
    (k : String) (v : JSValue) (hD : CleanSegs D) (hk : cleanSeg k = true)
    (hv : isPrimitive (innerData v) = true ∨
      (hasMetadata v = false ∧ isLink v = false ∧ isSymlink v = false ∧
        isPrimitive v = false)) :
    (resultFS (createFileTree cwd dest
        (JSValue.vobj [(rawJoin (D ++ [k]), v)] noTags) fs) =
      resultFS (createFileTree cwd dest (nestValue D k v) fs)) ∧
    (resultFS (createFileTreeSync cwd dest
        (JSValue.vobj [(rawJoin (D ++ [k]), v)] noTags) fs) =
      resultFS (createFileTreeSync cwd dest (nestValue D k v) fs)) ∧
    (∀ fs', resultFS (createFileTree cwd dest
        (JSValue.vobj [(rawJoin (D ++ [k]), v)] noTags) fs) = some fs' →
      ∀ q ∈ prefixesOf (mkAbs (resolveSegs cwd [dest] ++ D)),
        ∃ m, fsLookup fs' q = some (FSNode.dirN m)) := by
  have hE : CleanSegs (resolveSegs cwd [dest]) := cleanSegs_resolveSegs cwd [dest]
  have hfl : entsSize (entriesOfValue
      (JSValue.vobj [(rawJoin (D ++ [k]), v)] noTags)) = 1 + jsSize v := by
    simp [entriesOfValue, entsSize]
  have hflatA : resultFS (createFileTree cwd dest
      (JSValue.vobj [(rawJoin (D ++ [k]), v)] noTags) fs) =
      coreRun cwd (resolveSegs cwd [dest]) D k v fs := by
    rw [resultFS_createFileTree]
    exact flat_run_core hD hk hv (by rw [hfl]; omega) fs
  have hflatS : resultFS (createFileTreeSync cwd dest
      (JSValue.vobj [(rawJoin (D ++ [k]), v)] noTags) fs) =
      coreRunSync cwd (resolveSegs cwd [dest]) D k v fs := by
    rw [resultFS_createFileTreeSync]
    exact flat_run_core_sync hD hk hv (by rw [hfl]; omega) fs
  have hnestA : resultFS (createFileTree cwd dest (nestValue D k v) fs) =
      coreRun cwd (resolveSegs cwd [dest]) D k v fs := by
    rw [resultFS_createFileTree, nestValue_tags]
    exact nested_run_core hk hv D hD dest
      (entsSize (entriesOfValue (nestValue D k v)) + 1)
      (by rw [entsSize_nestValue]; omega) fs
  have hnestS : resultFS (createFileTreeSync cwd dest (nestValue D k v) fs) =
      coreRunSync cwd (resolveSegs cwd [dest]) D k v fs := by
    rw [resultFS_createFileTreeSync, nestValue_tags]
    exact nested_run_core_sync hk hv D hD dest
      (entsSize (entriesOfValue (nestValue D k v)) + 1)
      (by rw [entsSize_nestValue]; omega) fs
  refine ⟨by rw [hflatA, hnestA], by rw [hflatS, hnestS], ?_⟩
  intro fs' hfs' q hq
  rw [hflatA] at hfs'
  rcases hv with hp | ⟨hmeta, hlink, hsym, hprim⟩
  · simp only [coreRun] at hfs'
    rw [if_pos hp] at hfs'
    revert hfs'
    cases hmk : mkdirRec fs (mkAbs (resolveSegs cwd [dest] ++ D)) none with
    | error e => intro hfs'; exact Option.noConfusion hfs'
    | ok fs1 =>
      dsimp only
      cases hwf : writeFileFS fs1 (mkAbs (resolveSegs cwd [dest] ++ D ++ [k]))
          (writtenContent (innerData v))
          ((if hasMetadata v = true then (tagsOf v).metaTag
            else none).bind fun x => x.mode) with
      | error e => intro hfs'; exact Option.noConfusion hfs'
      | ok fs2 =>
        intro hfs'
        injection hfs' with h2
        subst h2
        obtain ⟨mm, hmm⟩ := mkdirFold_mem_dir hmk q hq
        exact ⟨mm, writeFileFS_preserve hwf
          (fun c m3 h => FSNode.noConfusion h) hmm⟩
  · simp only [coreRun, innerData_no_meta hmeta, hprim, hmeta,
      Bool.false_eq_true, if_false] at hfs'
    revert hfs'
    cases hmk : mkdirRec fs (mkAbs (resolveSegs cwd [dest] ++ D ++ [k]))
        (dirModeOf none) with
    | error e => intro hfs'; exact Option.noConfusion hfs'
    | ok fs1 =>
      dsimp only
      cases hrec : createEntries cwd (entsSize (entriesOfValue v) + 1)
          (mkAbs (resolveSegs cwd [dest] ++ D ++ [k])) (tagsOf v).origPath
          (entriesOfValue v) fs1 with
      | error e => intro hfs'; exact Option.noConfusion hfs'
      | ok r =>
        obtain ⟨fs2, ents2⟩ := r
        intro hfs'
        injection hfs' with h2
        subst h2
        have hq2 : q ∈ prefixesOf (mkAbs (resolveSegs cwd [dest] ++ D ++ [k])) := by
          rw [prefixesOf_append (CleanSegs_append hE hD) (CleanSegs_single hk)]
          exact List.mem_append_left _ hq
        obtain ⟨mm, hmm⟩ := mkdirFold_mem_dir hmk q hq2
        exact ⟨mm, createEntries_preserve cwd hrec
          (fun c m3 h => FSNode.noConfusion h) hmm⟩

/-- Witness for C8 (amended) at a concrete flat-path entry
`{"sub/f.txt": "hi"}` against `{"sub": {"f.txt": "hi"}}`. -/
theorem C8_amended_flat_nested_witness :
    CleanSegs ["sub"] ∧ cleanSeg "f.txt" = true ∧
    isPrimitive (innerData (JSValue.vstr "hi")) = true ∧
    ((resultFS (createFileTree "/" "/dest"
        (JSValue.vobj [(rawJoin (["sub"] ++ ["f.txt"]), JSValue.vstr "hi")]
          noTags) []) =
      resultFS (createFileTree "/" "/dest"
        (nestValue ["sub"] "f.txt" (JSValue.vstr "hi")) [])) ∧
    (resultFS (createFileTreeSync "/" "/dest"
        (JSValue.vobj [(rawJoin (["sub"] ++ ["f.txt"]), JSValue.vstr "hi")]
          noTags) []) =
      resultFS (createFileTreeSync "/" "/dest"
        (nestValue ["sub"] "f.txt" (JSValue.vstr "hi")) [])) ∧
    (∀ fs', resultFS (createFileTree "/" "/dest"
        (JSValue.vobj [(rawJoin (["sub"] ++ ["f.txt"]), JSValue.vstr "hi")]
          noTags) []) = some fs' →
      ∀ q ∈ prefixesOf (mkAbs (resolveSegs "/" ["/dest"] ++ ["sub"])),
        ∃ m, fsLookup fs' q = some (FSNode.dirN m))) :=
  ⟨CleanSegs_single (by decide), by decide, by decide,
    C8_amended_flat_nested "/" "/dest" [] ["sub"] "f.txt" (JSValue.vstr "hi")
      (CleanSegs_single (by decide)) (by decide) (Or.inl (by decide))⟩

end Testdirs
